import Mathlib

/-!
# Verification of the text-sql constrained NL→SQL pipeline

This file gives a shallow embedding of the deterministic core of the
text-sql repository (the SQL Guard `sql_guard.py`, the AST validator
`ast_validator.py`, the validation engine `validation_engine.py`, the
planner-response handling of `llm_planner.py` and the table shortlister of
`run_nl2sql_clean.py`) and settles the frozen claims C1–C10 against it.

Python strings are modelled as `List Char`; the regular-expression based
string rewrites of the source are translated into explicit character /
word-run scanners.  The third-party SQL parser and emitter (sqlglot,
MySQL dialect) is modelled by an executable tokenizer, recursive-descent
parse and renderer over the fragment of SQL the pipeline manipulates
(single-table SELECT / binary UNION, comparison and NULL-test predicates,
the five aggregate functions, GROUP BY / ORDER BY / LIMIT), mirroring how
sqlglot attaches trailing ORDER BY / LIMIT modifiers to the outermost
query node and how it prints this fragment.

Scanning functions that consume a variable number of segments per step
use a fuel argument for totality; fuel is always instantiated with the
length of the scanned list, which every proof and evaluation below keeps
sufficient (each step consumes at least one element).
-/

namespace TextSql

/-! ## Characters and elementary string operations -/

/-- The backtick character (MySQL identifier quote). -/
def tickChar : Char := Char.ofNat 96

/-- Python's `\w` on ASCII input: letters, digits, underscore. -/
def isWordChar (c : Char) : Bool :=
  c.isAlpha || c.isDigit || c == '_'

/-- Python's `\s` on the whitespace the pipeline meets. -/
def isSpaceChar (c : Char) : Bool :=
  c == ' ' || c == '\t' || c == '\n' || c == '\r'

/-- Lower-case a character list (`str.lower()` on ASCII). -/
def lowerChars (s : List Char) : List Char := s.map Char.toLower

/-- Python's substring test `p in s`. -/
def infixOf (p s : List Char) : Bool :=
  s.tails.any (fun t => p.isPrefixOf t)

/-- Python's `str.strip()`. -/
def stripChars (s : List Char) : List Char :=
  ((s.dropWhile isSpaceChar).reverse.dropWhile isSpaceChar).reverse

/-- Collapse whitespace runs to single blanks, given whether the previous
character was whitespace. -/
def collapseWsGo : Bool → List Char → List Char
  | _, [] => []
  | prevSp, c :: rest =>
    if isSpaceChar c then
      if prevSp then collapseWsGo true rest
      else ' ' :: collapseWsGo true rest
    else c :: collapseWsGo false rest

/-- `re.sub(r'\s+', ' ', s.strip())`. -/
def squashWs (s : List Char) : List Char :=
  collapseWsGo false (stripChars s)

/-! ## Word-run segmentation

Most regexes of the source act on `\w+` word runs with one character of
look-around.  We segment a string into maximal word runs and single
non-word characters; word boundaries (`\b`) fall exactly at segment
borders of this decomposition. -/

inductive Seg
  | run (r : List Char)
  | other (c : Char)
deriving DecidableEq, Repr

/-- Scanner for `chunkRuns`; `pend` is the reversed word run read so far. -/
def chunkGo (pend : List Char) : List Char → List Seg
  | [] => if pend = [] then [] else [Seg.run pend.reverse]
  | c :: rest =>
    if isWordChar c then chunkGo (c :: pend) rest
    else
      (if pend = [] then [] else [Seg.run pend.reverse]) ++
        Seg.other c :: chunkGo [] rest

/-- Segment a string into maximal word-character runs and single other
characters. -/
def chunkRuns (s : List Char) : List Seg := chunkGo [] s

/-- Flatten a segment list back to a string. -/
def flattenSegs : List Seg → List Char
  | [] => []
  | Seg.run r :: rest => r ++ flattenSegs rest
  | Seg.other c :: rest => c :: flattenSegs rest

/-! ## `ast_validator.py` — predicate normalization (claim C2) -/

/-- `re.sub(r'\b\w+\.', '', s)`: drop every word run that is directly
followed by a dot, together with the dot.  In the segmented view a word
run always starts at a word boundary, so this is exactly the regex. -/
def dropTablePrefixSegs : List Seg → List Seg
  | Seg.run _ :: Seg.other '.' :: rest => dropTablePrefixSegs rest
  | s :: rest => s :: dropTablePrefixSegs rest
  | [] => []

/-- Character class `[a-z_]`. -/
def isIdentStart (c : Char) : Bool :=
  c.isLower || c == '_'

/-- Character class `[a-z0-9_]`. -/
def isIdentChar (c : Char) : Bool :=
  c.isLower || c.isDigit || c == '_'

/-- A word run matching `[a-z_][a-z0-9_]*` entirely (the regex must reach
the following `\s+`, so it always consumes the whole run). -/
def isLowerIdentRun : List Char → Bool
  | [] => false
  | c :: cs => isIdentStart c && cs.all isIdentChar

/-- Consume zero-or-more whitespace segments. -/
def eatSpaces0 : List Seg → List Seg
  | Seg.other c :: rest =>
    if isSpaceChar c then eatSpaces0 rest else Seg.other c :: rest
  | l => l

/-- Consume one-or-more whitespace segments (`\s+`). -/
def eatSpaces1 : List Seg → Option (List Seg)
  | Seg.other c :: rest =>
    if isSpaceChar c then some (eatSpaces0 rest) else none
  | _ => none

/-- Expect a given lower-case word run at the head. -/
def eatWord (w : List Char) : List Seg → Option (List Seg)
  | Seg.run r :: rest => if r = w then some rest else none
  | _ => none

/-- Try to match, at the head of a segment list,
`\bnot\s+([a-z_][a-z0-9_]*)\s+is\s+(not\s+)?null\b` with `negInner`
selecting whether the inner `not` must be present (the input is already
lower-cased when this runs).  Returns the captured identifier and the
remainder after the match.  Word boundaries are automatic at segment
borders. -/
def matchNotIsNull (negInner : Bool) (l : List Seg) :
    Option (List Char × List Seg) := do
  let l ← eatWord ['n', 'o', 't'] l
  let l ← eatSpaces1 l
  match l with
  | Seg.run ident :: l =>
    if isLowerIdentRun ident then do
      let l ← eatSpaces1 l
      let l ← eatWord ['i', 's'] l
      let l ← eatSpaces1 l
      if negInner then do
        let l ← eatWord ['n', 'o', 't'] l
        let l ← eatSpaces1 l
        let l ← eatWord ['n', 'u', 'l', 'l'] l
        some (ident, l)
      else do
        let l ← eatWord ['n', 'u', 'l', 'l'] l
        some (ident, l)
    else none
  | _ => none

/-- One `re.sub` pass for the two NULL-test normalizations of
`normalize_predicate`; `negInner = false` rewrites
`not X is null → X is not null`, `negInner = true` rewrites
`not X is not null → X is null`.  A match can only start at a word run
equal to `not` (a word boundary), so advancing segment-wise agrees with
the character-wise regex scan. -/
def rewriteNotNullGo (negInner : Bool) : Nat → List Seg → List Seg
  | 0, l => l
  | _ + 1, [] => []
  | fuel + 1, s :: rest =>
    match matchNotIsNull negInner (s :: rest) with
    | some (ident, after) =>
      let repl : List Seg :=
        if negInner then
          [Seg.run ident, Seg.other ' ', Seg.run ['i', 's'], Seg.other ' ',
            Seg.run ['n', 'u', 'l', 'l']]
        else
          [Seg.run ident, Seg.other ' ', Seg.run ['i', 's'], Seg.other ' ',
            Seg.run ['n', 'o', 't'], Seg.other ' ', Seg.run ['n', 'u', 'l', 'l']]
      repl ++ rewriteNotNullGo negInner fuel after
    | none => s :: rewriteNotNullGo negInner fuel rest

/-- Apply one of the NULL-test rewrites to a string. -/
def rewriteNotNull (negInner : Bool) (s : List Char) : List Char :=
  let segs := chunkRuns s
  flattenSegs (rewriteNotNullGo negInner segs.length segs)

/-- `ast_validator.normalize_predicate`: lower-case, strip `word.` table
prefixes, normalize `NOT X IS NULL` / `NOT X IS NOT NULL`, squash
whitespace. -/
def normalize_predicate (s : List Char) : List Char :=
  let s1 := lowerChars s
  let s2 := flattenSegs (dropTablePrefixSegs (chunkRuns s1))
  let s3 := rewriteNotNull false s2
  let s4 := rewriteNotNull true s3
  squashWs s4

/-- Split a segment list at every word run equal (case-insensitively) to
`and` — the model of `re.split(r"(?i)\band\b", predicate)`. -/
def splitAndSegs : List Seg → List (List Seg)
  | [] => [[]]
  | Seg.run r :: rest =>
    if lowerChars r = ['a', 'n', 'd'] then
      [] :: splitAndSegs rest
    else
      match splitAndSegs rest with
      | part :: parts => (Seg.run r :: part) :: parts
      | [] => [[Seg.run r]]
  | Seg.other c :: rest =>
    match splitAndSegs rest with
    | part :: parts => (Seg.other c :: part) :: parts
    | [] => [[Seg.other c]]

/-- `re.split(r"(?i)\band\b", predicate)` as strings. -/
def splitOnAnd (s : List Char) : List (List Char) :=
  (splitAndSegs (chunkRuns s)).map flattenSegs

/-- Strip one pair of wrapping parentheses: the body of the loop of
`decompose_predicate_to_atoms`. -/
def stripOneParenPair (p : List Char) : List Char :=
  let s := stripChars p
  match s with
  | c :: rest =>
    if c = '(' && s.getLast? = some ')' then
      stripChars (rest.dropLast)
    else s
  | [] => s

/-- `ast_validator.decompose_predicate_to_atoms`. -/
def decompose_predicate_to_atoms (predicate : List Char) : List (List Char) :=
  if predicate = [] then []
  else
    ((splitOnAnd predicate).map stripOneParenPair).filter (fun s => s ≠ [])

/-- `ast_validator.check_predicate_presence`: every atom of the (AND-split)
required predicate must, after normalization, occur as a substring of some
normalized WHERE condition. -/
def check_predicate_presence (whereConditions : List (List Char))
    (requiredPredicate : List Char) : Bool :=
  let atoms := decompose_predicate_to_atoms requiredPredicate
  if atoms = [] then false
  else
    atoms.all fun atom =>
      whereConditions.any fun condition =>
        infixOf (normalize_predicate atom) (normalize_predicate condition)

/-- Split on the word `and` (case-insensitive, with word boundaries)
occurring at parenthesis depth 0 only.  Helper for the spec-worded
decomposition of claim C2. -/
def splitTopGo : Nat → List Char → List Char → List (List Char)
  | _, acc, [] => [acc.reverse]
  | depth, acc, c :: n :: d :: rest2 =>
    if c = '(' then splitTopGo (depth + 1) (c :: acc) (n :: d :: rest2)
    else if c = ')' then splitTopGo (depth - 1) (c :: acc) (n :: d :: rest2)
    else if depth = 0 && (c = 'a' || c = 'A') && (n = 'n' || n = 'N') &&
        (d = 'd' || d = 'D') && (acc.head?.all (fun p => !isWordChar p)) &&
        (rest2.head?.all (fun q => !isWordChar q)) then
      acc.reverse :: splitTopGo 0 [] rest2
    else splitTopGo depth (c :: acc) (n :: d :: rest2)
  | depth, acc, c :: rest =>
    if c = '(' then splitTopGo (depth + 1) (c :: acc) rest
    else if c = ')' then splitTopGo (depth - 1) (c :: acc) rest
    else splitTopGo depth (c :: acc) rest

/-- Modelled from the spec (claim C2's wording): decompose by splitting on
`AND` *at top level only* (not inside parentheses), stripping one pair of
wrapping parentheses per atom.  Used solely to state the claim as written;
the source splits on every `AND` occurrence regardless of nesting. -/
def decomposeTopLevelSpec (predicate : List Char) : List (List Char) :=
  if predicate = [] then []
  else
    ((splitTopGo 0 [] predicate).map stripOneParenPair).filter (fun s => s ≠ [])

/-! ## `validation_engine.deterministic_selection` (claim C5) -/

/-- A generated SQL candidate as the validation engine sees it. -/
structure Candidate where
  sql : List Char
  repaired : Bool
deriving DecidableEq, Repr

/-- The sort key of `deterministic_selection`:
`(is_repaired, len(sql), original_index)`, with Python's
`False < True` encoded as `0 < 1`. -/
def selection_key (item : Nat × Candidate) : Nat × Nat × Nat :=
  ((if item.2.repaired then 1 else 0), item.2.sql.length, item.1)

/-- Lexicographic `≤` on key triples (Python tuple comparison). -/
def tripleLe (a b : Nat × Nat × Nat) : Bool :=
  decide (a.1 < b.1 ∨ (a.1 = b.1 ∧
    (a.2.1 < b.2.1 ∨ (a.2.1 = b.2.1 ∧ a.2.2 ≤ b.2.2))))

/-- Lexicographic `<` on key triples. -/
def tripleLt (a b : Nat × Nat × Nat) : Bool :=
  decide (a.1 < b.1 ∨ (a.1 = b.1 ∧
    (a.2.1 < b.2.1 ∨ (a.2.1 = b.2.1 ∧ a.2.2 < b.2.2))))

/-- `validation_engine.deterministic_selection`: stable-sort the passing
candidates (paired with their original indices) by `selection_key`
ascending and return the first; `None` on the empty list. -/
def deterministic_selection (candidates : List (Nat × Candidate)) :
    Option Candidate :=
  match candidates.mergeSort
      (fun a b => tripleLe (selection_key a) (selection_key b)) with
  | [] => none
  | best :: _ => some best.2

/-! ## Model of the sqlglot MySQL fragment — tokens -/

inductive Tok
  | word (r : List Char)
  | num (n : Nat)
  | quot (r : List Char)
  | comma
  | dot
  | lparen
  | rparen
  | star
  | opEq
  | opNe
  | opLt
  | opGt
  | opLe
  | opGe
  | rawtext (s : List Char)
deriving DecidableEq, Repr

/-- Value of a digit run. -/
def natOfDigits (ds : List Char) : Nat :=
  ds.foldl (fun a c => 10 * a + (c.toNat - 48)) 0

/-- Decimal digits of `n`, most significant first (empty for 0). -/
def natDigitsAux : Nat → Nat → List Char
  | 0, _ => []
  | fuel + 1, n =>
    if n = 0 then []
    else natDigitsAux fuel (n / 10) ++ [Char.ofNat (48 + n % 10)]

/-- Decimal spelling of a natural number (Python's `str(int)`). -/
def natDigits (n : Nat) : List Char :=
  if n = 0 then ['0'] else natDigitsAux (n + 1) n

/-- Tokenize a SQL string (fuel-driven scanner; each step consumes at
least one character, so `s.length + 1` fuel always suffices). -/
def tokenizeGo : Nat → List Char → Except String (List Tok)
  | 0, _ => .error "tokenizer fuel exhausted"
  | _ + 1, [] => .ok []
  | fuel + 1, c :: rest =>
    if isSpaceChar c then tokenizeGo fuel rest
    else if c.isDigit then
      let ds := c :: rest.takeWhile Char.isDigit
      let after := rest.dropWhile Char.isDigit
      if after.head?.any isWordChar then .error "malformed number"
      else (Tok.num (natOfDigits ds) :: ·) <$> tokenizeGo fuel after
    else if isWordChar c then
      (Tok.word (c :: rest.takeWhile isWordChar) :: ·) <$>
        tokenizeGo fuel (rest.dropWhile isWordChar)
    else if c = tickChar then
      let r := rest.takeWhile isWordChar
      match rest.dropWhile isWordChar with
      | d :: rest2 =>
        if d = tickChar && !r.isEmpty && !(r.headD ' ').isDigit then
          (Tok.quot r :: ·) <$> tokenizeGo fuel rest2
        else .error "malformed quoted identifier"
      | [] => .error "unterminated quoted identifier"
    else if c = ',' then (Tok.comma :: ·) <$> tokenizeGo fuel rest
    else if c = '.' then (Tok.dot :: ·) <$> tokenizeGo fuel rest
    else if c = '(' then (Tok.lparen :: ·) <$> tokenizeGo fuel rest
    else if c = ')' then (Tok.rparen :: ·) <$> tokenizeGo fuel rest
    else if c = '*' then (Tok.star :: ·) <$> tokenizeGo fuel rest
    else if c = '=' then (Tok.opEq :: ·) <$> tokenizeGo fuel rest
    else if c = '<' then
      match rest with
      | '>' :: rest2 => (Tok.opNe :: ·) <$> tokenizeGo fuel rest2
      | '=' :: rest2 => (Tok.opLe :: ·) <$> tokenizeGo fuel rest2
      | _ => (Tok.opLt :: ·) <$> tokenizeGo fuel rest
    else if c = '>' then
      match rest with
      | '=' :: rest2 => (Tok.opGe :: ·) <$> tokenizeGo fuel rest2
      | _ => (Tok.opGt :: ·) <$> tokenizeGo fuel rest
    else if c = '!' then
      match rest with
      | '=' :: rest2 => (Tok.opNe :: ·) <$> tokenizeGo fuel rest2
      | _ => .error "unsupported character"
    else .error "unsupported character"

/-- Tokenize with sufficient fuel. -/
def tokenize (s : List Char) : Except String (List Tok) :=
  tokenizeGo (s.length + 1) s

/-! ## Model of the sqlglot MySQL fragment — abstract syntax

Identifiers carry their raw spelling and quoting; an unquoted identifier
is never one of the reserved keywords of the fragment (the parse would
not have produced it), which the type records. -/

/-- Keywords of the fragment that can never be a bare identifier. -/
def RESERVEDW : List (List Char) :=
  ["select", "from", "where", "group", "by", "order", "limit", "and",
    "not", "is", "null", "union", "all", "as"].map String.data

/-- A well-formed raw identifier spelling: non-empty word characters, not
starting with a digit. -/
def wordRawOk : List Char → Bool
  | [] => false
  | c :: cs => isWordChar c && !c.isDigit && cs.all isWordChar

/-- Identifier well-formedness: bare identifiers are never reserved
keywords. -/
def identOk (raw : List Char) (quoted : Bool) : Bool :=
  wordRawOk raw && (quoted || !(RESERVEDW.contains (lowerChars raw)))

structure SqlIdent where
  raw : List Char
  quoted : Bool
  ok : identOk raw quoted = true

/-- The five aggregate functions the Guard recognizes
(`exp.Count/Sum/Avg/Min/Max`). -/
inductive AggF
  | count
  | sum
  | avg
  | amin
  | amax
deriving DecidableEq, Repr

inductive CmpOp
  | ceq
  | cne
  | clt
  | cgt
  | cle
  | cge
deriving DecidableEq, Repr

/-- Scalar operand: a (possibly table-qualified) column, a number
literal, or an aggregate call (argument `none` is `*`). -/
inductive Operand
  | col (tbl : Option SqlIdent) (name : SqlIdent)
  | num (n : Nat)
  | agg (f : AggF) (arg : Option Operand)

/-- Condition: comparisons, NULL tests, bare operands, conjunctions,
parenthesized conditions, plus `exp.Anonymous` pseudo-calls produced only
by the repair fallback of `validation_engine._inject_missing_predicates`
(never by the parse). -/
inductive Cond
  | cmp (op : CmpOp) (l r : Operand)
  | isNullTest (e : Operand) (neg : Bool)
  | bare (e : Operand)
  | andC (l r : Cond)
  | parenC (c : Cond)
  | anonFun (raw : List Char)

/-- One ORDER BY key with its direction (`none` unspecified, `some false`
explicit ASC, `some true` DESC). -/
structure OrderItem where
  tbl : Option SqlIdent
  col : SqlIdent
  dir : Option Bool

/-- LIMIT with optional offset (`LIMIT off, cnt` MySQL form). -/
structure LimitSpec where
  offset : Option Nat
  count : Nat

/-- The projections / FROM / WHERE / GROUP BY core of one `exp.Select`,
without the trailing modifiers. -/
structure SelCore where
  projs : List Operand
  tbl : Option SqlIdent
  whereC : Option Cond
  group : List Operand

/-- A query: a single SELECT, or a binary UNION [ALL].  As in sqlglot,
the trailing ORDER BY / LIMIT modifiers attach to the outermost node:
the `exp.Select` itself for a single SELECT, the `exp.Union` node for a
union (a union-level modifier does *not* live on either `exp.Select`). -/
inductive Query
  | one (s : SelCore) (order : List OrderItem) (limit : Option LimitSpec)
  | two (l : SelCore) (unionAll : Bool) (r : SelCore)
      (order : List OrderItem) (limit : Option LimitSpec)

/-! ## Model of the sqlglot MySQL fragment — printer -/

/-- Upper-case printed name of an aggregate function. -/
def aggName : AggF → List Char
  | AggF.count => "COUNT".data
  | AggF.sum => "SUM".data
  | AggF.avg => "AVG".data
  | AggF.amin => "MIN".data
  | AggF.amax => "MAX".data

/-- Lower-case names of the aggregate functions (token classification). -/
def aggLowerNames : List (List Char) :=
  ["count", "sum", "avg", "min", "max"].map String.data

def cmpTok : CmpOp → Tok
  | CmpOp.ceq => Tok.opEq
  | CmpOp.cne => Tok.opNe
  | CmpOp.clt => Tok.opLt
  | CmpOp.cgt => Tok.opGt
  | CmpOp.cle => Tok.opLe
  | CmpOp.cge => Tok.opGe

def identToks (i : SqlIdent) : List Tok :=
  if i.quoted then [Tok.quot i.raw] else [Tok.word i.raw]

def colToks (t : Option SqlIdent) (c : SqlIdent) : List Tok :=
  match t with
  | some t => identToks t ++ [Tok.dot] ++ identToks c
  | none => identToks c

def operandToks : Operand → List Tok
  | Operand.col t c => colToks t c
  | Operand.num n => [Tok.num n]
  | Operand.agg f a =>
    [Tok.word (aggName f), Tok.lparen] ++
      (match a with
        | none => [Tok.star]
        | some e => operandToks e) ++ [Tok.rparen]

def condToks : Cond → List Tok
  | Cond.cmp op l r => operandToks l ++ [cmpTok op] ++ operandToks r
  | Cond.isNullTest e neg =>
    operandToks e ++ [Tok.word "IS".data] ++
      (if neg then [Tok.word "NOT".data] else []) ++ [Tok.word "NULL".data]
  | Cond.bare e => operandToks e
  | Cond.andC l r => condToks l ++ [Tok.word "AND".data] ++ condToks r
  | Cond.parenC c => [Tok.lparen] ++ condToks c ++ [Tok.rparen]
  | Cond.anonFun raw => [Tok.rawtext (raw ++ ['(', ')'])]

/-- Comma-separate a list of token runs. -/
def commaSep : List (List Tok) → List Tok
  | [] => []
  | [x] => x
  | x :: rest => x ++ [Tok.comma] ++ commaSep rest

def orderItemToks (o : OrderItem) : List Tok :=
  colToks o.tbl o.col ++
    (match o.dir with
      | none => []
      | some false => [Tok.word "ASC".data]
      | some true => [Tok.word "DESC".data])

def orderToks (os : List OrderItem) : List Tok :=
  if os.isEmpty then []
  else [Tok.word "ORDER".data, Tok.word "BY".data] ++ commaSep (os.map orderItemToks)

def limitToks : Option LimitSpec → List Tok
  | none => []
  | some l =>
    [Tok.word "LIMIT".data] ++
      (match l.offset with
        | none => [Tok.num l.count]
        | some off => [Tok.num off, Tok.comma, Tok.num l.count])

def selCoreToks (s : SelCore) : List Tok :=
  [Tok.word "SELECT".data] ++ commaSep (s.projs.map operandToks) ++
    (match s.tbl with
      | none => []
      | some t => [Tok.word "FROM".data] ++ identToks t) ++
    (match s.whereC with
      | none => []
      | some c => [Tok.word "WHERE".data] ++ condToks c) ++
    (if s.group.isEmpty then []
      else [Tok.word "GROUP".data, Tok.word "BY".data] ++
        commaSep (s.group.map operandToks))

def queryToks : Query → List Tok
  | Query.one s order limit => selCoreToks s ++ orderToks order ++ limitToks limit
  | Query.two l uall r order limit =>
    selCoreToks l ++ [Tok.word "UNION".data] ++
      (if uall then [Tok.word "ALL".data] else []) ++ selCoreToks r ++
      orderToks order ++ limitToks limit

/-- Printed characters of one token. -/
def tokChars : Tok → List Char
  | Tok.word r => r
  | Tok.num n => natDigits n
  | Tok.quot r => tickChar :: (r ++ [tickChar])
  | Tok.comma => [',']
  | Tok.dot => ['.']
  | Tok.lparen => ['(']
  | Tok.rparen => [')']
  | Tok.star => ['*']
  | Tok.opEq => ['=']
  | Tok.opNe => ['<', '>']
  | Tok.opLt => ['<']
  | Tok.opGt => ['>']
  | Tok.opLe => ['<', '=']
  | Tok.opGe => ['>', '=']
  | Tok.rawtext s => s

/-- Is the token a word spelling an aggregate function name? -/
def isAggWord : Tok → Bool
  | Tok.word r => aggLowerNames.contains (lowerChars r)
  | _ => false

/-- sqlglot's MySQL printer spacing for the fragment: no blank before
`,` `)` `.`, none after `(` `.`, and none between an aggregate function
name and its `(`. -/
def needSpace (a b : Tok) : Bool :=
  match b with
  | Tok.comma => false
  | Tok.rparen => false
  | Tok.dot => false
  | Tok.lparen => !isAggWord a
  | _ =>
    match a with
    | Tok.lparen => false
    | Tok.dot => false
    | _ => true

/-- Join tokens into the printed SQL text. -/
def joinToks : List Tok → List Char
  | [] => []
  | [t] => tokChars t
  | a :: b :: rest =>
    tokChars a ++ (if needSpace a b then [' '] else []) ++ joinToks (b :: rest)

/-- The sqlglot `expression.sql(dialect)` model. -/
def renderQuery (q : Query) : List Char := joinToks (queryToks q)

/-! ## Model of the sqlglot MySQL fragment — parse

Fuel-driven recursive descent; every recursive call decrements the fuel
and consumes input, so the fuel chosen by `parseSql` always suffices.
Like sqlglot, keywords are matched case-insensitively and most
non-reserved keywords (`asc`, `desc`, `check`, `key`, `user`, aggregate
names not followed by `(` …) are accepted as plain identifiers. -/

/-- Token `t` is the given keyword, case-insensitively. -/
def kwIs (t : Tok) (w : String) : Bool :=
  match t with
  | Tok.word r => lowerChars r = w.data
  | _ => false

def pIdent : List Tok → Except String (SqlIdent × List Tok)
  | Tok.word r :: rest =>
    if h : identOk r false = true then .ok (⟨r, false, h⟩, rest)
    else .error "reserved or malformed identifier"
  | Tok.quot r :: rest =>
    if h : identOk r true = true then .ok (⟨r, true, h⟩, rest)
    else .error "malformed quoted identifier"
  | _ => .error "expected identifier"

def aggOf (t : Tok) : Option AggF :=
  match t with
  | Tok.word r =>
    let l := lowerChars r
    if l = "count".data then some AggF.count
    else if l = "sum".data then some AggF.sum
    else if l = "avg".data then some AggF.avg
    else if l = "min".data then some AggF.amin
    else if l = "max".data then some AggF.amax
    else none
  | _ => none

def cmpOf : Tok → Option CmpOp
  | Tok.opEq => some CmpOp.ceq
  | Tok.opNe => some CmpOp.cne
  | Tok.opLt => some CmpOp.clt
  | Tok.opGt => some CmpOp.cgt
  | Tok.opLe => some CmpOp.cle
  | Tok.opGe => some CmpOp.cge
  | _ => none

mutual

def pOperand : Nat → List Tok → Except String (Operand × List Tok)
  | 0, _ => .error "parse fuel exhausted"
  | fuel + 1, toks =>
    match toks with
    | t :: Tok.lparen :: rest =>
      match aggOf t with
      | some f =>
        match rest with
        | Tok.star :: Tok.rparen :: rest2 => .ok (Operand.agg f none, rest2)
        | _ =>
          match pOperand fuel rest with
          | .error e => .error e
          | .ok (e, rest2) =>
            match rest2 with
            | Tok.rparen :: rest3 => .ok (Operand.agg f (some e), rest3)
            | _ => .error "expected closing parenthesis"
      | none => pColNum fuel toks
    | _ => pColNum fuel toks

def pColNum : Nat → List Tok → Except String (Operand × List Tok)
  | 0, _ => .error "parse fuel exhausted"
  | _ + 1, toks =>
    match toks with
    | Tok.num n :: rest => .ok (Operand.num n, rest)
    | _ =>
      match pIdent toks with
      | .error e => .error e
      | .ok (i, rest) =>
        match rest with
        | Tok.dot :: rest2 =>
          match pIdent rest2 with
          | .error e => .error e
          | .ok (c, rest3) => .ok (Operand.col (some i) c, rest3)
        | _ => .ok (Operand.col none i, rest)

end

mutual

def pUnit : Nat → List Tok → Except String (Cond × List Tok)
  | 0, _ => .error "parse fuel exhausted"
  | fuel + 1, toks =>
    match toks with
    | Tok.lparen :: rest =>
      match pCond fuel rest with
      | .error e => .error e
      | .ok (c, rest2) =>
        match rest2 with
        | Tok.rparen :: rest3 => .ok (Cond.parenC c, rest3)
        | _ => .error "expected closing parenthesis"
    | _ =>
      match pOperand fuel toks with
      | .error e => .error e
      | .ok (e, rest) =>
        match rest with
        | t :: rest2 =>
          match cmpOf t with
          | some op =>
            match pOperand fuel rest2 with
            | .error e => .error e
            | .ok (e2, rest3) => .ok (Cond.cmp op e e2, rest3)
          | none =>
            if kwIs t "is" then
              match rest2 with
              | t2 :: rest3 =>
                if kwIs t2 "not" then
                  match rest3 with
                  | t3 :: rest4 =>
                    if kwIs t3 "null" then .ok (Cond.isNullTest e true, rest4)
                    else .error "expected NULL"
                  | [] => .error "expected NULL"
                else if kwIs t2 "null" then .ok (Cond.isNullTest e false, rest3)
                else .error "expected NULL"
              | [] => .error "expected NULL"
            else .ok (Cond.bare e, rest)
        | [] => .ok (Cond.bare e, [])

def pCondMore : Nat → Cond → List Tok → Except String (Cond × List Tok)
  | 0, _, _ => .error "parse fuel exhausted"
  | fuel + 1, acc, toks =>
    match toks with
    | t :: rest =>
      if kwIs t "and" then
        match pUnit fuel rest with
        | .error e => .error e
        | .ok (u, rest2) => pCondMore fuel (Cond.andC acc u) rest2
      else .ok (acc, toks)
    | [] => .ok (acc, [])

def pCond : Nat → List Tok → Except String (Cond × List Tok)
  | 0, _ => .error "parse fuel exhausted"
  | fuel + 1, toks =>
    match pUnit fuel toks with
    | .error e => .error e
    | .ok (u, rest) => pCondMore fuel u rest

end

def pOperandListMore : Nat → List Operand → List Tok →
    Except String (List Operand × List Tok)
  | 0, _, _ => .error "parse fuel exhausted"
  | fuel + 1, acc, toks =>
    match toks with
    | Tok.comma :: rest =>
      match pOperand fuel rest with
      | .error e => .error e
      | .ok (e, rest2) => pOperandListMore fuel (acc ++ [e]) rest2
    | _ => .ok (acc, toks)

def pOperandList (fuel : Nat) (toks : List Tok) :
    Except String (List Operand × List Tok) :=
  match pOperand fuel toks with
  | .error e => .error e
  | .ok (e, rest) => pOperandListMore fuel [e] rest

/-- The table/column part of an ORDER BY item: `col` or `tbl.col`. -/
def pOrderCol (toks : List Tok) :
    Except String ((Option SqlIdent × SqlIdent) × List Tok) :=
  match pIdent toks with
  | .error e => .error e
  | .ok (i, rest) =>
    match rest with
    | Tok.dot :: rest2 =>
      match pIdent rest2 with
      | .error e => .error e
      | .ok (c, rest3) => .ok ((some i, c), rest3)
    | _ => .ok ((none, i), rest)

def pOrderItem (toks : List Tok) : Except String (OrderItem × List Tok) :=
  match pOrderCol toks with
  | .error e => .error e
  | .ok ((tbl, col), rest) =>
    match rest with
    | t :: rest2 =>
      if kwIs t "asc" then .ok (⟨tbl, col, some false⟩, rest2)
      else if kwIs t "desc" then .ok (⟨tbl, col, some true⟩, rest2)
      else .ok (⟨tbl, col, none⟩, rest)
    | [] => .ok (⟨tbl, col, none⟩, [])

def pOrderListMore : Nat → List OrderItem → List Tok →
    Except String (List OrderItem × List Tok)
  | 0, _, _ => .error "parse fuel exhausted"
  | fuel + 1, acc, toks =>
    match toks with
    | Tok.comma :: rest =>
      match pOrderItem rest with
      | .error e => .error e
      | .ok (o, rest2) => pOrderListMore fuel (acc ++ [o]) rest2
    | _ => .ok (acc, toks)

def pOrderList (fuel : Nat) (toks : List Tok) :
    Except String (List OrderItem × List Tok) :=
  match pOrderItem toks with
  | .error e => .error e
  | .ok (o, rest) => pOrderListMore fuel [o] rest

def pLimitSpec : List Tok → Except String (LimitSpec × List Tok)
  | Tok.num a :: Tok.comma :: Tok.num b :: rest => .ok (⟨some a, b⟩, rest)
  | Tok.num a :: rest => .ok (⟨none, a⟩, rest)
  | _ => .error "expected LIMIT count"

/-- The optional `FROM tbl` part of a SELECT. -/
def pFromOpt (toks : List Tok) : Except String (Option SqlIdent × List Tok) :=
  match toks with
  | f :: rest2 =>
    if kwIs f "from" then
      match pIdent rest2 with
      | .error e => .error e
      | .ok (i, rest3) => .ok (some i, rest3)
    else .ok (none, f :: rest2)
  | [] => .ok (none, [])

/-- The optional `WHERE cond` part of a SELECT. -/
def pWhereOpt (fuel : Nat) (toks : List Tok) :
    Except String (Option Cond × List Tok) :=
  match toks with
  | w :: rest2 =>
    if kwIs w "where" then
      match pCond fuel rest2 with
      | .error e => .error e
      | .ok (c, rest3) => .ok (some c, rest3)
    else .ok (none, w :: rest2)
  | [] => .ok (none, [])

/-- The optional `GROUP BY exprs` part of a SELECT. -/
def pGroupOpt (fuel : Nat) (toks : List Tok) :
    Except String (List Operand × List Tok) :=
  match toks with
  | g :: b :: rest2 =>
    if kwIs g "group" && kwIs b "by" then pOperandList fuel rest2
    else .ok ([], g :: b :: rest2)
  | l => .ok ([], l)

def pSelCore (fuel : Nat) (toks : List Tok) :
    Except String (SelCore × List Tok) :=
  match toks with
  | t :: rest =>
    if kwIs t "select" then
      match pOperandList fuel rest with
      | .error e => .error e
      | .ok (projs, rest) =>
        match pFromOpt rest with
        | .error e => .error e
        | .ok (tbl, rest) =>
          match pWhereOpt fuel rest with
          | .error e => .error e
          | .ok (whereC, rest) =>
            match pGroupOpt fuel rest with
            | .error e => .error e
            | .ok (group, rest) => .ok (⟨projs, tbl, whereC, group⟩, rest)
    else .error "expected SELECT"
  | [] => .error "expected SELECT"

/-- The optional `ORDER BY items` trailer. -/
def pOrderOpt (fuel : Nat) (toks : List Tok) :
    Except String (List OrderItem × List Tok) :=
  match toks with
  | o :: b :: rest2 =>
    if kwIs o "order" && kwIs b "by" then pOrderList fuel rest2
    else .ok ([], o :: b :: rest2)
  | l => .ok ([], l)

/-- The optional `LIMIT spec` trailer. -/
def pLimitOpt (toks : List Tok) : Except String (Option LimitSpec × List Tok) :=
  match toks with
  | l :: rest3 =>
    if kwIs l "limit" then
      match pLimitSpec rest3 with
      | .error e => .error e
      | .ok (ls, r) => .ok (some ls, r)
    else .ok (none, l :: rest3)
  | [] => .ok (none, [])

def pMods (fuel : Nat) (toks : List Tok) :
    Except String ((List OrderItem × Option LimitSpec) × List Tok) :=
  match pOrderOpt fuel toks with
  | .error e => .error e
  | .ok (ord, rest) =>
    match pLimitOpt rest with
    | .error e => .error e
    | .ok (lim, rest2) => .ok ((ord, lim), rest2)

/-- The optional `ALL` after `UNION`. -/
def pUnionAllOpt (toks : List Tok) : Bool × List Tok :=
  match toks with
  | a :: rest3 => if kwIs a "all" then (true, rest3) else (false, a :: rest3)
  | [] => (false, [])

def pQueryToks (fuel : Nat) (toks : List Tok) :
    Except String (Query × List Tok) :=
  match pSelCore fuel toks with
  | .error e => .error e
  | .ok (s1, rest) =>
    match rest with
    | u :: rest2 =>
      if kwIs u "union" then
        match pUnionAllOpt rest2 with
        | (uall, rest3) =>
          match pSelCore fuel rest3 with
          | .error e => .error e
          | .ok (s2, rest4) =>
            match pMods fuel rest4 with
            | .error e => .error e
            | .ok ((ord, lim), rest5) =>
              .ok (Query.two s1 uall s2 ord lim, rest5)
      else
        match pMods fuel (u :: rest2) with
        | .error e => .error e
        | .ok ((ord, lim), rest5) => .ok (Query.one s1 ord lim, rest5)
    | [] => .ok (Query.one s1 [] none, [])

/-- The model of `sqlglot.parse_one(sql, read=dialect)` on the fragment. -/
def parseSql (s : List Char) : Except String Query :=
  match tokenize s with
  | .error e => .error e
  | .ok ts =>
    match pQueryToks (ts.length * 8 + 16) ts with
    | .error e => .error e
    | .ok (q, rest) => if rest.isEmpty then .ok q else .error "trailing tokens"

/-! ## `sql_guard.py` — string-level helpers -/

/-- One schema table of `m_schema.json`: a name and its column names. -/
structure TableSchema where
  name : String
  columns : List String
deriving Repr

def RESERVED_LIKE : List (List Char) :=
  ["check", "desc", "key", "user"].map String.data

def DEFAULT_DERIVED_ALIASES : List (List Char) :=
  ["d", "date", "cnt", "count", "total", "num", "dt", "day"].map String.data

/-- `sql_guard._normalize`: drop backticks, lower-case. -/
def normalizeName (s : List Char) : List Char :=
  lowerChars (s.filter (fun c => c ≠ tickChar))

/-- Find the closing `*/` of a block comment, returning the remainder. -/
def findBlockClose : Nat → List Char → Option (List Char)
  | 0, _ => none
  | _ + 1, [] => none
  | _ + 1, '*' :: '/' :: rest => some rest
  | fuel + 1, _ :: rest => findBlockClose fuel rest

/-- `re.sub(r"/\*.*?\*/", " ", sql, flags=re.S)`: an unterminated block
comment stays (the non-greedy pattern requires the closing), matching the
regex scan that then advances one character. -/
def removeBlockComments : Nat → List Char → List Char
  | 0, l => l
  | _ + 1, [] => []
  | fuel + 1, '/' :: '*' :: rest =>
    match findBlockClose rest.length rest with
    | some rest2 => ' ' :: removeBlockComments fuel rest2
    | none => '/' :: removeBlockComments fuel ('*' :: rest)
  | fuel + 1, c :: rest => c :: removeBlockComments fuel rest

/-- `re.sub(r"--.*?$", " ", sql, flags=re.M)`: `--` up to (excluding) the
line end becomes one blank. -/
def removeLineComments : Nat → List Char → List Char
  | 0, l => l
  | _ + 1, [] => []
  | fuel + 1, '-' :: '-' :: rest =>
    ' ' :: removeLineComments fuel (rest.dropWhile (fun c => c ≠ '\n'))
  | fuel + 1, c :: rest => c :: removeLineComments fuel rest

/-- `sql_guard._remove_comments`. -/
def removeComments (s : List Char) : List Char :=
  let s1 := removeBlockComments (s.length + 1) s
  removeLineComments (s1.length + 1) s1

/-- `re.search(r"[一-龥]", sql)`. -/
def hasCJK (s : List Char) : Bool :=
  s.any (fun c => 0x4e00 ≤ c.toNat && c.toNat ≤ 0x9fa5)

/-- Does the string start with `specific_` (case-insensitively) followed
by a word character (`re.search(r"specific_\w+", ·, re.I)` at this
position)? -/
def specificAt (s : List Char) : Bool :=
  lowerChars (s.take 9) = "specific_".data && (s.drop 9).head?.any isWordChar

def hasSpecificPlaceholder (s : List Char) : Bool :=
  s.tails.any specificAt

/-- Does the string start with `select`, optional whitespace, `*`
(`re.search(r"(?i)select\s*\*", ·)` at this position)? -/
def selectStarAt (s : List Char) : Bool :=
  lowerChars (s.take 6) = "select".data &&
    ((s.drop 6).dropWhile isSpaceChar).head? = some '*'

def hasSelectStar (s : List Char) : Bool :=
  s.tails.any selectStarAt

/-- `sql_guard._has_limit`: `re.search(r"(?i)\blimit\b", sql)`.  A
word-bounded occurrence of `limit` is exactly a maximal word run spelling
it. -/
def hasLimitWord (s : List Char) : Bool :=
  (chunkRuns s).any fun sg =>
    match sg with
    | Seg.run r => lowerChars r = "limit".data
    | _ => false

/-- `re.sub(r";\s*$", "", sql.strip())`. -/
def stripTrailingSemicolon (s : List Char) : List Char :=
  let t := stripChars s
  match t.getLast? with
  | some ';' => t.dropLast
  | _ => t

/-- The unit alternation of `_fix_interval_literals`, in source order. -/
def intervalUnits : List (List Char) :=
  ["second", "minute", "hour", "day", "week", "month", "quarter",
    "year"].map String.data

/-- Match one interval unit (case-insensitively, first alternative wins),
returning its original spelling and the remainder. -/
def matchIntervalUnit (s : List Char) : Option (List Char × List Char) :=
  (intervalUnits.filter fun u => lowerChars (s.take u.length) = u).head?.map
    fun u => (s.take u.length, s.drop u.length)

/-- Try the body of `\bINTERVAL\s+'(\d+)'\s+(SECOND|…|YEAR)` right after a
word boundary; returns replacement text and remainder. -/
def matchIntervalAt (s : List Char) : Option (List Char × List Char) :=
  if lowerChars (s.take 8) = "interval".data then
    let r := s.drop 8
    let r1 := r.dropWhile isSpaceChar
    if r1.length = r.length then none
    else
      match r1 with
      | '\'' :: r2 =>
        let ds := r2.takeWhile Char.isDigit
        if ds.isEmpty then none
        else
          match r2.drop ds.length with
          | '\'' :: r3 =>
            let r4 := r3.dropWhile isSpaceChar
            if r4.length = r3.length then none
            else
              match matchIntervalUnit r4 with
              | some (unit, r5) =>
                some ("INTERVAL ".data ++ ds ++ [' '] ++ unit, r5)
              | none => none
          | _ => none
      | _ => none
  else none

/-- `sql_guard._fix_interval_literals` scanner; the Bool tracks whether
the previous character was a word character (for the leading `\b`). -/
def fixIntervalGo : Nat → Bool → List Char → List Char
  | 0, _, l => l
  | _ + 1, _, [] => []
  | fuel + 1, prevWord, c :: rest =>
    if !prevWord then
      match matchIntervalAt (c :: rest) with
      | some (repl, after) => repl ++ fixIntervalGo fuel true after
      | none => c :: fixIntervalGo fuel (isWordChar c) rest
    else c :: fixIntervalGo fuel (isWordChar c) rest

def fixInterval (s : List Char) : List Char :=
  fixIntervalGo (s.length + 1) false s

/-- Single pass implementing the four sequential
`re.sub(r"(?i)(?<![`\w])kw(?![`\w])", backtick-wrap, sql)` rewrites of
`_quote_reserved_identifiers`.  The four keywords are distinct whole word
runs, and wrapping one run only inserts backticks adjacent to that run,
never changing the one-character look-around of any other run, so the
passes commute and equal this single segment-wise pass (Python's set
iteration order is therefore irrelevant). -/
def quoteReservedSegsGo : Bool → List Seg → List Seg
  | _, [] => []
  | prevTick, Seg.run r :: rest =>
    let nextTick :=
      match rest.head? with
      | some (Seg.other t) => t = tickChar
      | _ => false
    (if RESERVED_LIKE.contains (lowerChars r) && !prevTick && !nextTick then
      [Seg.other tickChar, Seg.run r, Seg.other tickChar]
    else [Seg.run r]) ++ quoteReservedSegsGo false rest
  | _, Seg.other c :: rest =>
    Seg.other c :: quoteReservedSegsGo (c = tickChar) rest

/-- `sql_guard._quote_reserved_identifiers`. -/
def quoteReserved (s : List Char) : List Char :=
  flattenSegs (quoteReservedSegsGo false (chunkRuns s))

/-- Match `\s*w\s*` followed by a closing backtick (the tail of the
pattern `` `\s*w\s*` ``); returns the remainder after the closing
backtick. -/
def matchTickWord (w : List Char) (s : List Char) : Option (List Char) :=
  let s1 := s.dropWhile isSpaceChar
  if lowerChars (s1.take w.length) = w then
    let s2 := (s1.drop w.length).dropWhile isSpaceChar
    match s2 with
    | c :: r => if c = tickChar then some r else none
    | [] => none
  else none

/-- One `re.sub(r"`\s*w\s*`", repl, s, flags=re.I)` pass of
`_unquote_order_dir`. -/
def unquoteDirGo (w repl : List Char) : Nat → List Char → List Char
  | 0, l => l
  | _ + 1, [] => []
  | fuel + 1, c :: rest =>
    if c = tickChar then
      match matchTickWord w rest with
      | some rest2 => repl ++ unquoteDirGo w repl fuel rest2
      | none => c :: unquoteDirGo w repl fuel rest
    else c :: unquoteDirGo w repl fuel rest

/-- `sql_guard._unquote_order_dir`: unwrap backticked ASC, then DESC
(sequential passes, in source order). -/
def unquoteOrderDir (s : List Char) : List Char :=
  let s1 := unquoteDirGo "asc".data "ASC".data (s.length + 1) s
  unquoteDirGo "desc".data "DESC".data (s1.length + 1) s1

/-- The digit run at the head, as a number (`\d+`, greedy). -/
def readNat (s : List Char) : Option (Nat × List Char) :=
  let ds := s.takeWhile Char.isDigit
  if ds.isEmpty then none else some (natOfDigits ds, s.drop ds.length)

/-- Try `limit\s*(\d+)\s*,\s*(\d+)` right after a word boundary. -/
def matchLimitPairAt (maxLimit : Nat) (s : List Char) :
    Option (List Char × List Char) :=
  if lowerChars (s.take 5) = "limit".data then do
    let (off, r1) ← readNat ((s.drop 5).dropWhile isSpaceChar)
    match r1.dropWhile isSpaceChar with
    | ',' :: r2 => do
      let (cnt, r3) ← readNat (r2.dropWhile isSpaceChar)
      some ("LIMIT ".data ++ natDigits off ++ ", ".data ++
        natDigits (min cnt maxLimit), r3)
    | _ => none
  else none

/-- Try `limit\s*(\d+)(?!\s*,)` right after a word boundary. -/
def matchLimitSingleAt (maxLimit : Nat) (s : List Char) :
    Option (List Char × List Char) :=
  if lowerChars (s.take 5) = "limit".data then do
    let (cnt, r1) ← readNat ((s.drop 5).dropWhile isSpaceChar)
    match r1.dropWhile isSpaceChar with
    | ',' :: _ => none
    | _ => some ("LIMIT ".data ++ natDigits (min cnt maxLimit), r1)
  else none

/-- One scanning `re.sub` pass driven by a matcher applied at word
boundaries only (`\blimit…`); the flag tracks whether the previous
character was a word character. -/
def scanSubGo (matcher : List Char → Option (List Char × List Char)) :
    Nat → Bool → List Char → List Char
  | 0, _, l => l
  | _ + 1, _, [] => []
  | fuel + 1, prevWord, c :: rest =>
    if !prevWord then
      match matcher (c :: rest) with
      | some (repl, after) => repl ++ scanSubGo matcher fuel true after
      | none => c :: scanSubGo matcher fuel (isWordChar c) rest
    else c :: scanSubGo matcher fuel (isWordChar c) rest

/-- `sql_guard._clamp_limit`: first clamp `LIMIT off, cnt` pairs, then
`LIMIT cnt` singles (two sequential passes, as in the source).  The
continuation flag after a replacement is `true`: each replacement ends in
a digit. -/
def clampLimit (s : List Char) (maxLimit : Nat) : List Char :=
  let s1 := scanSubGo (matchLimitPairAt maxLimit) (s.length + 1) false s
  scanSubGo (matchLimitSingleAt maxLimit) (s1.length + 1) false s1

/-- Analysis helper (not in the source): the list of `LIMIT` clauses
matched by the clamp regexes, as (optional offset, count) pairs. -/
def limitPairsGo : Nat → Bool → List Char → List (Option Nat × Nat)
  | 0, _, _ => []
  | _ + 1, _, [] => []
  | fuel + 1, prevWord, c :: rest =>
    if !prevWord ∧ lowerChars ((c :: rest).take 5) = "limit".data then
      match readNat (((c :: rest).drop 5).dropWhile isSpaceChar) with
      | some (a, r1) =>
        match r1.dropWhile isSpaceChar with
        | ',' :: r2 =>
          match readNat (r2.dropWhile isSpaceChar) with
          | some (b, r3) => (some a, b) :: limitPairsGo fuel true r3
          | none => (none, a) :: limitPairsGo fuel true r1
        | _ => (none, a) :: limitPairsGo fuel true r1
      | none => limitPairsGo fuel (isWordChar c) rest
    else limitPairsGo fuel (isWordChar c) rest

def limitPairs (s : List Char) : List (Option Nat × Nat) :=
  limitPairsGo (s.length + 1) false s

/-! ## `sql_guard.py` — AST-level collectors and `validate_and_rewrite` -/

def collectTablesCore (s : SelCore) : List (List Char) :=
  match s.tbl with
  | some t => [normalizeName t.raw]
  | none => []

/-- `sql_guard._collect_table_names` (normalized table names). -/
def collect_table_names : Query → List (List Char)
  | Query.one s _ _ => collectTablesCore s
  | Query.two l _ r _ _ => collectTablesCore l ++ collectTablesCore r

def operandCols : Operand → List (List Char)
  | Operand.col _ c => [normalizeName c.raw]
  | Operand.num _ => []
  | Operand.agg _ none => []
  | Operand.agg _ (some e) => operandCols e

def condCols : Cond → List (List Char)
  | Cond.cmp _ l r => operandCols l ++ operandCols r
  | Cond.isNullTest e _ => operandCols e
  | Cond.bare e => operandCols e
  | Cond.andC l r => condCols l ++ condCols r
  | Cond.parenC c => condCols c
  | Cond.anonFun _ => []

def coreCols (s : SelCore) : List (List Char) :=
  (s.projs.map operandCols).flatten ++
    (match s.whereC with
      | some c => condCols c
      | none => []) ++
    (s.group.map operandCols).flatten

def orderColsOf (os : List OrderItem) : List (List Char) :=
  os.map fun o => normalizeName o.col.raw

/-- `sql_guard._collect_column_names` (normalized bare column names, from
every Column node including ORDER BY keys). -/
def collect_column_names : Query → List (List Char)
  | Query.one s ord _ => coreCols s ++ orderColsOf ord
  | Query.two l _ r ord _ => coreCols l ++ coreCols r ++ orderColsOf ord

/-- `sql_guard._collect_select_aliases`: the modelled fragment has no
alias nodes, so this is always empty. -/
def collect_select_aliases (_ : Query) : List (List Char) := []

def operandHasAgg : Operand → Bool
  | Operand.agg _ _ => true
  | _ => false

def condHasAgg : Cond → Bool
  | Cond.cmp _ l r => operandHasAgg l || operandHasAgg r
  | Cond.isNullTest e _ => operandHasAgg e
  | Cond.bare e => operandHasAgg e
  | Cond.andC l r => condHasAgg l || condHasAgg r
  | Cond.parenC c => condHasAgg c
  | Cond.anonFun _ => false

/-- Any `exp.Count/Sum/Avg/Min/Max` node under the core. -/
def coreHasAgg (s : SelCore) : Bool :=
  s.projs.any operandHasAgg ||
    (match s.whereC with
      | some c => condHasAgg c
      | none => false) ||
    s.group.any operandHasAgg

/-- Clearing `order` on every `exp.Select` node: a single SELECT owns its
trailing ORDER BY, a union-level ORDER BY lives on the `exp.Union` node
and is untouched. -/
def stripSelectOrders : Query → Query
  | Query.one s _ lim => Query.one s [] lim
  | Query.two l u r ord lim => Query.two l u r ord lim

/-- Clearing `limit` on every `exp.Select` node (used only in the
single-row-aggregate branch, where the top node is a Select). -/
def stripSelectLimits : Query → Query
  | Query.one s ord _ => Query.one s ord none
  | Query.two l u r ord lim => Query.two l u r ord lim

def allowedTablesOf (m : List TableSchema) : List (List Char) :=
  m.map fun t => normalizeName t.name.data

def tableColumnsOf (m : List TableSchema) :
    List (List Char × List (List Char)) :=
  m.map fun t =>
    (normalizeName t.name.data, t.columns.map fun c => normalizeName c.data)

/-- The contract narrowing of `validate_and_rewrite` (lines 147–156):
tables mentioned by the contract keep only the intersection with the
contract columns; others keep their schema columns. -/
def narrowColumns (tc : List (List Char × List (List Char)))
    (contract : Option (List (String × List String))) :
    List (List Char × List (List Char)) :=
  match contract with
  | none => tc
  | some acbt =>
    tc.map fun p =>
      let contractCols :=
        (acbt.filter fun q => normalizeName q.1.data = p.1).flatMap
          fun q => q.2.map fun c => normalizeName c.data
      if contractCols ≠ [] then (p.1, p.2.filter (contractCols.contains ·))
      else (p.1, p.2)

/-- The final LIMIT handling of `validate_and_rewrite` (lines 227–229). -/
def limitTail (normSql : List Char) (maxLimit : Nat) : List Char :=
  if !hasLimitWord normSql then
    normSql ++ (" LIMIT ".data ++ natDigits maxLimit)
  else clampLimit normSql maxLimit

/-- The post-render normalization chain (lines 191–194 / 217–220). -/
def normChain (s : List Char) : List Char :=
  unquoteOrderDir (quoteReserved (fixInterval (stripTrailingSemicolon s)))

/-- `sql_guard.validate_and_rewrite`.  The dialect is fixed to the
modelled MySQL fragment; the `SQL_PERMISSIVE_MODE` env flag and the
`SQL_PERMITTED_ALIASES`-extended alias set are passed as the `permissive`
and `permittedAliases` arguments. -/
def validate_and_rewrite (sql : List Char) (mschema : List TableSchema)
    (maxLimit : Nat) (keepOrderBy : Bool)
    (allowedColumnsByTable : Option (List (String × List String)))
    (permissive : Bool) (permittedAliases : List (List Char)) :
    Except String (List Char) :=
  let sql := removeComments sql
  if hasCJK sql then .error "SQL contains Chinese content" else
  if hasSpecificPlaceholder sql then .error "SQL contains placeholder" else
  if hasSelectStar sql then .error "SELECT star is forbidden" else
  match parseSql sql with
  | .error e => .error ("SQL parse failed: " ++ e)
  | .ok expr =>
    let allowedTables := allowedTablesOf mschema
    let tableToColumns := narrowColumns (tableColumnsOf mschema) allowedColumnsByTable
    let usedTables := collect_table_names expr
    if usedTables.any (fun t => !(allowedTables.contains t)) then
      .error "unauthorized table"
    else
      let usedColumns := collect_column_names expr
      let selectAliases := collect_select_aliases expr
      let allAllowedColumns := tableToColumns.flatMap Prod.snd
      if !(usedColumns.all fun c =>
          allAllowedColumns.contains c || selectAliases.contains c ||
          permittedAliases.contains c || (c.all Char.isDigit)) then
        .error "unauthorized column"
      else
        let expr := if !permissive && !keepOrderBy then stripSelectOrders expr else expr
        let normSql := normChain (renderQuery expr)
        if permissive then .ok normSql else
        match parseSql normSql with
        | .ok (Query.one s ord lim) =>
          if coreHasAgg s && s.group.isEmpty then
            .ok (normChain (renderQuery (stripSelectLimits (Query.one s ord lim))))
          else .ok (limitTail normSql maxLimit)
        | .ok _ => .ok (limitTail normSql maxLimit)
        | .error _ => .ok (limitTail normSql maxLimit)

/-! ## Well-formedness of tokens and parse output; the normalization map -/

/-- Token well-formedness: word runs and quoted names are proper word
runs; `rawtext` never arises from tokenizing. -/
def tokOk : Tok → Bool
  | Tok.word r => wordRawOk r
  | Tok.quot r => wordRawOk r
  | Tok.rawtext _ => false
  | _ => true

mutual

/-- A condition in unit position (as `pUnit` produces). -/
def condUnitOk : Cond → Bool
  | Cond.cmp _ _ _ => true
  | Cond.isNullTest _ _ => true
  | Cond.bare _ => true
  | Cond.parenC c => condWf c
  | Cond.andC _ _ => false
  | Cond.anonFun _ => false

/-- A parse-shaped condition: a left-deep AND chain of units. -/
def condWf : Cond → Bool
  | Cond.andC l r => condWf l && condUnitOk r
  | c => condUnitOk c

end

def selCoreWf (s : SelCore) : Bool :=
  !s.projs.isEmpty &&
    (match s.whereC with
      | some c => condWf c
      | none => true)

/-- Parse-shaped queries (what `parseSql` can return). -/
def queryWf : Query → Bool
  | Query.one s _ _ => selCoreWf s
  | Query.two l _ r _ _ => selCoreWf l && selCoreWf r

/-- Sizes driving the parse-fuel bounds. -/
def szO : Operand → Nat
  | Operand.col _ _ => 1
  | Operand.num _ => 1
  | Operand.agg _ none => 2
  | Operand.agg _ (some e) => 2 + szO e

def szC : Cond → Nat
  | Cond.cmp _ l r => 1 + szO l + szO r
  | Cond.isNullTest e _ => 1 + szO e
  | Cond.bare e => 1 + szO e
  | Cond.andC l r => 1 + szC l + szC r
  | Cond.parenC c => 2 + szC c
  | Cond.anonFun _ => 1

def szOs : List Operand → Nat
  | [] => 0
  | e :: rest => 1 + szO e + szOs rest

def szCore (s : SelCore) : Nat :=
  2 + szOs s.projs +
    (match s.whereC with
      | some c => 1 + szC c
      | none => 0) + szOs s.group

def szQ : Query → Nat
  | Query.one s ord _ => 4 + szCore s + ord.length
  | Query.two l _ r ord _ => 6 + szCore l + szCore r + ord.length

/-- Tokens that would extend a pending operand parse. -/
def notDotParen : Tok → Bool
  | Tok.dot => false
  | Tok.lparen => false
  | _ => true

/-- A continuation on which a parsed condition unit stops. -/
def uStop : List Tok → Bool
  | [] => true
  | t :: _ => (cmpOf t).isNone && !kwIs t "is" && notDotParen t

/-- A continuation on which a parsed AND-chain stops. -/
def cStop : List Tok → Bool
  | [] => true
  | t :: _ => (cmpOf t).isNone && !kwIs t "is" && notDotParen t && !kwIs t "and"

/-- The printed form of the trailing units of an AND chain. -/
def andSep (us : List Cond) : List Tok :=
  us.flatMap (fun u => Tok.word "AND".data :: condToks u)

/-- Not a comma token. -/
def notComma : Tok → Bool
  | Tok.comma => false
  | _ => true

/-- A continuation on which a parsed operand list stops. -/
def oStop : List Tok → Bool
  | [] => true
  | t :: _ => notDotParen t && notComma t

/-- A continuation after one ORDER BY item with no direction word. -/
def ordItemStop : List Tok → Bool
  | [] => true
  | t :: _ => !kwIs t "asc" && !kwIs t "desc" && notDotParen t

/-- A continuation on which a parsed ORDER BY list stops. -/
def ordStop : List Tok → Bool
  | [] => true
  | t :: _ => !kwIs t "asc" && !kwIs t "desc" && notDotParen t && notComma t

/-- A continuation that may follow a SELECT core inside a query. -/
def selStop : List Tok → Bool
  | [] => true
  | t :: _ => kwIs t "union" || kwIs t "order" || kwIs t "limit"

/-- The printed form of the trailing elements of an operand list. -/
def commaTail (es : List Operand) : List Tok :=
  es.flatMap (fun e => Tok.comma :: operandToks e)

/-- The printed form of the trailing elements of an ORDER BY list. -/
def commaTailOrd (os : List OrderItem) : List Tok :=
  os.flatMap (fun o => Tok.comma :: orderItemToks o)

/-- The head token is the given keyword. -/
def headKwIs (w : String) : List Tok → Bool
  | t :: _ => kwIs t w
  | [] => false

/-- The identifier rewrite effected on the printed SQL by
`_quote_reserved_identifiers` followed by `_unquote_order_dir`: `desc`
spellings come out as the bare text `DESC`, quoted `asc` as bare `ASC`,
and bare `check`/`key`/`user` become backtick-quoted. -/
def psiIdent (i : SqlIdent) : SqlIdent :=
  if lowerChars i.raw = "desc".data then ⟨"DESC".data, false, by decide⟩
  else if i.quoted && lowerChars i.raw = "asc".data then
    ⟨"ASC".data, false, by decide⟩
  else if !i.quoted && RESERVED_LIKE.contains (lowerChars i.raw) then
    ⟨i.raw, true, by
      have h := i.ok
      unfold identOk at h ⊢
      exact by
        cases hw : wordRawOk i.raw
        · rw [hw] at h; exact absurd h (by simp)
        · simp⟩
  else i

def psiOperand : Operand → Operand
  | Operand.col t c => Operand.col (t.map psiIdent) (psiIdent c)
  | Operand.num n => Operand.num n
  | Operand.agg f none => Operand.agg f none
  | Operand.agg f (some e) => Operand.agg f (some (psiOperand e))

def psiCond : Cond → Cond
  | Cond.cmp op l r => Cond.cmp op (psiOperand l) (psiOperand r)
  | Cond.isNullTest e neg => Cond.isNullTest (psiOperand e) neg
  | Cond.bare e => Cond.bare (psiOperand e)
  | Cond.andC l r => Cond.andC (psiCond l) (psiCond r)
  | Cond.parenC c => Cond.parenC (psiCond c)
  | Cond.anonFun raw => Cond.anonFun raw

def psiCore (s : SelCore) : SelCore :=
  ⟨s.projs.map psiOperand, s.tbl.map psiIdent, s.whereC.map psiCond,
    s.group.map psiOperand⟩

def psiOrderItem (o : OrderItem) : OrderItem :=
  ⟨o.tbl.map psiIdent, psiIdent o.col, o.dir⟩

def psiQuery : Query → Query
  | Query.one s ord lim => Query.one (psiCore s) (ord.map psiOrderItem) lim
  | Query.two l u r ord lim =>
    Query.two (psiCore l) u (psiCore r) (ord.map psiOrderItem) lim

/-- The same rewrite at token level. -/
def uqTok : Tok → Tok
  | Tok.word r =>
    if lowerChars r = "desc".data then Tok.word "DESC".data
    else if RESERVED_LIKE.contains (lowerChars r) then Tok.quot r
    else Tok.word r
  | Tok.quot r =>
    if lowerChars r = "desc".data then Tok.word "DESC".data
    else if lowerChars r = "asc".data then Tok.word "ASC".data
    else Tok.quot r
  | t => t

/-- Insert into a descending-sorted list, after all entries with score
at least as large (preserving original order among equal scores). -/
def insertDesc (x : String × Int) : List (String × Int) → List (String × Int)
  | [] => [x]
  | y :: ys => if y.2 ≤ x.2 then x :: y :: ys else y :: insertDesc x ys

/-- Python's stable descending sort of the `(name, score)` list
(`scored.sort(key=lambda x: x[1], reverse=True)`), as a structural
insertion sort.  Scores are modelled as integers: the source's float
scores enter only through this input list, and the dynamic top-K
thresholds (10 and 5) are integral. -/
def sortByScoreDesc : List (String × Int) → List (String × Int)
  | [] => []
  | x :: xs => insertDesc x (sortByScoreDesc xs)

/-- `run_nl2sql_clean.auto_select_tables`, parameterized by the
pre-computed `(name, score_table_simple(table, tokens))` pairs: the claim
concerns the dynamic top-K arithmetic, and the scoring function enters
only through the scores of the input list.  Mirrors the source line by
line: base `dynamic_topk = topk`; the `max_score >= 10` branch assigns
`min(topk + 4, len(scored))`; the `high_score_count >= 2` branch then
assigns (not adds) `min(topk + 2, len(scored))`; the result is
`scored[:max(1, dynamic_topk)]`. -/
def auto_select_tables (scored0 : List (String × Int)) (topk : Nat) :
    List (String × Int) :=
  let scored := sortByScoreDesc scored0
  let maxScore : Int := match scored with | [] => 0 | p :: _ => p.2
  let d1 : Nat := if 10 ≤ maxScore then min (topk + 4) scored.length else topk
  let highCount := (scored.filter fun p => decide (5 ≤ p.2)).length
  let d2 : Nat := if 2 ≤ highCount then min (topk + 2) scored.length else d1
  scored.take (max 1 d2)

/-- Modelled from the claim's words (for comparison only): base K, plus 4
when the max score is at least 10, plus 2 more when at least two tables
score at least 5. -/
def dynamicTopkSpec (scored : List (String × Int)) (topk : Nat) : Nat :=
  topk +
    (if 10 ≤ (match scored with | [] => (0 : Int) | p :: _ => p.2) then 4
      else 0) +
    (if 2 ≤ (scored.filter fun p => decide (5 ≤ p.2)).length then 2 else 0)

def c10ex : List (String × Int) :=
  [("t01", 12), ("t02", 6), ("t03", 5), ("t04", 1), ("t05", 1), ("t06", 1),
    ("t07", 1), ("t08", 1), ("t09", 1), ("t10", 1), ("t11", 1), ("t12", 1)]

/-- `ast_validator.validate_allowed_columns_ast` (its `passed` flag) over
the parsed fragment: every used column name — `extract_column_references`
collects the lower-cased *bare* name of each `exp.Column`, never its
table qualifier, exactly as `_collect_column_names` does — must belong to
some allowed table's column set.  The `t.c` strings the source also adds
to `all_allowed_columns` can never equal a bare name (bare names contain
no dot), so membership in the union of the per-table sets is the whole
check. -/
def validate_allowed_columns_ast (q : Query)
    (allowed : List (List Char × List (List Char))) : Bool :=
  (collect_column_names q).all fun c => (allowed.flatMap Prod.snd).contains c

/-- Rewrite every column reference's table qualifier by `g` (the column
name itself is untouched). -/
def requalOperand (g : Option SqlIdent → Option SqlIdent) : Operand → Operand
  | Operand.col t c => Operand.col (g t) c
  | Operand.num n => Operand.num n
  | Operand.agg f none => Operand.agg f none
  | Operand.agg f (some e) => Operand.agg f (some (requalOperand g e))

def requalCond (g : Option SqlIdent → Option SqlIdent) : Cond → Cond
  | Cond.cmp op l r => Cond.cmp op (requalOperand g l) (requalOperand g r)
  | Cond.isNullTest e neg => Cond.isNullTest (requalOperand g e) neg
  | Cond.bare e => Cond.bare (requalOperand g e)
  | Cond.andC l r => Cond.andC (requalCond g l) (requalCond g r)
  | Cond.parenC c => Cond.parenC (requalCond g c)
  | Cond.anonFun raw => Cond.anonFun raw

def requalCore (g : Option SqlIdent → Option SqlIdent) (s : SelCore) :
    SelCore :=
  ⟨s.projs.map (requalOperand g), s.tbl,
    s.whereC.map (requalCond g), s.group.map (requalOperand g)⟩

def requalQuery (g : Option SqlIdent → Option SqlIdent) : Query → Query
  | Query.one s ord lim =>
    Query.one (requalCore g s) (ord.map fun o => ⟨g o.tbl, o.col, o.dir⟩) lim
  | Query.two l u r ord lim =>
    Query.two (requalCore g l) u (requalCore g r)
      (ord.map fun o => ⟨g o.tbl, o.col, o.dir⟩) lim

/-- `re.search(r"\{.*\}", raw, flags=re.DOTALL)`: the greedy match runs
from the first `{` to the last `}` (when the first `{` precedes some
`}`). -/
def extractJsonClip (s : List Char) : Option (List Char) :=
  let pre := s.dropWhile (fun c => c ≠ '{')
  if pre.isEmpty then none
  else
    let rev := pre.reverse.dropWhile (fun c => c ≠ '\x7d')
    if rev.isEmpty then none else some rev.reverse

/-- JSON values, as `json.loads` produces them on the modelled fragment
(integer numbers, strings without escape sequences). -/
inductive Json
  | jnull
  | jbool (b : Bool)
  | jnum (neg : Bool) (n : Nat)
  | jstr (s : List Char)
  | jarr (xs : List Json)
  | jobj (kvs : List (List Char × Json))
deriving Repr

def isJsonWs (c : Char) : Bool :=
  c = ' ' || c = '\t' || c = '\n' || c = '\r'

def jskip (s : List Char) : List Char := s.dropWhile isJsonWs

/-- A JSON string body after the opening quote; the modelled fragment has
no escape sequences (a backslash fails the parse). -/
def pJStr (s : List Char) : Option (List Char × List Char) :=
  let content := s.takeWhile (fun c => c ≠ '"')
  if !content.all (fun c => c ≠ '\\') then none
  else
    match s.drop content.length with
    | '"' :: r => some (content, r)
    | _ => none

mutual

/-- `json.loads` on the fragment: recursive-descent value parser. -/
def pJVal : Nat → List Char → Option (Json × List Char)
  | 0, _ => none
  | fuel + 1, s =>
    match jskip s with
    | '{' :: r =>
      (match jskip r with
        | '\x7d' :: r2 => some (Json.jobj [], r2)
        | r1 => pJMembers fuel r1 [])
    | '[' :: r =>
      (match jskip r with
        | ']' :: r2 => some (Json.jarr [], r2)
        | r1 =>
          match pJItems fuel r1 [] with
          | some (xs, r2) => some (Json.jarr xs, r2)
          | none => none)
    | '"' :: r =>
      (match pJStr r with
        | some (str, r2) => some (Json.jstr str, r2)
        | none => none)
    | '-' :: r =>
      (match readNat r with
        | some (n, r2) => some (Json.jnum true n, r2)
        | none => none)
    | 't' :: r =>
      if r.take 3 = "rue".data then some (Json.jbool true, r.drop 3) else none
    | 'f' :: r =>
      if r.take 4 = "alse".data then some (Json.jbool false, r.drop 4)
      else none
    | 'n' :: r =>
      if r.take 3 = "ull".data then some (Json.jnull, r.drop 3) else none
    | r =>
      match readNat r with
      | some (n, r2) => some (Json.jnum false n, r2)
      | none => none

/-- Object members: `"key": value` separated by commas, ended by a
closing brace. -/
def pJMembers (fuel0 : Nat) (s : List Char)
    (acc : List (List Char × Json)) : Option (Json × List Char) :=
  match fuel0 with
  | 0 => none
  | fuel + 1 =>
    match jskip s with
    | '"' :: r =>
      (match pJStr r with
        | some (key, r2) =>
          (match jskip r2 with
            | ':' :: r3 =>
              (match pJVal fuel r3 with
                | some (v, r4) =>
                  (match jskip r4 with
                    | ',' :: r5 => pJMembers fuel r5 (acc ++ [(key, v)])
                    | '\x7d' :: r5 => some (Json.jobj (acc ++ [(key, v)]), r5)
                    | _ => none)
                | none => none)
            | _ => none)
        | none => none)
    | _ => none

/-- Array items separated by commas, ended by a closing bracket. -/
def pJItems (fuel0 : Nat) (s : List Char) (acc : List Json) :
    Option (List Json × List Char)  :=
  match fuel0 with
  | 0 => none
  | fuel + 1 =>
    match pJVal fuel s with
    | some (v, r) =>
      (match jskip r with
        | ',' :: r2 => pJItems fuel r2 (acc ++ [v])
        | ']' :: r2 => some (acc ++ [v], r2)
        | _ => none)
    | none => none

end

/-- `json.loads`: one JSON document spanning the whole string (trailing
whitespace allowed). -/
def parseJson (s : List Char) : Option Json :=
  match pJVal (s.length + 1) s with
  | some (j, rest) => if (jskip rest).isEmpty then some j else none
  | none => none


/-- The allowed `task` literals of `PlanV1`. -/
def TASK_LITERALS : List (List Char) :=
  ["list", "count", "trend", "rank", "detail", "filter",
    "distribution"].map String.data

/-- The allowed `subject` literals of `PlanV1`. -/
def SUBJECT_LITERALS : List (List Char) :=
  ["app", "node", "account", "user", "endpoint", "service", "process",
    "risk"].map String.data

/-- `llm_planner.PlanV1`, restricted to the fields the pipeline consumes
(`confidence`, `reasoning` and `alt_perspectives` are carried by the
source but never constrain it and are not modelled). -/
structure PlanV1 where
  task : List Char
  subject : List Char
  risk : List (List Char)
  must_tables : List (List Char)
  must_joins : List (List Char)
  must_predicates : List (List Char)
  should_predicates : List (List Char)
  should_projection : List (List Char)
  should_tables : List (List Char)
  may_projection : List (List Char)
  may_predicates : List (List Char)
  timeframe_days : Option Int
  groupby : List (List Char)
  aggregates : List (List Char)
deriving Repr, DecidableEq

/-- `PlanV1()`: the pydantic defaults. -/
def defaultPlan : PlanV1 :=
  ⟨"list".data, "app".data, [ "weak_password".data ], [], [], [], [], [],
    [], [], [], none, [], []⟩

def jLookup (kvs : List (List Char × Json)) (key : String) : Option Json :=
  (kvs.filter fun p => p.1 = key.data).head?.map Prod.snd

/-- Decode an optional string field with a default (absent key → default,
non-string value → validation error). -/
def jStrField (kvs : List (List Char × Json)) (key : String)
    (dflt : List Char) : Except String (List Char) :=
  match jLookup kvs key with
  | none => .ok dflt
  | some (Json.jstr s) => .ok s
  | some _ => .error "expected a string"

/-- Decode an optional list-of-strings field (absent → `[]`). -/
def jStrListField (kvs : List (List Char × Json)) (key : String) :
    Except String (List (List Char)) :=
  match jLookup kvs key with
  | none => .ok []
  | some (Json.jarr xs) =>
    if h : xs.all (fun x => match x with | Json.jstr _ => true | _ => false)
    then .ok (xs.filterMap fun x =>
      match x with | Json.jstr s => some s | _ => none)
    else .error "expected a list of strings"
  | some _ => .error "expected a list of strings"

/-- `PlanV1(**plan_data)`: pydantic validation of the modelled fields —
defaults for absent keys, `Literal` checks on `task` and `subject`,
typed lists, optional integer `timeframe_days`; extra keys are
ignored. -/
def decodePlan (j : Json) : Except String PlanV1 :=
  match j with
  | Json.jobj kvs =>
    (match jStrField kvs "task" "list".data with
      | .error e => .error e
      | .ok task =>
        if !TASK_LITERALS.contains task then .error "invalid task" else
        match jStrField kvs "subject" "app".data with
        | .error e => .error e
        | .ok subject =>
          if !SUBJECT_LITERALS.contains subject then .error "invalid subject"
          else
          match jLookup kvs "risk" with
          | some (Json.jstr _) => .error "expected a list"
          | some (Json.jbool _) => .error "expected a list"
          | some (Json.jnum _ _) => .error "expected a list"
          | some Json.jnull => .error "expected a list"
          | some (Json.jobj _) => .error "expected a list"
          | riskv =>
            match (match riskv with
              | none =>
                (.ok [ "weak_password".data ] :
                  Except String (List (List Char)))
              | _ => jStrListField kvs "risk") with
            | .error e => .error e
            | .ok risk =>
              match jStrListField kvs "must_tables" with
              | .error e => .error e
              | .ok mt =>
                match jStrListField kvs "must_joins" with
                | .error e => .error e
                | .ok mj =>
                  match jStrListField kvs "must_predicates" with
                  | .error e => .error e
                  | .ok mp =>
                    match jStrListField kvs "should_predicates" with
                    | .error e => .error e
                    | .ok sp =>
                      match jStrListField kvs "should_projection" with
                      | .error e => .error e
                      | .ok sj =>
                        match jStrListField kvs "should_tables" with
                        | .error e => .error e
                        | .ok st =>
                          match jStrListField kvs "may_projection" with
                          | .error e => .error e
                          | .ok yj =>
                            match jStrListField kvs "may_predicates" with
                            | .error e => .error e
                            | .ok yp =>
                              match (match jLookup kvs "timeframe_days" with
                                | none =>
                                  (.ok none : Except String (Option Int))
                                | some Json.jnull =>
                                  (.ok none : Except String (Option Int))
                                | some (Json.jnum neg n) =>
                                  (.ok (some (if neg then -(n : Int) else n))
                                    : Except String (Option Int))
                                | some _ =>
                                  (.error "expected an integer" :
                                    Except String (Option Int))) with
                              | .error e => .error e
                              | .ok tf =>
                                match jStrListField kvs "groupby" with
                                | .error e => .error e
                                | .ok gb =>
                                  match jStrListField kvs "aggregates" with
                                  | .error e => .error e
                                  | .ok ag =>
                                    .ok ⟨task, subject, risk, mt, mj, mp,
                                      sp, sj, st, yj, yp, tf, gb, ag⟩)
  | _ => .error "expected an object"

/-- `plan.must_tables = [x for x in items if x in allowed_tables]`. -/
def filterTables (allowed : List (List Char)) (items : List (List Char)) :
    List (List Char) :=
  items.filter (allowed.contains ·)

/-- The word runs followed directly by a dot (the captures of
`\b([a-zA-Z_][a-zA-Z0-9_]*)\.`; a run starting with a digit has no word
boundary before a letter inside it, so only whole runs match). -/
def runsBeforeDot : List Seg → List (List Char)
  | Seg.run r :: Seg.other '.' :: rest =>
    r :: runsBeforeDot (Seg.other '.' :: rest)
  | _ :: rest => runsBeforeDot rest
  | [] => []

/-- `llm_plan._has_unknown_table_ref`. -/
def hasUnknownTableRef (allowed : List (List Char))
    (texts : List (List Char)) : Bool :=
  texts.any fun t =>
    (runsBeforeDot (chunkRuns t)).any fun r =>
      (r.head?.all fun c => !c.isDigit) && !(allowed.contains r)

/-- `llm_planner.llm_plan` from the point the LLM responses are in hand:
`raw` is the first response, `rawRetry` the response to the one
constraint retry, `allowed` the allowed table names.  A response with no
`{…}` span, a JSON parse failure, or a schema violation yields the
default plan; otherwise the plan's table lists are filtered to `allowed`
and the retry is triggered when that filtering dropped a MUST table or a
MUST predicate/join references an unknown table. -/
def llm_plan (raw rawRetry : List Char) (allowed : List (List Char)) :
    PlanV1 :=
  match extractJsonClip raw with
  | none => defaultPlan
  | some clip =>
    match parseJson clip with
    | none => defaultPlan
    | some j =>
      match decodePlan j with
      | .error _ => defaultPlan
      | .ok plan0 =>
        let plan := { plan0 with
          must_tables := filterTables allowed plan0.must_tables,
          should_tables := filterTables allowed plan0.should_tables }
        let needRetry := plan.must_tables.length < plan0.must_tables.length
          || hasUnknownTableRef allowed plan.must_predicates
          || hasUnknownTableRef allowed plan.must_joins
        if needRetry then
          match extractJsonClip rawRetry with
          | none => plan
          | some clip2 =>
            match parseJson clip2 with
            | none => defaultPlan
            | some j2 =>
              match decodePlan j2 with
              | .error _ => defaultPlan
              | .ok plan2 =>
                { plan2 with
                  must_tables := filterTables allowed plan2.must_tables,
                  should_tables := filterTables allowed plan2.should_tables }
        else plan

/-- `SELECT … WHERE c` text of each `exp.Where` node, lower-cased
(`where.this.sql(dialect="mysql").lower()`). -/
def whereCondsCore (s : SelCore) : List (List Char) :=
  match s.whereC with
  | some c => [lowerChars (joinToks (condToks c))]
  | none => []

/-- `ast_validator.extract_where_conditions`. -/
def extract_where_conditions : Query → List (List Char)
  | Query.one s _ _ => whereCondsCore s
  | Query.two l _ r _ _ => whereCondsCore l ++ whereCondsCore r

/-- `ast_validator.extract_join_conditions`: the modelled fragment has no
JOIN nodes, so the extraction is empty. -/
def extract_join_conditions (_ : Query) : List (List Char) := []

/-- `re.sub(r"\s*=\s*", "=", s)`. -/
def tightenEqGo : Nat → List Char → List Char
  | 0, l => l
  | _ + 1, [] => []
  | fuel + 1, c :: rest =>
    if c = '=' then '=' :: tightenEqGo fuel (rest.dropWhile isSpaceChar)
    else if isSpaceChar c then
      match (c :: rest).dropWhile isSpaceChar with
      | '=' :: r2 => '=' :: tightenEqGo fuel (r2.dropWhile isSpaceChar)
      | _ => c :: tightenEqGo fuel rest
    else c :: tightenEqGo fuel rest

/-- `ast_validator.normalize_join_condition`: lower-case, drop `w.`
table prefixes, tighten spaces around `=`, collapse whitespace. -/
def normalize_join_condition (j : List Char) : List Char :=
  let s := flattenSegs (dropTablePrefixSegs (chunkRuns (lowerChars j)))
  squashWs (tightenEqGo (s.length + 1) s)

/-- `ast_validator.check_join_presence`. -/
def check_join_presence (joinConditions : List (List Char))
    (requiredJoin : List Char) : Bool :=
  joinConditions.any fun j =>
    infixOf (normalize_join_condition requiredJoin)
      (normalize_join_condition j)

/-- `llm_generator.SafetyContract`, restricted to the fields the
validation engine reads. -/
structure SafetyContract where
  allowed_tables : List (List Char)
  allowed_columns : List (List Char × List (List Char))
  must_tables : List (List Char)
  must_joins : List (List Char)
  must_predicates : List (List Char)
deriving Repr, DecidableEq

/-- `ast_validator.comprehensive_ast_validation` (its `passed` flag):
parse, then require the MUST tables/joins/predicates and — when the
allow-lists are non-empty — only allowed tables and columns. -/
def comprehensive_ast_validation (sql : List Char)
    (must_tables must_joins must_predicates : List (List Char))
    (allowed_tables : List (List Char))
    (allowed_columns : List (List Char × List (List Char))) : Bool :=
  match parseSql sql with
  | .error _ => false
  | .ok q =>
    (must_tables.all fun t => (collect_table_names q).contains (lowerChars t))
    && (must_joins.all fun jn =>
        check_join_presence (extract_join_conditions q) jn)
    && (must_predicates.all fun p =>
        check_predicate_presence (extract_where_conditions q) p)
    && (allowed_tables.isEmpty ||
        (collect_table_names q).all fun t =>
          (allowed_tables.map lowerChars).contains t)
    && (allowed_columns.isEmpty ||
        validate_allowed_columns_ast q allowed_columns)

/-- The table names inferred from `contract.must_joins` when no MUST
tables are given: the `re.findall(r"(\w+)\.", join)` captures that are
allowed tables, deduplicated (`list(set(...))`; only membership in the
resulting list matters downstream). -/
def inferredJoinTables (contract : SafetyContract) : List (List Char) :=
  ((contract.must_joins.flatMap fun j => runsBeforeDot (chunkRuns j)).filter
    (contract.allowed_tables.contains ·)).dedup

/-- `validation_engine.validate_must_constraints` (its `passed` flag):
MUST tables from the plan, else the contract, else inferred from the
contract joins; then the comprehensive AST validation. -/
def validate_must_constraints (sql : List Char) (plan : PlanV1)
    (contract : SafetyContract) : Bool :=
  let mtu :=
    if !plan.must_tables.isEmpty then plan.must_tables
    else if !contract.must_tables.isEmpty then contract.must_tables
    else if !contract.must_joins.isEmpty then inferredJoinTables contract
    else []
  comprehensive_ast_validation sql mtu contract.must_joins
    contract.must_predicates contract.allowed_tables contract.allowed_columns

/-- Parse one predicate text as a condition, as
`sqlglot.parse_one(f"SELECT * FROM dummy WHERE {pred}")` does; on failure
the source keeps the raw text as an `exp.Anonymous` node. -/
def parsePredCond (p : List Char) : Cond :=
  match tokenize p with
  | .error _ => Cond.anonFun p
  | .ok ts =>
    match pCond (ts.length * 8 + 16) ts with
    | .ok (c, []) => c
    | _ => Cond.anonFun p

/-- `sqlglot.exp.and_` wraps connector operands in parentheses. -/
def wrapConnector : Cond → Cond
  | Cond.andC l r => Cond.parenC (Cond.andC l r)
  | c => c

/-- `exp.and_(c0, *rest)`: left-associated AND over the wrapped
operands. -/
def andCombine (c0 : Cond) (rest : List Cond) : Cond :=
  rest.foldl (fun acc c => Cond.andC acc (wrapConnector c))
    (wrapConnector c0)

/-- The AST injection of `_inject_missing_predicates` on a Select node:
only the WHERE clause changes. -/
def injectIntoCore (s : SelCore) (preds : List (List Char)) : SelCore :=
  let conds := preds.map parsePredCond
  match s.whereC, conds with
  | some w, _ :: _ => { s with whereC := some (andCombine w conds) }
  | some w, [] => { s with whereC := some w }
  | none, c0 :: crest =>
    { s with whereC := some (if crest.isEmpty then c0 else andCombine c0 crest) }
  | none, [] => s

/-- `" AND ".join(f"({p})" for p in predicates)`. -/
def injectClause (preds : List (List Char)) : List Char :=
  List.intercalate " AND ".data (preds.map fun p => '(' :: (p ++ [')']))

/-- Replace the first word-boundary occurrence of `where`
(case-insensitive) by the given text
(`re.sub(r"(?i)\bwhere\b", repl, sql, count=1)`). -/
def subFirstWhereGo (repl : List Char) : Nat → Bool → List Char → List Char
  | 0, _, l => l
  | _ + 1, _, [] => []
  | fuel + 1, prevWord, c :: rest =>
    if !prevWord && lowerChars ((c :: rest).take 5) = "where".data &&
        !((c :: rest).drop 5).head?.any isWordChar then
      repl ++ (c :: rest).drop 5
    else c :: subFirstWhereGo repl fuel (isWordChar c) rest

/-- The index of the first word-boundary occurrence of
`group\s+by` / `order\s+by` / `limit`
(`re.split(r"(?i)(\bgroup\s+by\b|\border\s+by\b|\blimit\b)", sql,
maxsplit=1)`). -/
def clauseSplitAt (s : List Char) : Bool :=
  (match s with
    | c :: rest =>
      (lowerChars ((c :: rest).take 5) = "group".data ∧
        (let r := (c :: rest).drop 5
          let r1 := r.dropWhile isSpaceChar
          r1.length < r.length ∧ lowerChars (r1.take 2) = "by".data ∧
            !(r1.drop 2).head?.any isWordChar)) ∨
      (lowerChars ((c :: rest).take 5) = "order".data ∧
        (let r := (c :: rest).drop 5
          let r1 := r.dropWhile isSpaceChar
          r1.length < r.length ∧ lowerChars (r1.take 2) = "by".data ∧
            !(r1.drop 2).head?.any isWordChar)) ∨
      (lowerChars ((c :: rest).take 5) = "limit".data ∧
        !((c :: rest).drop 5).head?.any isWordChar)
    | [] => False)

def splitClauseGo : Nat → Bool → List Char → Option (List Char × List Char)
  | 0, _, _ => none
  | _ + 1, _, [] => none
  | fuel + 1, prevWord, c :: rest =>
    if !prevWord && clauseSplitAt (c :: rest) then some ([], c :: rest)
    else
      match splitClauseGo fuel (isWordChar c) rest with
      | some (pre, post) => some (c :: pre, post)
      | none => none

/-- `re.search(r"(?i)\\bwhere\\b", sql)`: some word run is `where`. -/
def hasWhereWord (s : List Char) : Bool :=
  (chunkRuns s).any fun sg =>
    match sg with
    | Seg.run r => lowerChars r = "where".data
    | _ => false

/-- The string-injection fallback of `_inject_missing_predicates`. -/
def stringInject (sql : List Char) (preds : List (List Char)) : List Char :=
  let clause := injectClause preds
  if hasWhereWord sql then
    subFirstWhereGo ("WHERE ".data ++ clause ++ " AND ".data)
      (sql.length + 1) false sql
  else
    match splitClauseGo (sql.length + 1) false sql with
    | none => stripChars sql ++ " WHERE ".data ++ clause
    | some (pre, post) =>
      (pre.reverse.dropWhile isSpaceChar).reverse ++
        (" WHERE ".data ++ clause ++ [' ']) ++ post

/-- `validation_engine._inject_missing_predicates`: AST injection when
the parse yields a Select, otherwise the string fallback. -/
def inject_missing_predicates (sql : List Char) (preds : List (List Char)) :
    List Char :=
  if preds.isEmpty then sql
  else
    match parseSql sql with
    | .ok (Query.one s ord lim) =>
      renderQuery (Query.one (injectIntoCore s preds) ord lim)
    | _ => stringInject sql preds

/-- `validation_engine._fallback_string_repair`. -/
def fallback_string_repair (sql : List Char)
    (must_predicates : List (List Char)) : List Char :=
  let missing := must_predicates.filter fun mp =>
    !(infixOf (flattenSegs (dropTablePrefixSegs (chunkRuns (lowerChars mp))))
      (lowerChars sql))
  if missing.isEmpty then sql else inject_missing_predicates sql missing

/-- `validation_engine.minimal_repair`: re-check each atom of each MUST
predicate against the current WHERE conditions and inject only the
missing atoms; the SQL is unchanged when none are missing. -/
def minimal_repair (sql : List Char) (_plan : PlanV1)
    (contract : SafetyContract) : List Char :=
  if contract.must_predicates.isEmpty then sql
  else
    match parseSql sql with
    | .error _ => fallback_string_repair sql contract.must_predicates
    | .ok q =>
      let existing := extract_where_conditions q
      let missing := contract.must_predicates.flatMap fun mp =>
        (decompose_predicate_to_atoms mp).filter fun atom =>
          !check_predicate_presence existing atom
      if missing.isEmpty then sql
      else inject_missing_predicates sql missing

/-- `validation_engine.check_basic_sql_validity` (its `passed` flag). -/
def check_basic_sql_validity (sql : List Char) : Bool :=
  !hasSelectStar sql && !hasCJK sql && !hasSpecificPlaceholder sql &&
    (parseSql sql).toOption.isSome

/-- The condition under which `simple_candidate_filter` calls
`minimal_repair` on a candidate. -/
def repairAttempted (sql : List Char) (plan : PlanV1)
    (contract : SafetyContract) : Bool :=
  !sql.isEmpty && check_basic_sql_validity sql &&
    !validate_must_constraints sql plan contract

def filterGo (plan : PlanV1) (contract : SafetyContract) :
    Nat → List (List Char) → List (Nat × Candidate)
  | _, [] => []
  | i, sql :: rest =>
    if sql.isEmpty then filterGo plan contract (i + 1) rest
    else if !check_basic_sql_validity sql then filterGo plan contract (i + 1) rest
    else if validate_must_constraints sql plan contract then
      (i, Candidate.mk sql false) :: filterGo plan contract (i + 1) rest
    else
      let rep := minimal_repair sql plan contract
      if validate_must_constraints rep plan contract then
        (i, Candidate.mk rep true) :: filterGo plan contract (i + 1) rest
      else filterGo plan contract (i + 1) rest

/-- `validation_engine.simple_candidate_filter` over the candidates' SQL
texts. -/
def simple_candidate_filter (candidates : List (List Char)) (plan : PlanV1)
    (contract : SafetyContract) : List (Nat × Candidate) :=
  filterGo plan contract 0 candidates


/-- Concrete scenario for claim C4: the contract requires table `t2` and
predicate `a = 1`; the candidate satisfies the predicate but not the
table. -/
def c4contract : SafetyContract :=
  ⟨["t".data, "t2".data], [("t".data, ["a".data, "b".data])],
    ["t2".data], [], ["a = 1".data]⟩

/-! ## Segmentation and token-wise action of the normalization chain

Definitions supporting the claims about `_quote_reserved_identifiers`,
`_unquote_order_dir`, `_has_limit` and the LIMIT tail (claims C1, C3,
C6, C9). -/

/-- Segments printed for one token: its word runs and single characters. -/
def tokSegs : Tok → List Seg
  | Tok.word r => [Seg.run r]
  | Tok.num n => [Seg.run (natDigits n)]
  | Tok.quot r => [Seg.other tickChar, Seg.run r, Seg.other tickChar]
  | Tok.comma => [Seg.other ',']
  | Tok.dot => [Seg.other '.']
  | Tok.lparen => [Seg.other '(']
  | Tok.rparen => [Seg.other ')']
  | Tok.star => [Seg.other '*']
  | Tok.opEq => [Seg.other '=']
  | Tok.opNe => [Seg.other '<', Seg.other '>']
  | Tok.opLt => [Seg.other '<']
  | Tok.opGt => [Seg.other '>']
  | Tok.opLe => [Seg.other '<', Seg.other '=']
  | Tok.opGe => [Seg.other '>', Seg.other '=']
  | Tok.rawtext s => [Seg.run s]

/-- Segmentation of a printed token list, separators included. -/
def segsOfToks : List Tok → List Seg
  | [] => []
  | [t] => tokSegs t
  | a :: b :: rest =>
    tokSegs a ++ (if needSpace a b then [Seg.other ' '] else []) ++
      segsOfToks (b :: rest)


/-- `_quote_reserved_identifiers` at token level: bare reserved-like word
runs get backtick-wrapped; everything else is untouched. -/
def qTok : Tok → Tok
  | Tok.word r =>
    if RESERVED_LIKE.contains (lowerChars r) then Tok.quot r else Tok.word r
  | t => t


/-- One `_unquote_order_dir` pass at token level: a backtick-quoted
spelling of `w` (case-insensitive) becomes the bare word `repl`. -/
def uqPassTok (w repl : List Char) : Tok → Tok
  | Tok.quot r => if lowerChars r = w then Tok.word repl else Tok.quot r
  | t => t

/-- Adjacent pair guard for the pass on `w`: a bare word spelling `w`
never immediately precedes a quoted identifier (otherwise the regex
`` `\s*w\s*` `` would match from the preceding closing backtick across
the bare word into the next opening backtick). -/
def wqPairOk (w : List Char) (a b : Tok) : Bool :=
  match a, b with
  | Tok.word r, Tok.quot _ => !decide (lowerChars r = w)
  | _, _ => true

def noWordThenQuot (w : List Char) : List Tok → Bool
  | a :: b :: rest => wqPairOk w a b && noWordThenQuot w (b :: rest)
  | _ => true


/-- Adjacency guard for the ASC-unquoting pass on a printed token list,
stated on the pre-`_quote_reserved_identifiers` tokens: a bare word
spelling `asc` never directly precedes a quoted identifier or a bare
reserved-like word (which quoting would turn into one). -/
def ascSafePair (a b : Tok) : Bool :=
  match a, b with
  | Tok.word r2, Tok.quot _ => !decide (lowerChars r2 = "asc".data)
  | Tok.word r2, Tok.word r3 =>
    !(decide (lowerChars r2 = "asc".data) &&
      RESERVED_LIKE.contains (lowerChars r3))
  | _, _ => true

def ascSafe : List Tok → Bool
  | a :: b :: rest => ascSafePair a b && ascSafe (b :: rest)
  | _ => true

/-- No bare word token spells `desc` (case-insensitively). -/
def noWordDesc (ts : List Tok) : Bool :=
  ts.all fun t =>
    match t with
    | Tok.word r => !decide (lowerChars r = "desc".data)
    | _ => true


/-- Tokens whose printed run matches `\blimit\b` (backticks are not word
characters, so a quoted `limit` matches too). -/
def hasLimitTok : Tok → Bool
  | Tok.word r => decide (lowerChars r = "limit".data)
  | Tok.quot r => decide (lowerChars r = "limit".data)
  | _ => false

/-- Concrete schema used by the Guard pipeline instances below. -/
def gschema : List TableSchema :=
  [⟨"t", ["a", "b", "desc", "limit", "limit3"]⟩]

/-! ## Theorems for claims C2 and C5 -/

/-- C2 (amended): `check_predicate_presence` returns `true` iff decomposing
the required predicate by splitting on *every* `AND` keyword occurrence
(regardless of parenthesis nesting, stripping one pair of wrapping
parentheses per part) yields a *non-empty* list of atoms each of which,
after normalization (lower-case, table prefixes stripped, whitespace
collapsed, `NOT X IS NULL` ↔ `X IS NOT NULL` normalized), occurs as a
substring of some normalized WHERE condition. -/
theorem c2_check_predicate_presence_iff (conds : List (List Char))
    (pred : List Char) :
    check_predicate_presence conds pred = true ↔
      (decompose_predicate_to_atoms pred ≠ [] ∧
        ∀ atom ∈ decompose_predicate_to_atoms pred,
          ∃ cond ∈ conds,
            infixOf (normalize_predicate atom) (normalize_predicate cond) = true) := by
  by_cases h : decompose_predicate_to_atoms pred = []
  · simp [check_predicate_presence, h]
  · simp [check_predicate_presence, h, List.all_eq_true, List.any_eq_true]

/-- C2 counterexample: on the required predicate `(x = 1 AND y = 2)` with
the single WHERE condition `x = 1 and y = 2`, splitting on *top-level*
`AND` (as the claim states — there is none, the conjunction is inside
parentheses) yields the single atom `x = 1 AND y = 2`, which is
normalization-substring-matched by the condition; yet the source splits
inside the parentheses into `(x = 1` / `y = 2)` and returns `false`. -/
theorem c2_top_level_split_counterexample :
    check_predicate_presence ["x = 1 and y = 2".data]
        "(x = 1 AND y = 2)".data = false ∧
    decomposeTopLevelSpec "(x = 1 AND y = 2)".data ≠ [] ∧
    ∀ atom ∈ decomposeTopLevelSpec "(x = 1 AND y = 2)".data,
      ∃ cond ∈ ["x = 1 and y = 2".data],
        infixOf (normalize_predicate atom) (normalize_predicate cond) = true := by
  decide

theorem tripleLe_trans (a b c : Nat × Nat × Nat)
    (h1 : tripleLe a b = true) (h2 : tripleLe b c = true) :
    tripleLe a c = true := by
  simp only [tripleLe, decide_eq_true_eq] at *
  omega

theorem tripleLe_total (a b : Nat × Nat × Nat) :
    (tripleLe a b || tripleLe b a) = true := by
  simp only [tripleLe, Bool.or_eq_true, decide_eq_true_eq]
  omega

theorem tripleLt_of_le_of_ne (a b : Nat × Nat × Nat)
    (h1 : tripleLe a b = true) (h2 : a ≠ b) : tripleLt a b = true := by
  rcases a with ⟨a1, a2, a3⟩
  rcases b with ⟨b1, b2, b3⟩
  simp only [tripleLe, decide_eq_true_eq] at h1
  simp only [tripleLt, decide_eq_true_eq]
  by_cases e1 : a1 = b1
  · by_cases e2 : a2 = b2
    · have e3 : a3 ≠ b3 := fun e3 => h2 (by simp [e1, e2, e3])
      omega
    · omega
  · omega

/-- C5: on the empty list `deterministic_selection` returns `none`; on any
non-empty list of candidates paired with pairwise-distinct original
indices it returns the unique candidate minimal under the ascending
lexicographic key `(repaired, len(sql), original index)`.  Determinism is
immediate: the model is a function of its input. -/
theorem c5_deterministic_selection (l : List (Nat × Candidate))
    (hne : l ≠ []) (hidx : (l.map Prod.fst).Nodup) :
    deterministic_selection [] = none ∧
    ∃ best ∈ l, deterministic_selection l = some best.2 ∧
      ∀ x ∈ l, x ≠ best →
        tripleLt (selection_key best) (selection_key x) = true := by
  refine ⟨by simp [deterministic_selection], ?_⟩
  have hperm := List.mergeSort_perm l
    (fun a b => tripleLe (selection_key a) (selection_key b))
  have hsorted := @List.sorted_mergeSort (Nat × Candidate)
    (fun a b => tripleLe (selection_key a) (selection_key b))
    (fun a b c h1 h2 => tripleLe_trans _ _ _ h1 h2)
    (fun a b => tripleLe_total _ _) l
  cases hs : l.mergeSort
      (fun a b => tripleLe (selection_key a) (selection_key b)) with
  | nil =>
    rw [hs] at hperm
    exact absurd hperm.symm.eq_nil hne
  | cons best rest =>
    rw [hs] at hperm hsorted
    have hbest : best ∈ l := hperm.mem_iff.mp (List.mem_cons_self _ _)
    refine ⟨best, hbest, ?_, ?_⟩
    · simp [deterministic_selection, hs]
    · intro x hx hxne
      have hx' : x ∈ best :: rest := hperm.mem_iff.mpr hx
      have hle : tripleLe (selection_key best) (selection_key x) = true := by
        rcases List.mem_cons.mp hx' with h | h
        · exact absurd h hxne
        · exact (List.pairwise_cons.mp hsorted).1 x h
      refine tripleLt_of_le_of_ne _ _ hle ?_
      intro hkeq
      have hfst : best.1 = x.1 := congrArg (fun t => t.2.2) hkeq
      exact hxne (List.inj_on_of_nodup_map hidx hx hbest hfst.symm)

/-! ## Digit-printing lemmas -/

theorem digitChar_isDigit {d : Nat} (h : d < 10) :
    (Char.ofNat (48 + d)).isDigit = true := by
  interval_cases d <;> decide

theorem digitChar_toNat {d : Nat} (h : d < 10) :
    (Char.ofNat (48 + d)).toNat - 48 = d := by
  interval_cases d <;> decide

theorem natDigitsAux_all_digit (fuel n : Nat) :
    (natDigitsAux fuel n).all Char.isDigit = true := by
  induction fuel generalizing n with
  | zero => simp [natDigitsAux]
  | succ f ih =>
    simp only [natDigitsAux]
    by_cases h : n = 0
    · simp [h]
    · simp only [h, if_false, List.all_append, ih, Bool.true_and]
      simp [digitChar_isDigit (Nat.mod_lt n (by omega))]

theorem natDigits_all_digit (n : Nat) :
    (natDigits n).all Char.isDigit = true := by
  unfold natDigits
  by_cases h : n = 0
  · simp [h]
  · simp [h, natDigitsAux_all_digit]

theorem natDigits_ne_nil (n : Nat) : natDigits n ≠ [] := by
  unfold natDigits
  by_cases h : n = 0
  · simp [h]
  · simp only [h, if_false]
    unfold natDigitsAux
    simp [h]

theorem natOfDigits_natDigitsAux (fuel : Nat) :
    ∀ n, n ≤ fuel → natOfDigits (natDigitsAux fuel n) = n := by
  induction fuel with
  | zero =>
    intro n h
    interval_cases n
    simp [natDigitsAux, natOfDigits]
  | succ f ih =>
    intro n h
    unfold natDigitsAux
    by_cases h0 : n = 0
    · simp [h0, natOfDigits]
    · simp only [h0, if_false]
      have hlt : n / 10 ≤ f := by omega
      have := ih (n / 10) hlt
      simp only [natOfDigits, List.foldl_append] at *
      rw [this]
      rw [show (List.foldl (fun a c => 10 * a + (c.toNat - 48))
        (n / 10) [Char.ofNat (48 + n % 10)]) =
          10 * (n / 10) + ((Char.ofNat (48 + n % 10)).toNat - 48) from rfl]
      rw [digitChar_toNat (Nat.mod_lt n (by omega))]
      omega

theorem natOfDigits_natDigits (n : Nat) : natOfDigits (natDigits n) = n := by
  unfold natDigits
  by_cases h : n = 0
  · simp [h, natOfDigits]
  · simp only [h, if_false]
    exact natOfDigits_natDigitsAux (n + 1) n (by omega)

/-! ## Tokenizer round-trip -/

theorem takeWhile_append_stop {p : Char → Bool} {a b : List Char}
    (ha : a.all p = true) (hb : b.head?.all (fun c => !p c) = true) :
    (a ++ b).takeWhile p = a ∧ (a ++ b).dropWhile p = b := by
  induction a with
  | nil =>
    cases b with
    | nil => simp [List.takeWhile, List.dropWhile]
    | cons c cs =>
      simp only [Option.all, List.head?] at hb
      have hpc : p c = false := by revert hb; cases p c <;> simp
      constructor
      · simp [List.takeWhile, hpc]
      · simp [List.dropWhile, hpc]
  | cons x xs ih =>
    simp only [List.all_cons, Bool.and_eq_true] at ha
    have := ih ha.2
    constructor
    · simp [List.takeWhile, ha.1, this.1]
    · simp [List.dropWhile, ha.1, this.2]

theorem wordChar_not_space {c : Char} (h : isWordChar c = true) :
    isSpaceChar c = false := by
  by_contra hs
  rw [Bool.not_eq_false] at hs
  simp only [isSpaceChar, Bool.or_eq_true, beq_iff_eq] at hs
  have h4 : c = ' ' ∨ c = '\t' ∨ c = '\n' ∨ c = '\r' := by tauto
  rcases h4 with rfl | rfl | rfl | rfl <;> exact absurd h (by decide)

theorem wordChar_ne_tick {c : Char} (h : isWordChar c = true) :
    c ≠ tickChar := by
  intro he
  rw [he] at h
  exact absurd h (by decide)

theorem digit_isWord {c : Char} (h : c.isDigit = true) :
    isWordChar c = true := by
  simp [isWordChar, h]

theorem tokChars_ne_nil {t : Tok} (h : tokOk t = true) : tokChars t ≠ [] := by
  cases t with
  | word r =>
    cases r with
    | nil => exact absurd h (by simp [tokOk, wordRawOk])
    | cons c cs => simp [tokChars]
  | num n => simpa [tokChars] using natDigits_ne_nil n
  | rawtext s => exact absurd h (by simp [tokOk])
  | quot r => simp [tokChars]
  | comma => simp [tokChars]
  | dot => simp [tokChars]
  | lparen => simp [tokChars]
  | rparen => simp [tokChars]
  | star => simp [tokChars]
  | opEq => simp [tokChars]
  | opNe => simp [tokChars]
  | opLt => simp [tokChars]
  | opGt => simp [tokChars]
  | opLe => simp [tokChars]
  | opGe => simp [tokChars]

/-- First character printed after a token, when it is directly adjacent
(no blank): always one of `, ) . (` — never a word character, `>` or
`=`. -/
theorem joinToks_head_cases (b : Tok) (rest : List Tok) (hb : tokOk b = true) :
    (joinToks (b :: rest)).head? = (tokChars b).head? := by
  cases rest with
  | nil => simp [joinToks]
  | cons c cs =>
    simp only [joinToks]
    rw [List.head?_append]
    cases hx : (tokChars b).head? with
    | some v => simp [hx]
    | none =>
      exact absurd (List.head?_eq_none_iff.mp hx) (tokChars_ne_nil hb)

/-- Continuation condition for re-tokenizing token `a` followed by text
`s`: word runs and digit runs must not continue into `s`, and `<` `>`
must not combine with a following `=`/`>`. -/
def contOk (a : Tok) (s : List Char) : Prop :=
  match a with
  | Tok.word _ => s.head?.all (fun c => !isWordChar c) = true
  | Tok.num _ => s.head?.all (fun c => !isWordChar c) = true
  | Tok.opLt => s.head?.all (fun c => !(c = '>' || c = '=')) = true
  | Tok.opGt => s.head?.all (fun c => !(c = '=')) = true
  | _ => True

/-- Witness for `c5_deterministic_selection` at a concrete candidate
list. -/
theorem c5_deterministic_selection_witness :
    deterministic_selection [] = none ∧
    ∃ best ∈ [(0, Candidate.mk "SELECT a FROM t".data false),
              (1, Candidate.mk "SELECT b".data true)],
      deterministic_selection
          [(0, Candidate.mk "SELECT a FROM t".data false),
           (1, Candidate.mk "SELECT b".data true)] = some best.2 ∧
      ∀ x ∈ [(0, Candidate.mk "SELECT a FROM t".data false),
             (1, Candidate.mk "SELECT b".data true)], x ≠ best →
        tripleLt (selection_key best) (selection_key x) = true :=
  c5_deterministic_selection _ (by decide) (by decide)



theorem head_all_not_word_imp_any (s : List Char)
    (hc : s.head?.all (fun c => !isWordChar c) = true) :
    (s.head?.any isWordChar) = false := by
  cases s with
  | nil => rfl
  | cons c cs =>
    simp only [List.head?, Option.all, Option.any] at *
    revert hc
    cases isWordChar c <;> simp

theorem head_all_not_word_imp_not_digit (s : List Char)
    (hc : s.head?.all (fun c => !isWordChar c) = true) :
    s.head?.all (fun c => !c.isDigit) = true := by
  cases s with
  | nil => rfl
  | cons c cs =>
    simp only [List.head?, Option.all] at *
    cases hd : c.isDigit
    · simp
    · rw [digit_isWord hd] at hc
      exact absurd hc (by simp)

theorem tokenizeGo_step_word (r : List Char) (ha : wordRawOk r = true)
    (ts' : List Tok) (s : List Char)
    (hc : s.head?.all (fun c => !isWordChar c) = true)
    (hcont : ∀ fuel, s.length < fuel → tokenizeGo fuel s = .ok ts') :
    ∀ fuel, (r ++ s).length < fuel →
      tokenizeGo fuel (r ++ s) = .ok (Tok.word r :: ts') := by
  intro fuel hfuel
  cases r with
  | nil => exact absurd ha (by simp [wordRawOk])
  | cons c cs =>
    simp only [wordRawOk, Bool.and_eq_true] at ha
    obtain ⟨⟨hw, hd⟩, hall⟩ := ha
    obtain ⟨f, rfl⟩ : ∃ f, fuel = f + 1 := ⟨fuel - 1, by omega⟩
    have hstop := takeWhile_append_stop (p := isWordChar) hall hc
    have hdig : c.isDigit = false := by
      revert hd; cases c.isDigit <;> simp
    simp only [List.cons_append, tokenizeGo, wordChar_not_space hw, hdig, hw,
      Bool.false_eq_true, if_false, if_true, List.append_eq]
    rw [hstop.1, hstop.2]
    rw [hcont f (by simp [List.length_cons, List.length_append] at hfuel ⊢; omega)]
    rfl

theorem tokenizeGo_step_num (n : Nat) (ts' : List Tok) (s : List Char)
    (hc : s.head?.all (fun c => !isWordChar c) = true)
    (hcont : ∀ fuel, s.length < fuel → tokenizeGo fuel s = .ok ts') :
    ∀ fuel, (natDigits n ++ s).length < fuel →
      tokenizeGo fuel (natDigits n ++ s) = .ok (Tok.num n :: ts') := by
  intro fuel hfuel
  cases hnd : natDigits n with
  | nil => exact absurd hnd (natDigits_ne_nil n)
  | cons d ds =>
    have hall : (d :: ds).all Char.isDigit = true := hnd ▸ natDigits_all_digit n
    simp only [List.all_cons, Bool.and_eq_true] at hall
    obtain ⟨hd, hds⟩ := hall
    obtain ⟨f, rfl⟩ : ∃ f, fuel = f + 1 := ⟨fuel - 1, by omega⟩
    rw [hnd] at hfuel
    have hstop := takeWhile_append_stop (p := Char.isDigit) hds
      (head_all_not_word_imp_not_digit s hc)
    have hnspace : isSpaceChar d = false := wordChar_not_space (digit_isWord hd)
    simp only [List.cons_append, tokenizeGo, hnspace, hd, Bool.false_eq_true,
      if_false, if_true, List.append_eq]
    rw [hstop.1, hstop.2]
    rw [if_neg (by simp [head_all_not_word_imp_any s hc])]
    have hval : natOfDigits (d :: ds) = n := by
      rw [← hnd]; exact natOfDigits_natDigits n
    rw [hval, hcont f (by simp [List.length_cons, List.length_append] at hfuel ⊢; omega)]
    rfl

theorem tokenizeGo_step_quot (r : List Char) (ha : wordRawOk r = true)
    (ts' : List Tok) (s : List Char)
    (hcont : ∀ fuel, s.length < fuel → tokenizeGo fuel s = .ok ts') :
    ∀ fuel, ((tickChar :: (r ++ [tickChar])) ++ s).length < fuel →
      tokenizeGo fuel ((tickChar :: (r ++ [tickChar])) ++ s) =
        .ok (Tok.quot r :: ts') := by
  intro fuel hfuel
  obtain ⟨f, rfl⟩ : ∃ f, fuel = f + 1 := ⟨fuel - 1, by omega⟩
  have hallw : r.all isWordChar = true := by
    cases r with
    | nil => simp
    | cons c cs =>
      simp only [wordRawOk, Bool.and_eq_true] at ha
      simp [ha.1.1, ha.2]
  have hb : (tickChar :: s).head?.all (fun c => !isWordChar c) = true := by
    simp only [List.head?, Option.all]
    decide
  have hstop := takeWhile_append_stop (p := isWordChar) hallw hb
  have hner : r.isEmpty = false := by
    cases r with
    | nil => exact absurd ha (by simp [wordRawOk])
    | cons c cs => simp
  have hhd : (r.head?.getD ' ').isDigit = false := by
    cases r with
    | nil => exact absurd ha (by simp [wordRawOk])
    | cons c cs =>
      simp only [wordRawOk, Bool.and_eq_true] at ha
      simp only [List.head?, Option.getD]
      have := ha.1.2
      revert this
      cases c.isDigit <;> simp
  have hre : (r ++ [tickChar]) ++ s = r ++ (tickChar :: s) := by simp
  simp only [List.cons_append, tokenizeGo, List.append_eq]
  rw [if_neg (by decide), if_neg (by decide), if_neg (by decide)]
  simp only [if_true]
  rw [hre, hstop.1, hstop.2]
  simp [hner, hhd, hcont f (by simp [List.length_cons, List.length_append] at hfuel ⊢; omega)]

theorem tokenizeGo_nil (ts' : List Tok) (h : ts' = []) :
    ∀ fuel, ([] : List Char).length < fuel →
      tokenizeGo fuel [] = .ok ts' := by
  intro fuel hf
  obtain ⟨f, rfl⟩ : ∃ f, fuel = f + 1 := ⟨fuel - 1, by omega⟩
  simp [tokenizeGo, h]

theorem tokenizeGo_step (a : Tok) (ha : tokOk a = true) (ts' : List Tok)
    (s : List Char) (hc : contOk a s)
    (hcont : ∀ fuel, s.length < fuel → tokenizeGo fuel s = .ok ts') :
    ∀ fuel, (tokChars a ++ s).length < fuel →
      tokenizeGo fuel (tokChars a ++ s) = .ok (a :: ts') := by
  cases a with
  | word r => exact tokenizeGo_step_word r (by simpa [tokOk] using ha) ts' s hc hcont
  | num n => exact tokenizeGo_step_num n ts' s hc hcont
  | quot r => exact tokenizeGo_step_quot r (by simpa [tokOk] using ha) ts' s hcont
  | rawtext r => exact absurd ha (by simp [tokOk])
  | comma =>
    intro fuel hf
    obtain ⟨f, rfl⟩ : ∃ f, fuel = f + 1 := ⟨fuel - 1, by omega⟩
    simp only [tokChars, List.cons_append, List.nil_append, tokenizeGo]
    simp +decide [hcont f (by simp [tokChars] at hf; omega)]
  | dot =>
    intro fuel hf
    obtain ⟨f, rfl⟩ : ∃ f, fuel = f + 1 := ⟨fuel - 1, by omega⟩
    simp only [tokChars, List.cons_append, List.nil_append, tokenizeGo]
    simp +decide [hcont f (by simp [tokChars] at hf; omega)]
  | lparen =>
    intro fuel hf
    obtain ⟨f, rfl⟩ : ∃ f, fuel = f + 1 := ⟨fuel - 1, by omega⟩
    simp only [tokChars, List.cons_append, List.nil_append, tokenizeGo]
    simp +decide [hcont f (by simp [tokChars] at hf; omega)]
  | rparen =>
    intro fuel hf
    obtain ⟨f, rfl⟩ : ∃ f, fuel = f + 1 := ⟨fuel - 1, by omega⟩
    simp only [tokChars, List.cons_append, List.nil_append, tokenizeGo]
    simp +decide [hcont f (by simp [tokChars] at hf; omega)]
  | star =>
    intro fuel hf
    obtain ⟨f, rfl⟩ : ∃ f, fuel = f + 1 := ⟨fuel - 1, by omega⟩
    simp only [tokChars, List.cons_append, List.nil_append, tokenizeGo]
    simp +decide [hcont f (by simp [tokChars] at hf; omega)]
  | opEq =>
    intro fuel hf
    obtain ⟨f, rfl⟩ : ∃ f, fuel = f + 1 := ⟨fuel - 1, by omega⟩
    simp only [tokChars, List.cons_append, List.nil_append, tokenizeGo]
    simp +decide [hcont f (by simp [tokChars] at hf; omega)]
  | opNe =>
    intro fuel hf
    obtain ⟨f, rfl⟩ : ∃ f, fuel = f + 1 := ⟨fuel - 1, by omega⟩
    simp only [tokChars, List.cons_append, List.nil_append, tokenizeGo]
    simp +decide [hcont f (by simp [tokChars] at hf; omega)]
  | opLe =>
    intro fuel hf
    obtain ⟨f, rfl⟩ : ∃ f, fuel = f + 1 := ⟨fuel - 1, by omega⟩
    simp only [tokChars, List.cons_append, List.nil_append, tokenizeGo]
    simp +decide [hcont f (by simp [tokChars] at hf; omega)]
  | opGe =>
    intro fuel hf
    obtain ⟨f, rfl⟩ : ∃ f, fuel = f + 1 := ⟨fuel - 1, by omega⟩
    simp only [tokChars, List.cons_append, List.nil_append, tokenizeGo]
    simp +decide [hcont f (by simp [tokChars] at hf; omega)]
  | opLt =>
    intro fuel hf
    obtain ⟨f, rfl⟩ : ∃ f, fuel = f + 1 := ⟨fuel - 1, by omega⟩
    simp only [tokChars, List.cons_append, List.nil_append, tokenizeGo]
    cases s with
    | nil =>
      simp +decide [hcont f (by simp [tokChars] at hf; simpa using hf)]
    | cons c' s' =>
      simp only [contOk, List.head?, Option.all, Bool.not_eq_true',
        Bool.or_eq_false_iff, decide_eq_false_iff_not] at hc
      simp +decide only [if_false, if_true, List.append_eq, List.nil_append]
      split
      · rename_i heq
        cases heq
        exact absurd rfl hc.1
      · rename_i heq
        cases heq
        exact absurd rfl hc.2
      · rw [hcont f (by simp [tokChars] at hf ⊢; omega)]; rfl
  | opGt =>
    intro fuel hf
    obtain ⟨f, rfl⟩ : ∃ f, fuel = f + 1 := ⟨fuel - 1, by omega⟩
    simp only [tokChars, List.cons_append, List.nil_append, tokenizeGo]
    cases s with
    | nil =>
      simp +decide [hcont f (by simp [tokChars] at hf; simpa using hf)]
    | cons c' s' =>
      simp only [contOk, List.head?, Option.all, Bool.not_eq_true',
        decide_eq_false_iff_not] at hc
      simp +decide only [if_false, if_true, List.append_eq, List.nil_append]
      split
      · rename_i heq
        cases heq
        exact absurd rfl hc
      · rw [hcont f (by simp [tokChars] at hf ⊢; omega)]; rfl


theorem contOk_nil (a : Tok) : contOk a [] := by
  cases a <;> simp [contOk]

theorem contOk_of_goodHead (a : Tok) (s : List Char)
    (h : ∀ c ∈ s.head?, isWordChar c = false ∧ c ≠ '>' ∧ c ≠ '=') :
    contOk a s := by
  cases a <;> simp only [contOk] <;> try trivial
  all_goals
    cases hs : s.head? with
    | none => simp
    | some c =>
      obtain ⟨h1, h2, h3⟩ := h c (by simp [hs])
      simp [Option.all, h1, h2, h3]

theorem adj_good_head (a b : Tok) (rest : List Tok) (hb : tokOk b = true)
    (hsp : needSpace a b = false)
    (hna : a ≠ Tok.lparen) (hnd : a ≠ Tok.dot) :
    ∀ c ∈ (joinToks (b :: rest)).head?,
      isWordChar c = false ∧ c ≠ '>' ∧ c ≠ '=' := by
  have hhead := joinToks_head_cases b rest hb
  intro c hc
  rw [hhead] at hc
  cases b with
  | comma => simp [tokChars] at hc; subst hc; refine ⟨by decide, by decide, by decide⟩
  | rparen => simp [tokChars] at hc; subst hc; refine ⟨by decide, by decide, by decide⟩
  | dot => simp [tokChars] at hc; subst hc; refine ⟨by decide, by decide, by decide⟩
  | lparen => simp [tokChars] at hc; subst hc; refine ⟨by decide, by decide, by decide⟩
  | word r =>
    exfalso; revert hsp; cases a <;> simp [needSpace] <;> simp_all
  | num n =>
    exfalso; revert hsp; cases a <;> simp [needSpace] <;> simp_all
  | quot r =>
    exfalso; revert hsp; cases a <;> simp [needSpace] <;> simp_all
  | star =>
    exfalso; revert hsp; cases a <;> simp [needSpace] <;> simp_all
  | opEq =>
    exfalso; revert hsp; cases a <;> simp [needSpace] <;> simp_all
  | opNe =>
    exfalso; revert hsp; cases a <;> simp [needSpace] <;> simp_all
  | opLt =>
    exfalso; revert hsp; cases a <;> simp [needSpace] <;> simp_all
  | opGt =>
    exfalso; revert hsp; cases a <;> simp [needSpace] <;> simp_all
  | opLe =>
    exfalso; revert hsp; cases a <;> simp [needSpace] <;> simp_all
  | opGe =>
    exfalso; revert hsp; cases a <;> simp [needSpace] <;> simp_all
  | rawtext r =>
    exfalso; revert hsp; cases a <;> simp [needSpace] <;> simp_all

theorem contOk_sep (a b : Tok) (rest : List Tok) (hb : tokOk b = true) :
    contOk a ((if needSpace a b then [' '] else []) ++ joinToks (b :: rest)) := by
  by_cases hsp : needSpace a b
  · rw [if_pos hsp]
    apply contOk_of_goodHead
    intro c hc
    simp only [List.cons_append, List.head?, Option.mem_def, Option.some.injEq] at hc
    subst hc
    refine ⟨by decide, by decide, by decide⟩
  · rw [if_neg hsp, List.nil_append]
    by_cases hna : a = Tok.lparen
    · subst hna; simp [contOk]
    by_cases hnd : a = Tok.dot
    · subst hnd; simp [contOk]
    exact contOk_of_goodHead a _
      (adj_good_head a b rest hb (by simpa using hsp) hna hnd)

theorem tokenizeGo_joinToks (ts : List Tok) (h : ts.all tokOk = true) :
    ∀ fuel, (joinToks ts).length < fuel →
      tokenizeGo fuel (joinToks ts) = .ok ts := by
  induction ts with
  | nil => exact tokenizeGo_nil [] rfl
  | cons a more ih =>
    simp only [List.all_cons, Bool.and_eq_true] at h
    obtain ⟨ha, hmore⟩ := h
    cases more with
    | nil =>
      intro fuel hf
      have hstep := tokenizeGo_step a ha [] [] (contOk_nil a)
        (tokenizeGo_nil [] rfl) fuel (by simpa [joinToks] using hf)
      simpa [joinToks] using hstep
    | cons b rest =>
      intro fuel hf
      have hbok : tokOk b = true := by
        simp only [List.all_cons, Bool.and_eq_true] at hmore
        exact hmore.1
      have hjoin : joinToks (a :: b :: rest) =
          tokChars a ++
            ((if needSpace a b then [' '] else []) ++ joinToks (b :: rest)) := by
        simp [joinToks, List.append_assoc]
      have hcont : ∀ fuel2,
          ((if needSpace a b then [' '] else []) ++
            joinToks (b :: rest)).length < fuel2 →
          tokenizeGo fuel2
            ((if needSpace a b then [' '] else []) ++ joinToks (b :: rest)) =
            .ok (b :: rest) := by
        by_cases hsp : needSpace a b
        · intro fuel2 hf2
          obtain ⟨f2, rfl⟩ : ∃ f2, fuel2 = f2 + 1 := ⟨fuel2 - 1, by omega⟩
          rw [if_pos hsp] at hf2 ⊢
          have hred : tokenizeGo (f2 + 1) (' ' :: joinToks (b :: rest)) =
              tokenizeGo f2 (joinToks (b :: rest)) := by
            simp +decide [tokenizeGo]
          rw [show ([' '] ++ joinToks (b :: rest)) =
            ' ' :: joinToks (b :: rest) from rfl, hred]
          exact ih hmore f2 (by simp at hf2; omega)
        · intro fuel2 hf2
          rw [if_neg hsp] at hf2 ⊢
          simpa using ih hmore fuel2 (by simpa using hf2)
      rw [hjoin]
      exact tokenizeGo_step a ha (b :: rest) _
        (contOk_sep a b rest hbok) hcont fuel (by rw [hjoin] at hf; exact hf)

theorem tokenize_joinToks (ts : List Tok) (h : ts.all tokOk = true) :
    tokenize (joinToks ts) = .ok ts :=
  tokenizeGo_joinToks ts h _ (by omega)

theorem pIdent_toks (i : SqlIdent) (rest : List Tok) :
    pIdent (identToks i ++ rest) = .ok (i, rest) := by
  obtain ⟨raw, quoted, hok⟩ := i
  cases quoted
  · simp only [identToks, Bool.false_eq_true, if_false, List.cons_append,
      List.nil_append, pIdent]
    rw [dif_pos hok]
  · simp only [identToks, eq_self_iff_true, if_true, List.cons_append,
      List.nil_append, pIdent]
    rw [dif_pos hok]

theorem aggOf_aggName (f : AggF) : aggOf (Tok.word (aggName f)) = some f := by
  cases f <;> decide

theorem cmpOf_cmpTok (op : CmpOp) : cmpOf (cmpTok op) = some op := by
  cases op <;> decide

theorem operandToks_ne_nil (e : Operand) : operandToks e ≠ [] := by
  cases e with
  | col t c =>
    cases t <;> (simp only [operandToks, colToks, identToks, List.append_eq]; split <;> simp)
  | num n => simp [operandToks]
  | agg f a => cases a <;> simp [operandToks]

/-- The first token printed for an operand is a word, quoted identifier
or number. -/
theorem operandToks_head_ne (e : Operand) :
    (operandToks e).head? ≠ some Tok.lparen ∧
      (operandToks e).head? ≠ some Tok.star := by
  cases e with
  | col t c =>
    cases t with
    | none => cases hq : c.quoted <;>
        simp [operandToks, colToks, identToks, hq]
    | some tb => cases hq : tb.quoted <;>
        simp [operandToks, colToks, identToks, hq]
  | num n => simp [operandToks]
  | agg f a => cases a <;> simp [operandToks]


theorem pOperand_step_default (fuel : Nat) (toks : List Tok)
    (h : ∀ t r, toks ≠ t :: Tok.lparen :: r) :
    pOperand (fuel + 1) toks = pColNum fuel toks := by
  cases toks with
  | nil => rfl
  | cons t0 ts =>
    cases ts with
    | nil => rfl
    | cons t1 ts2 =>
      cases t1 <;> first | rfl | (exact absurd rfl (h t0 ts2))

theorem pColNum_ident (fuel : Nat) (i : SqlIdent) (rest : List Tok)
    (hdot : rest.head? ≠ some Tok.dot) :
    pColNum (fuel + 1) (identToks i ++ rest) = .ok (Operand.col none i, rest) := by
  have hres : pIdent (identToks i ++ rest) = .ok (i, rest) := pIdent_toks i rest
  obtain ⟨raw, q, hok⟩ := i
  cases q
  all_goals
    simp only [identToks, Bool.false_eq_true, if_false, eq_self_iff_true,
      if_true, List.cons_append, List.nil_append] at hres ⊢
  all_goals
    simp only [pColNum]
  all_goals
    rw [hres]
  all_goals
    cases rest with
    | nil => rfl
    | cons r0 rs => cases r0 <;> first | rfl | (exact absurd rfl hdot)

theorem pColNum_ident_dot (fuel : Nat) (t c : SqlIdent) (rest : List Tok) :
    pColNum (fuel + 1) (identToks t ++ Tok.dot :: (identToks c ++ rest)) =
      .ok (Operand.col (some t) c, rest) := by
  have hres : pIdent (identToks t ++ Tok.dot :: (identToks c ++ rest)) =
      .ok (t, Tok.dot :: (identToks c ++ rest)) := pIdent_toks t _
  have hres2 : pIdent (identToks c ++ rest) = .ok (c, rest) := pIdent_toks c rest
  obtain ⟨raw, q, hok⟩ := t
  cases q
  all_goals
    simp only [identToks, Bool.false_eq_true, if_false, eq_self_iff_true,
      if_true, List.cons_append, List.nil_append] at hres hres2 ⊢
  all_goals
    simp only [pColNum]
  all_goals
    rw [hres]
  all_goals
    simp only [hres2]

theorem pOperand_step_agg (fuel : Nat) (fn : AggF) (inner : List Tok)
    (h : ∀ r, inner ≠ Tok.star :: Tok.rparen :: r) :
    pOperand (fuel + 1) (Tok.word (aggName fn) :: Tok.lparen :: inner) =
      (match pOperand fuel inner with
       | .error e => .error e
       | .ok (e, rest2) =>
         match rest2 with
         | Tok.rparen :: rest3 => .ok (Operand.agg fn (some e), rest3)
         | _ => .error "expected closing parenthesis") := by
  simp only [pOperand]
  rw [aggOf_aggName]

theorem pOperand_toks : ∀ (fuel : Nat) (e : Operand) (rest : List Tok),
    szO e < fuel → rest.head? ≠ some Tok.dot → rest.head? ≠ some Tok.lparen →
    pOperand fuel (operandToks e ++ rest) = .ok (e, rest) := by
  intro fuel
  induction fuel with
  | zero => intro e rest hsz; exact absurd hsz (by omega)
  | succ f ih =>
    intro e rest hsz hdot hlp
    obtain ⟨f2, rfl⟩ : ∃ f2, f = f2 + 1 := by
      refine ⟨f - 1, ?_⟩
      have h1 : 1 ≤ szO e := by
        cases e with
        | col t c => exact Nat.le_refl 1
        | num n => exact Nat.le_refl 1
        | agg g a => cases a <;> simp only [szO] <;> omega
      omega
    cases e with
    | num n =>
      rw [pOperand_step_default (f2 + 1) _ ?hne]
      case hne =>
        intro t r he
        simp only [List.cons_append, List.nil_append, operandToks] at he
        rw [List.cons_eq_cons] at he
        exact absurd (by rw [he.2]; rfl) hlp
      rfl
    | col tb c =>
      cases tb with
      | none =>
        rw [pOperand_step_default (f2 + 1) _ ?hne2]
        case hne2 =>
          intro t r he
          cases hq : c.quoted <;>
            simp only [operandToks, colToks, identToks, hq, Bool.false_eq_true,
              if_false, if_true, List.cons_append, List.nil_append] at he <;>
            (rw [List.cons_eq_cons] at he; exact absurd (by rw [he.2]; rfl) hlp)
        exact pColNum_ident f2 c rest hdot
      | some tb =>
        have hsh : operandToks (Operand.col (some tb) c) ++ rest =
            identToks tb ++ Tok.dot :: (identToks c ++ rest) := by
          simp [operandToks, colToks]
        rw [hsh]
        rw [pOperand_step_default (f2 + 1) _ ?hne3]
        case hne3 =>
          intro t r he
          cases hq : tb.quoted <;>
            simp [identToks, hq] at he
        exact pColNum_ident_dot f2 tb c rest
    | agg fn a =>
      cases a with
      | none =>
        have hsh : operandToks (Operand.agg fn none) ++ rest =
            Tok.word (aggName fn) :: Tok.lparen :: Tok.star :: Tok.rparen ::
              rest := by
          simp [operandToks]
        rw [hsh]
        simp only [pOperand]
        rw [aggOf_aggName]
      | some e2 =>
        have hsh : operandToks (Operand.agg fn (some e2)) ++ rest =
            Tok.word (aggName fn) :: Tok.lparen ::
              (operandToks e2 ++ Tok.rparen :: rest) := by
          simp [operandToks]
        have hne := (operandToks_head_ne e2).2
        have hrec : pOperand (f2 + 1) (operandToks e2 ++ Tok.rparen :: rest) =
            .ok (e2, Tok.rparen :: rest) :=
          ih e2 (Tok.rparen :: rest) (by simp only [szO] at hsz; omega)
            (by simp) (by simp)
        rw [hsh]
        rw [pOperand_step_agg (f2 + 1) fn _ ?hstar]
        case hstar =>
          intro r he
          cases hop : operandToks e2 with
          | nil => exact absurd hop (operandToks_ne_nil e2)
          | cons o0 os =>
            rw [hop] at he
            simp only [List.cons_append] at he
            rw [List.cons_eq_cons] at he
            exact absurd (by rw [hop, he.1]; rfl) hne
        rw [hrec]

theorem szC_pos (c : Cond) : 1 ≤ szC c := by
  cases c <;> simp only [szC] <;> omega

theorem cStop_uStop (r : List Tok) (h : cStop r = true) : uStop r = true := by
  cases r with
  | nil => rfl
  | cons t ts =>
    simp only [cStop, Bool.and_eq_true] at h
    simp only [uStop, Bool.and_eq_true]
    exact ⟨⟨h.1.1.1, h.1.1.2⟩, h.1.2⟩

theorem uStop_andSep (us : List Cond) (rest : List Tok)
    (h : cStop rest = true) : uStop (andSep us ++ rest) = true := by
  cases us with
  | nil => exact cStop_uStop rest h
  | cons u us2 => rfl

theorem pCond_succ (fuel : Nat) (toks : List Tok) :
    pCond (fuel + 1) toks =
      (match pUnit fuel toks with
       | .error e => .error e
       | .ok (u, rest) => pCondMore fuel u rest) := rfl

theorem pCondMore_stop (fuel : Nat) (acc : Cond) (rest : List Tok)
    (h : cStop rest = true) :
    pCondMore (fuel + 1) acc rest = .ok (acc, rest) := by
  cases rest with
  | nil => rfl
  | cons t ts =>
    simp only [cStop, Bool.and_eq_true, Bool.not_eq_eq_eq_not, Bool.not_true] at h
    simp only [pCondMore, h.2, Bool.false_eq_true, if_false]

theorem pCondMore_step_and (fuel : Nat) (acc : Cond) (t : Tok)
    (rest : List Tok) (h : kwIs t "and" = true) :
    pCondMore (fuel + 1) acc (t :: rest) =
      (match pUnit fuel rest with
       | .error e => .error e
       | .ok (u, rest2) => pCondMore fuel (Cond.andC acc u) rest2) := by
  simp only [pCondMore, h, if_true]

theorem pUnit_step_paren (fuel : Nat) (rest : List Tok) :
    pUnit (fuel + 1) (Tok.lparen :: rest) =
      (match pCond fuel rest with
       | .error e => .error e
       | .ok (c, rest2) =>
         match rest2 with
         | Tok.rparen :: rest3 => .ok (Cond.parenC c, rest3)
         | _ => .error "expected closing parenthesis") := rfl

theorem pUnit_step_default (fuel : Nat) (toks : List Tok)
    (h : toks.head? ≠ some Tok.lparen) :
    pUnit (fuel + 1) toks =
      (match pOperand fuel toks with
       | .error e => .error e
       | .ok (e, rest) =>
         match rest with
         | t :: rest2 =>
           match cmpOf t with
           | some op =>
             match pOperand fuel rest2 with
             | .error e => .error e
             | .ok (e2, rest3) => .ok (Cond.cmp op e e2, rest3)
           | none =>
             if kwIs t "is" then
               match rest2 with
               | t2 :: rest3 =>
                 if kwIs t2 "not" then
                   match rest3 with
                   | t3 :: rest4 =>
                     if kwIs t3 "null" then .ok (Cond.isNullTest e true, rest4)
                     else .error "expected NULL"
                   | [] => .error "expected NULL"
                 else if kwIs t2 "null" then .ok (Cond.isNullTest e false, rest3)
                 else .error "expected NULL"
               | [] => .error "expected NULL"
             else .ok (Cond.bare e, rest)
         | [] => .ok (Cond.bare e, [])) := by
  cases toks with
  | nil => rfl
  | cons t0 ts => cases t0 <;> first | rfl | (exact absurd rfl h)

theorem chain_decomp (c : Cond) (h : condWf c = true) :
    ∃ u0 us, condUnitOk u0 = true ∧ (∀ u ∈ us, condUnitOk u = true) ∧
      c = us.foldl Cond.andC u0 ∧
      condToks c = condToks u0 ++ andSep us ∧
      szC c = szC u0 + (us.map (fun u => 1 + szC u)).sum := by
  induction c with
  | andC l r ihl ihr =>
    simp only [condWf, Bool.and_eq_true] at h
    obtain ⟨u0, us, hu0, hus, hfold, htoks, hsz⟩ := ihl h.1
    refine ⟨u0, us ++ [r], hu0, ?_, ?_, ?_, ?_⟩
    · intro u hu
      rcases List.mem_append.mp hu with h2 | h2
      · exact hus u h2
      · simp only [List.mem_singleton] at h2
        exact h2 ▸ h.2
    · rw [List.foldl_append, List.foldl_cons, List.foldl_nil, ← hfold]
    · simp only [condToks, htoks, andSep, List.flatMap_append, List.append_assoc]
      simp [andSep]
    · simp only [szC, hsz, List.map_append, List.sum_append, List.map_cons,
        List.map_nil, List.sum_cons, List.sum_nil]
      omega
  | cmp op l r =>
    exact ⟨Cond.cmp op l r, [], by simpa only [condWf] using h, by simp, rfl, by simp [andSep],
      by simp⟩
  | isNullTest e neg =>
    exact ⟨Cond.isNullTest e neg, [], by simpa only [condWf] using h, by simp, rfl,
      by simp [andSep], by simp⟩
  | bare e =>
    exact ⟨Cond.bare e, [], by simpa only [condWf] using h, by simp, rfl, by simp [andSep],
      by simp⟩
  | parenC c ih =>
    exact ⟨Cond.parenC c, [], by simpa only [condWf] using h, by simp, rfl, by simp [andSep],
      by simp⟩
  | anonFun raw =>
    exact ⟨Cond.anonFun raw, [], by simpa only [condWf] using h, by simp, rfl, by simp [andSep],
      by simp⟩


theorem szO_pos (e : Operand) : 1 ≤ szO e := by
  cases e with
  | col t c => exact Nat.le_refl 1
  | num n => exact Nat.le_refl 1
  | agg g a => cases a <;> simp only [szO] <;> omega

theorem notDotParen_iff (t : Tok) :
    notDotParen t = true ↔ t ≠ Tok.dot ∧ t ≠ Tok.lparen := by
  cases t <;> simp [notDotParen]

theorem uStop_heads (rest : List Tok) (h : uStop rest = true) :
    rest.head? ≠ some Tok.dot ∧ rest.head? ≠ some Tok.lparen := by
  cases rest with
  | nil => simp
  | cons t ts =>
    simp only [uStop, Bool.and_eq_true] at h
    have := (notDotParen_iff t).mp h.2
    simp only [List.head?_cons, ne_eq, Option.some.injEq]
    exact ⟨fun he => this.1 he, fun he => this.2 he⟩

theorem parseCond_toks : ∀ fuel : Nat,
    (∀ u rest, condUnitOk u = true → szC u < fuel → uStop rest = true →
      pUnit fuel (condToks u ++ rest) = .ok (u, rest)) ∧
    (∀ us acc rest, (∀ u ∈ us, condUnitOk u = true) →
      (us.map (fun u => 1 + szC u)).sum < fuel → cStop rest = true →
      pCondMore fuel acc (andSep us ++ rest) =
        .ok (us.foldl Cond.andC acc, rest)) ∧
    (∀ c rest, condWf c = true → szC c + 1 < fuel → cStop rest = true →
      pCond fuel (condToks c ++ rest) = .ok (c, rest)) := by
  intro fuel
  induction fuel with
  | zero =>
    exact ⟨fun u rest _ h2 _ => absurd h2 (by omega),
      fun us acc rest _ h2 _ => absurd h2 (by omega),
      fun c rest _ h2 _ => absurd h2 (by omega)⟩
  | succ f ih =>
    obtain ⟨hU, hM, hC⟩ := ih
    refine ⟨?_, ?_, ?_⟩
    · -- pUnit
      intro u rest hok hsz hstop
      obtain ⟨hnd, hnl⟩ := uStop_heads rest hstop
      cases u with
      | cmp op l r =>
        have hsz2 : 1 + szO l + szO r < f + 1 := by
          simpa only [szC] using hsz
        have hol := szO_pos l
        have hor := szO_pos r
        have hsh : condToks (Cond.cmp op l r) ++ rest =
            operandToks l ++ (cmpTok op :: (operandToks r ++ rest)) := by
          simp [condToks]
        rw [hsh]
        rw [pUnit_step_default f _ ?hh1]
        case hh1 =>
          have := (operandToks_head_ne l).1
          cases hop : operandToks l with
          | nil => exact absurd hop (operandToks_ne_nil l)
          | cons o0 os =>
            rw [hop] at this
            simp only [List.cons_append, List.head?_cons, ne_eq,
              Option.some.injEq] at this ⊢
            exact this
        have h1 : pOperand f (operandToks l ++
            (cmpTok op :: (operandToks r ++ rest))) =
            .ok (l, cmpTok op :: (operandToks r ++ rest)) :=
          pOperand_toks f l _ (by omega) (by cases op <;> simp [cmpTok])
            (by cases op <;> simp [cmpTok])
        have h2 : pOperand f (operandToks r ++ rest) = .ok (r, rest) :=
          pOperand_toks f r rest (by omega) hnd hnl
        simp only [h1, cmpOf_cmpTok, h2]
      | isNullTest e neg =>
        have hsz2 : 1 + szO e < f + 1 := by simpa only [szC] using hsz
        cases neg
        · have hsh : condToks (Cond.isNullTest e false) ++ rest =
              operandToks e ++ (Tok.word "IS".data ::
                Tok.word "NULL".data :: rest) := by
            simp [condToks]
          rw [hsh]
          rw [pUnit_step_default f _ ?hh2]
          case hh2 =>
            have := (operandToks_head_ne e).1
            cases hop : operandToks e with
            | nil => exact absurd hop (operandToks_ne_nil e)
            | cons o0 os =>
              rw [hop] at this
              simp only [List.cons_append, List.head?_cons, ne_eq,
                Option.some.injEq] at this ⊢
              exact this
          have h1 : pOperand f (operandToks e ++ (Tok.word "IS".data ::
              Tok.word "NULL".data :: rest)) =
              .ok (e, Tok.word "IS".data :: Tok.word "NULL".data :: rest) :=
            pOperand_toks f e _ (by omega) (by simp) (by simp)
          have hkis : kwIs (Tok.word "IS".data) "is" = true := by decide
          have hknot : kwIs (Tok.word "NULL".data) "not" = false := by decide
          have hknull : kwIs (Tok.word "NULL".data) "null" = true := by decide
          simp only [h1, cmpOf, hkis, if_true, hknot, Bool.false_eq_true,
            if_false, hknull]
        · have hsh : condToks (Cond.isNullTest e true) ++ rest =
              operandToks e ++ (Tok.word "IS".data :: Tok.word "NOT".data ::
                Tok.word "NULL".data :: rest) := by
            simp [condToks]
          rw [hsh]
          rw [pUnit_step_default f _ ?hh3]
          case hh3 =>
            have := (operandToks_head_ne e).1
            cases hop : operandToks e with
            | nil => exact absurd hop (operandToks_ne_nil e)
            | cons o0 os =>
              rw [hop] at this
              simp only [List.cons_append, List.head?_cons, ne_eq,
                Option.some.injEq] at this ⊢
              exact this
          have h1 : pOperand f (operandToks e ++ (Tok.word "IS".data ::
              Tok.word "NOT".data :: Tok.word "NULL".data :: rest)) =
              .ok (e, Tok.word "IS".data :: Tok.word "NOT".data ::
                Tok.word "NULL".data :: rest) :=
            pOperand_toks f e _ (by omega) (by simp) (by simp)
          have hkis : kwIs (Tok.word "IS".data) "is" = true := by decide
          have hknot : kwIs (Tok.word "NOT".data) "not" = true := by decide
          have hknull : kwIs (Tok.word "NULL".data) "null" = true := by decide
          simp only [h1, cmpOf, hkis, if_true, hknot, hknull]
      | bare e =>
        have hsz2 : 1 + szO e < f + 1 := by simpa only [szC] using hsz
        have hsh : condToks (Cond.bare e) ++ rest = operandToks e ++ rest := by
          simp [condToks]
        rw [hsh]
        rw [pUnit_step_default f _ ?hh4]
        case hh4 =>
          have := (operandToks_head_ne e).1
          cases hop : operandToks e with
          | nil => exact absurd hop (operandToks_ne_nil e)
          | cons o0 os =>
            rw [hop] at this
            simp only [List.cons_append, List.head?_cons, ne_eq,
              Option.some.injEq] at this ⊢
            exact this
        have h1 : pOperand f (operandToks e ++ rest) = .ok (e, rest) :=
          pOperand_toks f e rest (by omega) hnd hnl
        simp only [h1]
        cases rest with
        | nil => rfl
        | cons t ts =>
          simp only [uStop, Bool.and_eq_true, Bool.not_eq_eq_eq_not,
            Bool.not_true, Option.isNone_iff_eq_none] at hstop
          simp only [hstop.1.1, hstop.1.2, Bool.false_eq_true, if_false]
      | parenC c =>
        have hwf : condWf c = true := by simpa only [condUnitOk] using hok
        have hsz2 : 2 + szC c < f + 1 := by simpa only [szC] using hsz
        have hsh : condToks (Cond.parenC c) ++ rest =
            Tok.lparen :: (condToks c ++ (Tok.rparen :: rest)) := by
          simp [condToks]
        rw [hsh, pUnit_step_paren]
        have hc := hC c (Tok.rparen :: rest) hwf (by omega) (by rfl)
        simp only [hc]
      | andC l r => exact absurd hok (by simp [condUnitOk])
      | anonFun raw => exact absurd hok (by simp [condUnitOk])
    · -- pCondMore
      intro us acc rest hall hsz hstop
      cases us with
      | nil =>
        simp only [andSep, List.flatMap_nil, List.nil_append, List.foldl_nil]
        exact pCondMore_stop f acc rest hstop
      | cons u us2 =>
        have hsum : 1 + szC u +
            (List.map (fun u => 1 + szC u) us2).sum < f + 1 := by
          simpa only [List.map_cons, List.sum_cons] using hsz
        have hsh : andSep (u :: us2) ++ rest =
            Tok.word "AND".data :: (condToks u ++ (andSep us2 ++ rest)) := by
          simp [andSep]
        rw [hsh]
        rw [pCondMore_step_and f acc _ _ (by decide)]
        have hu1 : pUnit f (condToks u ++ (andSep us2 ++ rest)) =
            .ok (u, andSep us2 ++ rest) :=
          hU u _ (hall u (by simp)) (by omega) (uStop_andSep us2 rest hstop)
        simp only [hu1, List.foldl_cons]
        exact hM us2 (Cond.andC acc u) rest
          (fun v hv => hall v (by simp [hv])) (by omega) hstop
    · -- pCond
      intro c rest hwf hsz hstop
      obtain ⟨u0, us, hu0, hus, hfold, htoks, hszeq⟩ := chain_decomp c hwf
      have hpos := szC_pos u0
      rw [htoks, List.append_assoc, pCond_succ]
      have hu1 : pUnit f (condToks u0 ++ (andSep us ++ rest)) =
          .ok (u0, andSep us ++ rest) :=
        hU u0 _ hu0 (by omega) (uStop_andSep us rest hstop)
      simp only [hu1]
      have hm := hM us u0 rest hus (by omega) hstop
      rw [hm, hfold]

theorem oStop_heads (rest : List Tok) (h : oStop rest = true) :
    rest.head? ≠ some Tok.dot ∧ rest.head? ≠ some Tok.lparen := by
  cases rest with
  | nil => simp
  | cons t ts =>
    simp only [oStop, Bool.and_eq_true] at h
    have := (notDotParen_iff t).mp h.1
    simp only [List.head?_cons, ne_eq, Option.some.injEq]
    exact ⟨fun he => this.1 he, fun he => this.2 he⟩

theorem commaTail_heads (es : List Operand) (rest : List Tok)
    (h : oStop rest = true) :
    (commaTail es ++ rest).head? ≠ some Tok.dot ∧
      (commaTail es ++ rest).head? ≠ some Tok.lparen := by
  cases es with
  | nil => exact oStop_heads rest h
  | cons e es2 => simp [commaTail]

theorem pOperandListMore_toks :
    ∀ (es : List Operand) (fuel : Nat) (acc : List Operand) (rest : List Tok),
    szOs es < fuel → oStop rest = true →
    pOperandListMore fuel acc (commaTail es ++ rest) = .ok (acc ++ es, rest) := by
  intro es
  induction es with
  | nil =>
    intro fuel acc rest hsz hstop
    obtain ⟨g, rfl⟩ : ∃ g, fuel = g + 1 := ⟨fuel - 1, by omega⟩
    simp only [commaTail, List.flatMap_nil, List.nil_append, List.append_nil]
    cases rest with
    | nil => rfl
    | cons t ts =>
      simp only [oStop, Bool.and_eq_true] at hstop
      cases t <;> first
        | rfl
        | (exact absurd hstop.2 (by simp [notComma]))
  | cons e es2 ih =>
    intro fuel acc rest hsz hstop
    obtain ⟨g, rfl⟩ : ∃ g, fuel = g + 1 := ⟨fuel - 1, by
      have := szO_pos e
      simp only [szOs] at hsz
      omega⟩
    have hszg : 1 + szO e + szOs es2 < g + 1 := by simpa only [szOs] using hsz
    have hsh : commaTail (e :: es2) ++ rest =
        Tok.comma :: (operandToks e ++ (commaTail es2 ++ rest)) := by
      simp [commaTail]
    rw [hsh]
    simp only [pOperandListMore]
    have hheads := commaTail_heads es2 rest hstop
    have h1 : pOperand g (operandToks e ++ (commaTail es2 ++ rest)) =
        .ok (e, commaTail es2 ++ rest) :=
      pOperand_toks g e _ (by omega) hheads.1 hheads.2
    simp only [h1]
    have h2 := ih g (acc ++ [e]) rest (by omega) hstop
    rw [h2]
    simp

theorem commaSep_map_cons (e : Operand) (es : List Operand) :
    commaSep ((e :: es).map operandToks) = operandToks e ++ commaTail es := by
  induction es generalizing e with
  | nil => simp [commaSep, commaTail]
  | cons e2 es2 ih =>
    simp only [List.map_cons, commaSep, commaTail, List.flatMap_cons]
    rw [show (operandToks e2 :: List.map operandToks es2) =
      List.map operandToks (e2 :: es2) from rfl]
    rw [ih e2]
    simp [commaTail, List.append_assoc]

theorem pOperandList_toks (fuel : Nat) (e : Operand) (es : List Operand)
    (rest : List Tok) (hsz : szOs (e :: es) < fuel) (hstop : oStop rest = true) :
    pOperandList fuel (commaSep ((e :: es).map operandToks) ++ rest) =
      .ok (e :: es, rest) := by
  rw [commaSep_map_cons, List.append_assoc]
  have hszg : 1 + szO e + szOs es < fuel := by simpa only [szOs] using hsz
  have hheads := commaTail_heads es rest hstop
  have h1 : pOperand fuel (operandToks e ++ (commaTail es ++ rest)) =
      .ok (e, commaTail es ++ rest) :=
    pOperand_toks fuel e _ (by omega) hheads.1 hheads.2
  simp only [pOperandList, h1]
  have h2 := pOperandListMore_toks es fuel [e] rest (by omega) hstop
  rw [h2]
  simp


theorem ordStop_itemStop (rest : List Tok) (h : ordStop rest = true) :
    ordItemStop rest = true := by
  cases rest with
  | nil => rfl
  | cons t ts =>
    simp only [ordStop, Bool.and_eq_true] at h
    simp only [ordItemStop, Bool.and_eq_true]
    exact ⟨⟨h.1.1.1, h.1.1.2⟩, h.1.2⟩

theorem ordItemStop_head (rest : List Tok) (h : ordItemStop rest = true) :
    rest.head? ≠ some Tok.dot := by
  cases rest with
  | nil => simp
  | cons t ts =>
    simp only [ordItemStop, Bool.and_eq_true] at h
    have := (notDotParen_iff t).mp h.2
    simp only [List.head?_cons, ne_eq, Option.some.injEq]
    exact fun he => this.1 he

theorem pOrderCol_toks (tbl : Option SqlIdent) (col : SqlIdent)
    (rest : List Tok) (h : rest.head? ≠ some Tok.dot) :
    pOrderCol (colToks tbl col ++ rest) = .ok ((tbl, col), rest) := by
  cases tbl with
  | none =>
    have h1 : pIdent (identToks col ++ rest) = .ok (col, rest) :=
      pIdent_toks col rest
    simp only [colToks, pOrderCol, h1]
    cases rest with
    | nil => rfl
    | cons r0 rs => cases r0 <;> first | rfl | (exact absurd rfl h)
  | some t =>
    have hsh : colToks (some t) col ++ rest =
        identToks t ++ (Tok.dot :: (identToks col ++ rest)) := by
      simp [colToks]
    have h1 : pIdent (identToks t ++ (Tok.dot :: (identToks col ++ rest))) =
        .ok (t, Tok.dot :: (identToks col ++ rest)) := pIdent_toks t _
    have h2 : pIdent (identToks col ++ rest) = .ok (col, rest) :=
      pIdent_toks col rest
    rw [hsh]
    simp only [pOrderCol, h1, h2]

theorem pOrderItem_toks (o : OrderItem) (rest : List Tok)
    (h : ordItemStop rest = true) :
    pOrderItem (orderItemToks o ++ rest) = .ok (o, rest) := by
  obtain ⟨tbl, col, dir⟩ := o
  cases dir with
  | none =>
    have hsh : orderItemToks ⟨tbl, col, none⟩ ++ rest =
        colToks tbl col ++ rest := by
      simp [orderItemToks]
    rw [hsh]
    have h1 := pOrderCol_toks tbl col rest (ordItemStop_head rest h)
    simp only [pOrderItem, h1]
    cases rest with
    | nil => rfl
    | cons t ts =>
      simp only [ordItemStop, Bool.and_eq_true, Bool.not_eq_eq_eq_not,
        Bool.not_true] at h
      simp only [h.1.1, h.1.2, Bool.false_eq_true, if_false]
  | some b =>
    cases b
    · have hsh : orderItemToks ⟨tbl, col, some false⟩ ++ rest =
          colToks tbl col ++ (Tok.word "ASC".data :: rest) := by
        simp [orderItemToks]
      rw [hsh]
      have h1 := pOrderCol_toks tbl col (Tok.word "ASC".data :: rest) (by simp)
      simp only [pOrderItem, h1]
      have hasc : kwIs (Tok.word "ASC".data) "asc" = true := by decide
      simp only [hasc, if_true]
    · have hsh : orderItemToks ⟨tbl, col, some true⟩ ++ rest =
          colToks tbl col ++ (Tok.word "DESC".data :: rest) := by
        simp [orderItemToks]
      rw [hsh]
      have h1 := pOrderCol_toks tbl col (Tok.word "DESC".data :: rest) (by simp)
      simp only [pOrderItem, h1]
      have hasc : kwIs (Tok.word "DESC".data) "asc" = false := by decide
      have hdesc : kwIs (Tok.word "DESC".data) "desc" = true := by decide
      simp only [hasc, Bool.false_eq_true, if_false, hdesc, if_true]

theorem commaTailOrd_itemStop (os : List OrderItem) (rest : List Tok)
    (h : ordStop rest = true) :
    ordItemStop (commaTailOrd os ++ rest) = true := by
  cases os with
  | nil => exact ordStop_itemStop rest h
  | cons o os2 => rfl

theorem pOrderListMore_toks :
    ∀ (os : List OrderItem) (fuel : Nat) (acc : List OrderItem)
      (rest : List Tok),
    os.length < fuel → ordStop rest = true →
    pOrderListMore fuel acc (commaTailOrd os ++ rest) = .ok (acc ++ os, rest) := by
  intro os
  induction os with
  | nil =>
    intro fuel acc rest hsz hstop
    obtain ⟨g, rfl⟩ : ∃ g, fuel = g + 1 := ⟨fuel - 1, by omega⟩
    simp only [commaTailOrd, List.flatMap_nil, List.nil_append, List.append_nil]
    cases rest with
    | nil => rfl
    | cons t ts =>
      simp only [ordStop, Bool.and_eq_true] at hstop
      cases t <;> first
        | rfl
        | (exact absurd hstop.2 (by simp [notComma]))
  | cons o os2 ih =>
    intro fuel acc rest hsz hstop
    obtain ⟨g, rfl⟩ : ∃ g, fuel = g + 1 := ⟨fuel - 1, by omega⟩
    have hsh : commaTailOrd (o :: os2) ++ rest =
        Tok.comma :: (orderItemToks o ++ (commaTailOrd os2 ++ rest)) := by
      simp [commaTailOrd]
    rw [hsh]
    simp only [pOrderListMore]
    have h1 : pOrderItem (orderItemToks o ++ (commaTailOrd os2 ++ rest)) =
        .ok (o, commaTailOrd os2 ++ rest) :=
      pOrderItem_toks o _ (commaTailOrd_itemStop os2 rest hstop)
    simp only [h1]
    have h2 := ih g (acc ++ [o]) rest (by simp at hsz; omega) hstop
    rw [h2]
    simp

theorem commaSepOrd_map_cons (o : OrderItem) (os : List OrderItem) :
    commaSep ((o :: os).map orderItemToks) =
      orderItemToks o ++ commaTailOrd os := by
  induction os generalizing o with
  | nil => simp [commaSep, commaTailOrd]
  | cons o2 os2 ih =>
    simp only [List.map_cons, commaSep, commaTailOrd, List.flatMap_cons]
    rw [show (orderItemToks o2 :: List.map orderItemToks os2) =
      List.map orderItemToks (o2 :: os2) from rfl]
    rw [ih o2]
    simp [commaTailOrd, List.append_assoc]

theorem pOrderList_toks (fuel : Nat) (o : OrderItem) (os : List OrderItem)
    (rest : List Tok) (hsz : os.length < fuel) (hstop : ordStop rest = true) :
    pOrderList fuel (commaSep ((o :: os).map orderItemToks) ++ rest) =
      .ok (o :: os, rest) := by
  rw [commaSepOrd_map_cons, List.append_assoc]
  have h1 : pOrderItem (orderItemToks o ++ (commaTailOrd os ++ rest)) =
      .ok (o, commaTailOrd os ++ rest) :=
    pOrderItem_toks o _ (commaTailOrd_itemStop os rest hstop)
  simp only [pOrderList, h1]
  have h2 := pOrderListMore_toks os fuel [o] rest hsz hstop
  rw [h2]
  simp


theorem kwIs_word (t : Tok) (w : String) (h : kwIs t w = true) :
    ∃ r, t = Tok.word r ∧ lowerChars r = w.data := by
  cases t
  case word r =>
    simp only [kwIs, decide_eq_true_eq] at h
    exact ⟨r, rfl, h⟩
  all_goals simp only [kwIs, Bool.false_eq_true] at h

theorem kwIs_ne (t : Tok) (w v : String) (hw : kwIs t w = true)
    (hne : ¬ (w.data = v.data)) : kwIs t v = false := by
  obtain ⟨r, rfl, hr⟩ := kwIs_word t w hw
  simp only [kwIs, hr, decide_eq_false_iff_not]
  exact hne

theorem selStop_oStop (rest : List Tok) (h : selStop rest = true) :
    oStop rest = true := by
  cases rest with
  | nil => rfl
  | cons t ts =>
    simp only [selStop, Bool.or_eq_true] at h
    have : ∃ r, t = Tok.word r := by
      rcases h with (h | h) | h
      all_goals
        obtain ⟨r, rfl, _⟩ := kwIs_word t _ h
        exact ⟨r, rfl⟩
    obtain ⟨r, rfl⟩ := this
    rfl

theorem selStop_cStop (rest : List Tok) (h : selStop rest = true) :
    cStop rest = true := by
  cases rest with
  | nil => rfl
  | cons t ts =>
    simp only [selStop, Bool.or_eq_true] at h
    simp only [cStop, Bool.and_eq_true, Bool.not_eq_eq_eq_not, Bool.not_true]
    rcases h with (h | h) | h
    all_goals
      obtain ⟨r, heq, hr⟩ := kwIs_word t _ h
      refine ⟨⟨⟨?_, kwIs_ne t _ "is" h (by decide)⟩, ?_⟩,
        kwIs_ne t _ "and" h (by decide)⟩
      · rw [heq]; rfl
      · rw [heq]; rfl

theorem selStop_ordStop (rest : List Tok) (h : selStop rest = true) :
    ordStop rest = true := by
  cases rest with
  | nil => rfl
  | cons t ts =>
    simp only [selStop, Bool.or_eq_true] at h
    simp only [ordStop, Bool.and_eq_true, Bool.not_eq_eq_eq_not, Bool.not_true]
    rcases h with (h | h) | h
    all_goals
      obtain ⟨r, heq, hr⟩ := kwIs_word t _ h
      refine ⟨⟨⟨kwIs_ne t _ "asc" h (by decide),
        kwIs_ne t _ "desc" h (by decide)⟩, ?_⟩, ?_⟩
      · rw [heq]; rfl
      · rw [heq]; rfl

theorem selStop_not (rest : List Tok) (w : String) (h : selStop rest = true)
    (h1 : ¬ ("union".data = w.data)) (h2 : ¬ ("order".data = w.data))
    (h3 : ¬ ("limit".data = w.data)) : headKwIs w rest = false := by
  cases rest with
  | nil => rfl
  | cons t ts =>
    simp only [selStop, Bool.or_eq_true] at h
    simp only [headKwIs]
    rcases h with (h | h) | h
    · exact kwIs_ne t _ w h h1
    · exact kwIs_ne t _ w h h2
    · exact kwIs_ne t _ w h h3

theorem pFromOpt_some (i : SqlIdent) (rest : List Tok) :
    pFromOpt (Tok.word "FROM".data :: (identToks i ++ rest)) =
      .ok (some i, rest) := by
  have hk : kwIs (Tok.word "FROM".data) "from" = true := by decide
  simp only [pFromOpt, hk, if_true, pIdent_toks i rest]

theorem pFromOpt_none (rest : List Tok) (h : headKwIs "from" rest = false) :
    pFromOpt rest = .ok (none, rest) := by
  cases rest with
  | nil => rfl
  | cons f rs =>
    simp only [headKwIs] at h
    simp only [pFromOpt, h, Bool.false_eq_true, if_false]

theorem pWhereOpt_some (fuel : Nat) (c : Cond) (rest : List Tok)
    (hwf : condWf c = true) (hsz : szC c + 1 < fuel)
    (hstop : cStop rest = true) :
    pWhereOpt fuel (Tok.word "WHERE".data :: (condToks c ++ rest)) =
      .ok (some c, rest) := by
  have hk : kwIs (Tok.word "WHERE".data) "where" = true := by decide
  have hc := (parseCond_toks fuel).2.2 c rest hwf hsz hstop
  simp only [pWhereOpt, hk, if_true, hc]

theorem pWhereOpt_none (fuel : Nat) (rest : List Tok)
    (h : headKwIs "where" rest = false) :
    pWhereOpt fuel rest = .ok (none, rest) := by
  cases rest with
  | nil => rfl
  | cons w rs =>
    simp only [headKwIs] at h
    simp only [pWhereOpt, h, Bool.false_eq_true, if_false]

theorem pGroupOpt_some (fuel : Nat) (g : Operand) (gs : List Operand)
    (rest : List Tok) (hsz : szOs (g :: gs) < fuel)
    (hstop : oStop rest = true) :
    pGroupOpt fuel (Tok.word "GROUP".data :: Tok.word "BY".data ::
        (commaSep ((g :: gs).map operandToks) ++ rest)) =
      .ok (g :: gs, rest) := by
  have hk : (kwIs (Tok.word "GROUP".data) "group" &&
      kwIs (Tok.word "BY".data) "by") = true := by decide
  simp only [pGroupOpt, hk, if_true]
  exact pOperandList_toks fuel g gs rest hsz hstop

theorem pGroupOpt_none (fuel : Nat) (rest : List Tok)
    (h : headKwIs "group" rest = false) :
    pGroupOpt fuel rest = .ok ([], rest) := by
  cases rest with
  | nil => rfl
  | cons g rs =>
    cases rs with
    | nil => rfl
    | cons b rs2 =>
      simp only [headKwIs] at h
      simp only [pGroupOpt, h, Bool.false_and, Bool.false_eq_true, if_false]

theorem pOrderOpt_some (fuel : Nat) (o : OrderItem) (os : List OrderItem)
    (rest : List Tok) (hsz : os.length < fuel) (hstop : ordStop rest = true) :
    pOrderOpt fuel (Tok.word "ORDER".data :: Tok.word "BY".data ::
        (commaSep ((o :: os).map orderItemToks) ++ rest)) =
      .ok (o :: os, rest) := by
  have hk : (kwIs (Tok.word "ORDER".data) "order" &&
      kwIs (Tok.word "BY".data) "by") = true := by decide
  simp only [pOrderOpt, hk, if_true]
  exact pOrderList_toks fuel o os rest hsz hstop

theorem pOrderOpt_none (fuel : Nat) (rest : List Tok)
    (h : headKwIs "order" rest = false) :
    pOrderOpt fuel rest = .ok ([], rest) := by
  cases rest with
  | nil => rfl
  | cons g rs =>
    cases rs with
    | nil => rfl
    | cons b rs2 =>
      simp only [headKwIs] at h
      simp only [pOrderOpt, h, Bool.false_and, Bool.false_eq_true, if_false]

theorem pLimitSpec_single (a : Nat) (rest : List Tok)
    (h : rest.head? ≠ some Tok.comma) :
    pLimitSpec (Tok.num a :: rest) = .ok (⟨none, a⟩, rest) := by
  cases rest with
  | nil => rfl
  | cons r0 rs => cases r0 <;> first | rfl | (exact absurd rfl h)

theorem pLimitOpt_some (l : LimitSpec) (rest : List Tok)
    (h : rest.head? ≠ some Tok.comma) :
    pLimitOpt (limitToks (some l) ++ rest) = .ok (some l, rest) := by
  obtain ⟨off, cnt⟩ := l
  have hk : kwIs (Tok.word "LIMIT".data) "limit" = true := by decide
  cases off with
  | none =>
    simp only [limitToks, List.cons_append, List.nil_append]
    simp only [pLimitOpt, hk, if_true, pLimitSpec_single cnt rest h]
  | some o =>
    simp only [limitToks, List.cons_append, List.nil_append]
    simp only [pLimitOpt, hk, if_true, pLimitSpec]

theorem pLimitOpt_none (rest : List Tok) (h : headKwIs "limit" rest = false) :
    pLimitOpt rest = .ok (none, rest) := by
  cases rest with
  | nil => rfl
  | cons t rs =>
    simp only [headKwIs] at h
    simp only [pLimitOpt, h, Bool.false_eq_true, if_false]

theorem pSelCore_toks (fuel : Nat) (s : SelCore) (rest : List Tok)
    (hwf : selCoreWf s = true) (hsz : szCore s ≤ fuel)
    (hstop : selStop rest = true) :
    pSelCore fuel (selCoreToks s ++ rest) = .ok (s, rest) := by
  obtain ⟨projs, tbl, whereC, group⟩ := s
  simp only [selCoreWf, Bool.and_eq_true] at hwf
  cases projs with
  | nil => simp at hwf
  | cons p ps =>
  cases tbl with
  | none =>
    cases whereC with
    | none =>
      cases group with
      | nil =>
        have hsz2 : 2 + szOs (p :: ps) + 0 + szOs ([] : List Operand) ≤ fuel := by
          simpa only [szCore, szOs] using hsz
        have hsh : selCoreToks ⟨p :: ps, none, none, []⟩ ++ rest =
            Tok.word "SELECT".data :: (commaSep ((p :: ps).map operandToks) ++
              (rest)) := by
          simp [selCoreToks, List.append_assoc]
        have h4 : pGroupOpt fuel (rest) = .ok ([], rest) :=
          pGroupOpt_none fuel rest (selStop_not rest "group" hstop (by decide)
            (by decide) (by decide))
        have hkw : headKwIs "where" (rest) = false :=
          selStop_not rest "where" hstop (by decide) (by decide) (by decide)
        have h3 : pWhereOpt fuel (rest) = .ok (none, rest) :=
          pWhereOpt_none fuel _ hkw
        have hkf : headKwIs "from" (rest) = false :=
          selStop_not rest "from" hstop (by decide) (by decide) (by decide)
        have h2 : pFromOpt (rest) = .ok (none, rest) :=
          pFromOpt_none _ hkf
        have hof : oStop (rest) = true := selStop_oStop rest hstop
        have h1 : pOperandList fuel (commaSep ((p :: ps).map operandToks) ++
            (rest)) = .ok (p :: ps, rest) :=
          pOperandList_toks fuel p ps _ (by simp only [szOs] at hsz2 ⊢; omega) hof
        rw [hsh]
        have hks : kwIs (Tok.word "SELECT".data) "select" = true := by decide
        simp only [pSelCore, hks, if_true, h1, h2, h3, h4]
      | cons gg gs =>
        have hsz2 : 2 + szOs (p :: ps) + 0 + szOs (gg :: gs) ≤ fuel := by
          simpa only [szCore, szOs] using hsz
        have hsh : selCoreToks ⟨p :: ps, none, none, gg :: gs⟩ ++ rest =
            Tok.word "SELECT".data :: (commaSep ((p :: ps).map operandToks) ++
              (Tok.word "GROUP".data :: Tok.word "BY".data :: (commaSep ((gg :: gs).map operandToks) ++ rest))) := by
          simp [selCoreToks, List.append_assoc]
        have h4 : pGroupOpt fuel (Tok.word "GROUP".data :: Tok.word "BY".data :: (commaSep ((gg :: gs).map operandToks) ++ rest)) = .ok (gg :: gs, rest) :=
          pGroupOpt_some fuel gg gs rest (by simp only [szOs] at hsz2 ⊢; omega)
            (selStop_oStop rest hstop)
        have hkw : headKwIs "where" (Tok.word "GROUP".data :: Tok.word "BY".data :: (commaSep ((gg :: gs).map operandToks) ++ rest)) = false := by rfl
        have h3 : pWhereOpt fuel (Tok.word "GROUP".data :: Tok.word "BY".data :: (commaSep ((gg :: gs).map operandToks) ++ rest)) = .ok (none, Tok.word "GROUP".data :: Tok.word "BY".data :: (commaSep ((gg :: gs).map operandToks) ++ rest)) :=
          pWhereOpt_none fuel _ hkw
        have hkf : headKwIs "from" (Tok.word "GROUP".data :: Tok.word "BY".data :: (commaSep ((gg :: gs).map operandToks) ++ rest)) = false := by rfl
        have h2 : pFromOpt (Tok.word "GROUP".data :: Tok.word "BY".data :: (commaSep ((gg :: gs).map operandToks) ++ rest)) = .ok (none, Tok.word "GROUP".data :: Tok.word "BY".data :: (commaSep ((gg :: gs).map operandToks) ++ rest)) :=
          pFromOpt_none _ hkf
        have hof : oStop (Tok.word "GROUP".data :: Tok.word "BY".data :: (commaSep ((gg :: gs).map operandToks) ++ rest)) = true := by rfl
        have h1 : pOperandList fuel (commaSep ((p :: ps).map operandToks) ++
            (Tok.word "GROUP".data :: Tok.word "BY".data :: (commaSep ((gg :: gs).map operandToks) ++ rest))) = .ok (p :: ps, Tok.word "GROUP".data :: Tok.word "BY".data :: (commaSep ((gg :: gs).map operandToks) ++ rest)) :=
          pOperandList_toks fuel p ps _ (by simp only [szOs] at hsz2 ⊢; omega) hof
        rw [hsh]
        have hks : kwIs (Tok.word "SELECT".data) "select" = true := by decide
        simp only [pSelCore, hks, if_true, h1, h2, h3, h4]
    | some c =>
      have hwfc : condWf c = true := by simpa using hwf.2
      cases group with
      | nil =>
        have hsz2 : 2 + szOs (p :: ps) + (1 + szC c) + szOs ([] : List Operand) ≤ fuel := by
          simpa only [szCore, szOs] using hsz
        have hsh : selCoreToks ⟨p :: ps, none, some c, []⟩ ++ rest =
            Tok.word "SELECT".data :: (commaSep ((p :: ps).map operandToks) ++
              (Tok.word "WHERE".data :: (condToks c ++ (rest)))) := by
          simp [selCoreToks, List.append_assoc]
        have h4 : pGroupOpt fuel (rest) = .ok ([], rest) :=
          pGroupOpt_none fuel rest (selStop_not rest "group" hstop (by decide)
            (by decide) (by decide))
        have hcs : cStop (rest) = true := selStop_cStop rest hstop
        have h3 : pWhereOpt fuel (Tok.word "WHERE".data :: (condToks c ++ (rest))) = .ok (some c, rest) :=
          pWhereOpt_some fuel c _ hwfc (by omega) hcs
        have hkf : headKwIs "from" (Tok.word "WHERE".data :: (condToks c ++ (rest))) = false := by rfl
        have h2 : pFromOpt (Tok.word "WHERE".data :: (condToks c ++ (rest))) = .ok (none, Tok.word "WHERE".data :: (condToks c ++ (rest))) :=
          pFromOpt_none _ hkf
        have hof : oStop (Tok.word "WHERE".data :: (condToks c ++ (rest))) = true := by rfl
        have h1 : pOperandList fuel (commaSep ((p :: ps).map operandToks) ++
            (Tok.word "WHERE".data :: (condToks c ++ (rest)))) = .ok (p :: ps, Tok.word "WHERE".data :: (condToks c ++ (rest))) :=
          pOperandList_toks fuel p ps _ (by simp only [szOs] at hsz2 ⊢; omega) hof
        rw [hsh]
        have hks : kwIs (Tok.word "SELECT".data) "select" = true := by decide
        simp only [pSelCore, hks, if_true, h1, h2, h3, h4]
      | cons gg gs =>
        have hsz2 : 2 + szOs (p :: ps) + (1 + szC c) + szOs (gg :: gs) ≤ fuel := by
          simpa only [szCore, szOs] using hsz
        have hsh : selCoreToks ⟨p :: ps, none, some c, gg :: gs⟩ ++ rest =
            Tok.word "SELECT".data :: (commaSep ((p :: ps).map operandToks) ++
              (Tok.word "WHERE".data :: (condToks c ++ (Tok.word "GROUP".data :: Tok.word "BY".data :: (commaSep ((gg :: gs).map operandToks) ++ rest))))) := by
          simp [selCoreToks, List.append_assoc]
        have h4 : pGroupOpt fuel (Tok.word "GROUP".data :: Tok.word "BY".data :: (commaSep ((gg :: gs).map operandToks) ++ rest)) = .ok (gg :: gs, rest) :=
          pGroupOpt_some fuel gg gs rest (by simp only [szOs] at hsz2 ⊢; omega)
            (selStop_oStop rest hstop)
        have hcs : cStop (Tok.word "GROUP".data :: Tok.word "BY".data :: (commaSep ((gg :: gs).map operandToks) ++ rest)) = true := by rfl
        have h3 : pWhereOpt fuel (Tok.word "WHERE".data :: (condToks c ++ (Tok.word "GROUP".data :: Tok.word "BY".data :: (commaSep ((gg :: gs).map operandToks) ++ rest)))) = .ok (some c, Tok.word "GROUP".data :: Tok.word "BY".data :: (commaSep ((gg :: gs).map operandToks) ++ rest)) :=
          pWhereOpt_some fuel c _ hwfc (by omega) hcs
        have hkf : headKwIs "from" (Tok.word "WHERE".data :: (condToks c ++ (Tok.word "GROUP".data :: Tok.word "BY".data :: (commaSep ((gg :: gs).map operandToks) ++ rest)))) = false := by rfl
        have h2 : pFromOpt (Tok.word "WHERE".data :: (condToks c ++ (Tok.word "GROUP".data :: Tok.word "BY".data :: (commaSep ((gg :: gs).map operandToks) ++ rest)))) = .ok (none, Tok.word "WHERE".data :: (condToks c ++ (Tok.word "GROUP".data :: Tok.word "BY".data :: (commaSep ((gg :: gs).map operandToks) ++ rest)))) :=
          pFromOpt_none _ hkf
        have hof : oStop (Tok.word "WHERE".data :: (condToks c ++ (Tok.word "GROUP".data :: Tok.word "BY".data :: (commaSep ((gg :: gs).map operandToks) ++ rest)))) = true := by rfl
        have h1 : pOperandList fuel (commaSep ((p :: ps).map operandToks) ++
            (Tok.word "WHERE".data :: (condToks c ++ (Tok.word "GROUP".data :: Tok.word "BY".data :: (commaSep ((gg :: gs).map operandToks) ++ rest))))) = .ok (p :: ps, Tok.word "WHERE".data :: (condToks c ++ (Tok.word "GROUP".data :: Tok.word "BY".data :: (commaSep ((gg :: gs).map operandToks) ++ rest)))) :=
          pOperandList_toks fuel p ps _ (by simp only [szOs] at hsz2 ⊢; omega) hof
        rw [hsh]
        have hks : kwIs (Tok.word "SELECT".data) "select" = true := by decide
        simp only [pSelCore, hks, if_true, h1, h2, h3, h4]
  | some i =>
    cases whereC with
    | none =>
      cases group with
      | nil =>
        have hsz2 : 2 + szOs (p :: ps) + 0 + szOs ([] : List Operand) ≤ fuel := by
          simpa only [szCore, szOs] using hsz
        have hsh : selCoreToks ⟨p :: ps, some i, none, []⟩ ++ rest =
            Tok.word "SELECT".data :: (commaSep ((p :: ps).map operandToks) ++
              (Tok.word "FROM".data :: (identToks i ++ (rest)))) := by
          simp [selCoreToks, List.append_assoc]
        have h4 : pGroupOpt fuel (rest) = .ok ([], rest) :=
          pGroupOpt_none fuel rest (selStop_not rest "group" hstop (by decide)
            (by decide) (by decide))
        have hkw : headKwIs "where" (rest) = false :=
          selStop_not rest "where" hstop (by decide) (by decide) (by decide)
        have h3 : pWhereOpt fuel (rest) = .ok (none, rest) :=
          pWhereOpt_none fuel _ hkw
        have h2 : pFromOpt (Tok.word "FROM".data :: (identToks i ++ (rest))) = .ok (some i, rest) :=
          pFromOpt_some i _
        have hof : oStop (Tok.word "FROM".data :: (identToks i ++ (rest))) = true := by rfl
        have h1 : pOperandList fuel (commaSep ((p :: ps).map operandToks) ++
            (Tok.word "FROM".data :: (identToks i ++ (rest)))) = .ok (p :: ps, Tok.word "FROM".data :: (identToks i ++ (rest))) :=
          pOperandList_toks fuel p ps _ (by simp only [szOs] at hsz2 ⊢; omega) hof
        rw [hsh]
        have hks : kwIs (Tok.word "SELECT".data) "select" = true := by decide
        simp only [pSelCore, hks, if_true, h1, h2, h3, h4]
      | cons gg gs =>
        have hsz2 : 2 + szOs (p :: ps) + 0 + szOs (gg :: gs) ≤ fuel := by
          simpa only [szCore, szOs] using hsz
        have hsh : selCoreToks ⟨p :: ps, some i, none, gg :: gs⟩ ++ rest =
            Tok.word "SELECT".data :: (commaSep ((p :: ps).map operandToks) ++
              (Tok.word "FROM".data :: (identToks i ++ (Tok.word "GROUP".data :: Tok.word "BY".data :: (commaSep ((gg :: gs).map operandToks) ++ rest))))) := by
          simp [selCoreToks, List.append_assoc]
        have h4 : pGroupOpt fuel (Tok.word "GROUP".data :: Tok.word "BY".data :: (commaSep ((gg :: gs).map operandToks) ++ rest)) = .ok (gg :: gs, rest) :=
          pGroupOpt_some fuel gg gs rest (by simp only [szOs] at hsz2 ⊢; omega)
            (selStop_oStop rest hstop)
        have hkw : headKwIs "where" (Tok.word "GROUP".data :: Tok.word "BY".data :: (commaSep ((gg :: gs).map operandToks) ++ rest)) = false := by rfl
        have h3 : pWhereOpt fuel (Tok.word "GROUP".data :: Tok.word "BY".data :: (commaSep ((gg :: gs).map operandToks) ++ rest)) = .ok (none, Tok.word "GROUP".data :: Tok.word "BY".data :: (commaSep ((gg :: gs).map operandToks) ++ rest)) :=
          pWhereOpt_none fuel _ hkw
        have h2 : pFromOpt (Tok.word "FROM".data :: (identToks i ++ (Tok.word "GROUP".data :: Tok.word "BY".data :: (commaSep ((gg :: gs).map operandToks) ++ rest)))) = .ok (some i, Tok.word "GROUP".data :: Tok.word "BY".data :: (commaSep ((gg :: gs).map operandToks) ++ rest)) :=
          pFromOpt_some i _
        have hof : oStop (Tok.word "FROM".data :: (identToks i ++ (Tok.word "GROUP".data :: Tok.word "BY".data :: (commaSep ((gg :: gs).map operandToks) ++ rest)))) = true := by rfl
        have h1 : pOperandList fuel (commaSep ((p :: ps).map operandToks) ++
            (Tok.word "FROM".data :: (identToks i ++ (Tok.word "GROUP".data :: Tok.word "BY".data :: (commaSep ((gg :: gs).map operandToks) ++ rest))))) = .ok (p :: ps, Tok.word "FROM".data :: (identToks i ++ (Tok.word "GROUP".data :: Tok.word "BY".data :: (commaSep ((gg :: gs).map operandToks) ++ rest)))) :=
          pOperandList_toks fuel p ps _ (by simp only [szOs] at hsz2 ⊢; omega) hof
        rw [hsh]
        have hks : kwIs (Tok.word "SELECT".data) "select" = true := by decide
        simp only [pSelCore, hks, if_true, h1, h2, h3, h4]
    | some c =>
      have hwfc : condWf c = true := by simpa using hwf.2
      cases group with
      | nil =>
        have hsz2 : 2 + szOs (p :: ps) + (1 + szC c) + szOs ([] : List Operand) ≤ fuel := by
          simpa only [szCore, szOs] using hsz
        have hsh : selCoreToks ⟨p :: ps, some i, some c, []⟩ ++ rest =
            Tok.word "SELECT".data :: (commaSep ((p :: ps).map operandToks) ++
              (Tok.word "FROM".data :: (identToks i ++ (Tok.word "WHERE".data :: (condToks c ++ (rest)))))) := by
          simp [selCoreToks, List.append_assoc]
        have h4 : pGroupOpt fuel (rest) = .ok ([], rest) :=
          pGroupOpt_none fuel rest (selStop_not rest "group" hstop (by decide)
            (by decide) (by decide))
        have hcs : cStop (rest) = true := selStop_cStop rest hstop
        have h3 : pWhereOpt fuel (Tok.word "WHERE".data :: (condToks c ++ (rest))) = .ok (some c, rest) :=
          pWhereOpt_some fuel c _ hwfc (by omega) hcs
        have h2 : pFromOpt (Tok.word "FROM".data :: (identToks i ++ (Tok.word "WHERE".data :: (condToks c ++ (rest))))) = .ok (some i, Tok.word "WHERE".data :: (condToks c ++ (rest))) :=
          pFromOpt_some i _
        have hof : oStop (Tok.word "FROM".data :: (identToks i ++ (Tok.word "WHERE".data :: (condToks c ++ (rest))))) = true := by rfl
        have h1 : pOperandList fuel (commaSep ((p :: ps).map operandToks) ++
            (Tok.word "FROM".data :: (identToks i ++ (Tok.word "WHERE".data :: (condToks c ++ (rest)))))) = .ok (p :: ps, Tok.word "FROM".data :: (identToks i ++ (Tok.word "WHERE".data :: (condToks c ++ (rest))))) :=
          pOperandList_toks fuel p ps _ (by simp only [szOs] at hsz2 ⊢; omega) hof
        rw [hsh]
        have hks : kwIs (Tok.word "SELECT".data) "select" = true := by decide
        simp only [pSelCore, hks, if_true, h1, h2, h3, h4]
      | cons gg gs =>
        have hsz2 : 2 + szOs (p :: ps) + (1 + szC c) + szOs (gg :: gs) ≤ fuel := by
          simpa only [szCore, szOs] using hsz
        have hsh : selCoreToks ⟨p :: ps, some i, some c, gg :: gs⟩ ++ rest =
            Tok.word "SELECT".data :: (commaSep ((p :: ps).map operandToks) ++
              (Tok.word "FROM".data :: (identToks i ++ (Tok.word "WHERE".data :: (condToks c ++ (Tok.word "GROUP".data :: Tok.word "BY".data :: (commaSep ((gg :: gs).map operandToks) ++ rest))))))) := by
          simp [selCoreToks, List.append_assoc]
        have h4 : pGroupOpt fuel (Tok.word "GROUP".data :: Tok.word "BY".data :: (commaSep ((gg :: gs).map operandToks) ++ rest)) = .ok (gg :: gs, rest) :=
          pGroupOpt_some fuel gg gs rest (by simp only [szOs] at hsz2 ⊢; omega)
            (selStop_oStop rest hstop)
        have hcs : cStop (Tok.word "GROUP".data :: Tok.word "BY".data :: (commaSep ((gg :: gs).map operandToks) ++ rest)) = true := by rfl
        have h3 : pWhereOpt fuel (Tok.word "WHERE".data :: (condToks c ++ (Tok.word "GROUP".data :: Tok.word "BY".data :: (commaSep ((gg :: gs).map operandToks) ++ rest)))) = .ok (some c, Tok.word "GROUP".data :: Tok.word "BY".data :: (commaSep ((gg :: gs).map operandToks) ++ rest)) :=
          pWhereOpt_some fuel c _ hwfc (by omega) hcs
        have h2 : pFromOpt (Tok.word "FROM".data :: (identToks i ++ (Tok.word "WHERE".data :: (condToks c ++ (Tok.word "GROUP".data :: Tok.word "BY".data :: (commaSep ((gg :: gs).map operandToks) ++ rest)))))) = .ok (some i, Tok.word "WHERE".data :: (condToks c ++ (Tok.word "GROUP".data :: Tok.word "BY".data :: (commaSep ((gg :: gs).map operandToks) ++ rest)))) :=
          pFromOpt_some i _
        have hof : oStop (Tok.word "FROM".data :: (identToks i ++ (Tok.word "WHERE".data :: (condToks c ++ (Tok.word "GROUP".data :: Tok.word "BY".data :: (commaSep ((gg :: gs).map operandToks) ++ rest)))))) = true := by rfl
        have h1 : pOperandList fuel (commaSep ((p :: ps).map operandToks) ++
            (Tok.word "FROM".data :: (identToks i ++ (Tok.word "WHERE".data :: (condToks c ++ (Tok.word "GROUP".data :: Tok.word "BY".data :: (commaSep ((gg :: gs).map operandToks) ++ rest))))))) = .ok (p :: ps, Tok.word "FROM".data :: (identToks i ++ (Tok.word "WHERE".data :: (condToks c ++ (Tok.word "GROUP".data :: Tok.word "BY".data :: (commaSep ((gg :: gs).map operandToks) ++ rest)))))) :=
          pOperandList_toks fuel p ps _ (by simp only [szOs] at hsz2 ⊢; omega) hof
        rw [hsh]
        have hks : kwIs (Tok.word "SELECT".data) "select" = true := by decide
        simp only [pSelCore, hks, if_true, h1, h2, h3, h4]


theorem pMods_toks (fuel : Nat) (ord : List OrderItem) (lim : Option LimitSpec)
    (hsz : ord.length < fuel) :
    pMods fuel (orderToks ord ++ limitToks lim) = .ok ((ord, lim), []) := by
  have hlim : pLimitOpt (limitToks lim) = .ok (lim, []) := by
    cases lim with
    | none => rfl
    | some l =>
      have := pLimitOpt_some l [] (by simp)
      rwa [List.append_nil] at this
  cases ord with
  | nil =>
    simp only [orderToks, List.isEmpty_nil, if_true, List.nil_append]
    cases lim with
    | none => rfl
    | some l =>
      obtain ⟨off, cnt⟩ := l
      have hko : kwIs (Tok.word "LIMIT".data) "order" = false := by decide
      cases off with
      | none =>
        simp only [limitToks, List.cons_append, List.nil_append] at hlim ⊢
        simp only [pMods, pOrderOpt, hko, Bool.false_and, Bool.false_eq_true,
          if_false, hlim]
      | some o =>
        simp only [limitToks, List.cons_append, List.nil_append] at hlim ⊢
        simp only [pMods, pOrderOpt, hko, Bool.false_and, Bool.false_eq_true,
          if_false, hlim]
  | cons o os =>
    have hords : ordStop (limitToks lim) = true := by
      cases lim with
      | none => rfl
      | some l => rfl
    have hsh : orderToks (o :: os) ++ limitToks lim =
        Tok.word "ORDER".data :: Tok.word "BY".data ::
          (commaSep ((o :: os).map orderItemToks) ++ limitToks lim) := by
      simp [orderToks]
    rw [hsh]
    have h1 := pOrderOpt_some fuel o os (limitToks lim)
      (by simp only [List.length_cons] at hsz; omega) hords
    simp only [pMods, h1, hlim]

theorem pUnionAllOpt_all (rest : List Tok) :
    pUnionAllOpt (Tok.word "ALL".data :: rest) = (true, rest) := by
  have hk : kwIs (Tok.word "ALL".data) "all" = true := by decide
  simp [pUnionAllOpt, hk]

theorem pUnionAllOpt_not (rest : List Tok) (h : headKwIs "all" rest = false) :
    pUnionAllOpt rest = (false, rest) := by
  cases rest with
  | nil => rfl
  | cons t ts =>
    simp only [headKwIs] at h
    simp [pUnionAllOpt, h]

theorem selStop_mods (ord : List OrderItem) (lim : Option LimitSpec) :
    selStop (orderToks ord ++ limitToks lim) = true := by
  cases ord with
  | nil =>
    cases lim with
    | none => rfl
    | some l => rfl
  | cons o os => rfl

theorem pQueryToks_toks (fuel : Nat) (q : Query) (hwf : queryWf q = true)
    (hsz : szQ q ≤ fuel) :
    pQueryToks fuel (queryToks q) = .ok (q, []) := by
  cases q with
  | one s ord lim =>
    have hwfs : selCoreWf s = true := by simpa [queryWf] using hwf
    have hszq : 4 + szCore s + ord.length ≤ fuel := by
      simpa only [szQ] using hsz
    have h1 : pSelCore fuel (selCoreToks s ++ (orderToks ord ++ limitToks lim))
        = .ok (s, orderToks ord ++ limitToks lim) :=
      pSelCore_toks fuel s _ hwfs (by omega) (selStop_mods ord lim)
    have hsh : queryToks (Query.one s ord lim) =
        selCoreToks s ++ (orderToks ord ++ limitToks lim) := by
      simp [queryToks]
    rw [hsh]
    have hm := pMods_toks fuel ord lim (by omega)
    cases hord : ord with
    | nil =>
      cases hlim : lim with
      | none =>
        subst hord hlim
        simp only [orderToks, List.isEmpty_nil, if_true, limitToks,
          List.nil_append, List.append_nil] at h1 ⊢
        simp only [pQueryToks, h1]
      | some l =>
        obtain ⟨off, cnt⟩ := l
        subst hord hlim
        simp only [orderToks, List.isEmpty_nil, if_true, List.nil_append]
          at h1 hm ⊢
        have hku : kwIs (Tok.word "LIMIT".data) "union" = false := by decide
        cases off with
        | none =>
          simp only [limitToks, List.cons_append, List.nil_append]
            at h1 hm ⊢
          simp only [pQueryToks, h1, hku, Bool.false_eq_true, if_false, hm]
        | some o =>
          simp only [limitToks, List.cons_append, List.nil_append]
            at h1 hm ⊢
          simp only [pQueryToks, h1, hku, Bool.false_eq_true, if_false, hm]
    | cons o os =>
      subst hord
      have hku : kwIs (Tok.word "ORDER".data) "union" = false := by decide
      have hsho : orderToks (o :: os) ++ limitToks lim =
          Tok.word "ORDER".data :: (Tok.word "BY".data ::
            (commaSep ((o :: os).map orderItemToks) ++ limitToks lim)) := by
        simp [orderToks]
      rw [hsho] at h1 hm ⊢
      simp only [pQueryToks, h1, hku, Bool.false_eq_true, if_false, hm]
  | two s1 uall s2 ord lim =>
    have hwfs : selCoreWf s1 = true ∧ selCoreWf s2 = true := by
      simpa [queryWf, Bool.and_eq_true] using hwf
    have hszq : 6 + szCore s1 + szCore s2 + ord.length ≤ fuel := by
      simpa only [szQ] using hsz
    have h2 : pSelCore fuel
        (selCoreToks s2 ++ (orderToks ord ++ limitToks lim))
        = .ok (s2, orderToks ord ++ limitToks lim) :=
      pSelCore_toks fuel s2 _ hwfs.2 (by omega) (selStop_mods ord lim)
    have hm := pMods_toks fuel ord lim (by omega)
    have hku : kwIs (Tok.word "UNION".data) "union" = true := by decide
    cases uall
    · have hsh : queryToks (Query.two s1 false s2 ord lim) =
          selCoreToks s1 ++ (Tok.word "UNION".data ::
            (selCoreToks s2 ++ (orderToks ord ++ limitToks lim))) := by
        simp [queryToks]
      rw [hsh]
      have h1 : pSelCore fuel (selCoreToks s1 ++ (Tok.word "UNION".data ::
          (selCoreToks s2 ++ (orderToks ord ++ limitToks lim))))
          = .ok (s1, Tok.word "UNION".data ::
            (selCoreToks s2 ++ (orderToks ord ++ limitToks lim))) :=
        pSelCore_toks fuel s1 _ hwfs.1 (by omega) (by rfl)
      have hua : pUnionAllOpt (selCoreToks s2 ++
          (orderToks ord ++ limitToks lim)) =
          (false, selCoreToks s2 ++ (orderToks ord ++ limitToks lim)) :=
        pUnionAllOpt_not _ (by rfl)
      simp only [pQueryToks, h1, hku, if_true, hua, h2, hm]
    · have hsh : queryToks (Query.two s1 true s2 ord lim) =
          selCoreToks s1 ++ (Tok.word "UNION".data ::
            (Tok.word "ALL".data ::
              (selCoreToks s2 ++ (orderToks ord ++ limitToks lim)))) := by
        simp [queryToks]
      rw [hsh]
      have h1 : pSelCore fuel (selCoreToks s1 ++ (Tok.word "UNION".data ::
          (Tok.word "ALL".data ::
            (selCoreToks s2 ++ (orderToks ord ++ limitToks lim)))))
          = .ok (s1, Tok.word "UNION".data :: (Tok.word "ALL".data ::
            (selCoreToks s2 ++ (orderToks ord ++ limitToks lim)))) :=
        pSelCore_toks fuel s1 _ hwfs.1 (by omega) (by rfl)
      have hua := pUnionAllOpt_all
        (selCoreToks s2 ++ (orderToks ord ++ limitToks lim))
      simp only [pQueryToks, h1, hku, if_true, hua, h2, hm]


theorem identToks_tokOk (i : SqlIdent) : (identToks i).all tokOk = true := by
  have hw : wordRawOk i.raw = true := by
    have h := i.ok
    simp only [identOk, Bool.and_eq_true] at h
    exact h.1
  cases hq : i.quoted <;> simp [identToks, hq, tokOk, hw]

theorem colToks_tokOk (t : Option SqlIdent) (c : SqlIdent) :
    (colToks t c).all tokOk = true := by
  cases t with
  | none => simp [colToks, identToks_tokOk]
  | some t => simp [colToks, identToks_tokOk, tokOk]

theorem operandToks_tokOk : ∀ (e : Operand), (operandToks e).all tokOk = true
  | Operand.col t c => by simpa [operandToks] using colToks_tokOk t c
  | Operand.num n => rfl
  | Operand.agg f none => by cases f <;> rfl
  | Operand.agg f (some e2) => by
    have ih := operandToks_tokOk e2
    cases f <;> simp [operandToks, tokOk, ih] <;> decide

theorem condToks_tokOk (c : Cond) :
    (condUnitOk c = true → (condToks c).all tokOk = true) ∧
    (condWf c = true → (condToks c).all tokOk = true) := by
  induction c with
  | cmp op l r =>
    have h : (condToks (Cond.cmp op l r)).all tokOk = true := by
      have hc : tokOk (cmpTok op) = true := by cases op <;> rfl
      simp [condToks, operandToks_tokOk, hc]
    exact ⟨fun _ => h, fun _ => h⟩
  | isNullTest e neg =>
    have h : (condToks (Cond.isNullTest e neg)).all tokOk = true := by
      have he := operandToks_tokOk e
      have h1 : tokOk (Tok.word "IS".data) = true := by decide
      have h2 : tokOk (Tok.word "NOT".data) = true := by decide
      have h3 : tokOk (Tok.word "NULL".data) = true := by decide
      cases neg <;> simp [condToks, he, h1, h2, h3]
    exact ⟨fun _ => h, fun _ => h⟩
  | bare e =>
    have h : (condToks (Cond.bare e)).all tokOk = true := by
      simp [condToks, operandToks_tokOk]
    exact ⟨fun _ => h, fun _ => h⟩
  | andC l r ihl ihr =>
    constructor
    · intro h
      exact absurd h (by simp [condUnitOk])
    · intro h
      simp only [condWf, Bool.and_eq_true] at h
      have ha : tokOk (Tok.word "AND".data) = true := by decide
      simp [condToks, ihl.2 h.1, ihr.1 h.2, ha]
  | parenC c2 ih =>
    have h : condWf c2 = true →
        (condToks (Cond.parenC c2)).all tokOk = true := by
      intro h
      simp [condToks, ih.2 h, tokOk]
    constructor
    · intro hu
      exact h (by simpa only [condUnitOk] using hu)
    · intro hw
      exact h (by simpa only [condWf, condUnitOk] using hw)
  | anonFun raw =>
    constructor
    · intro h
      exact absurd h (by simp [condUnitOk])
    · intro h
      exact absurd h (by simp [condWf, condUnitOk])

theorem commaSep_all_tokOk (L : List (List Tok))
    (h : ∀ x ∈ L, x.all tokOk = true) :
    (commaSep L).all tokOk = true := by
  induction L with
  | nil => rfl
  | cons x rest ih =>
    cases rest with
    | nil => simpa [commaSep] using h x (by simp)
    | cons y ys =>
      simp only [commaSep, List.all_append, Bool.and_eq_true]
      refine ⟨⟨h x (by simp), by decide⟩, ih ?_⟩
      intro z hz
      exact h z (by simp [hz])

theorem orderItemToks_tokOk (o : OrderItem) :
    (orderItemToks o).all tokOk = true := by
  obtain ⟨tbl, col, dir⟩ := o
  have hc := colToks_tokOk tbl col
  have h1 : tokOk (Tok.word "ASC".data) = true := by decide
  have h2 : tokOk (Tok.word "DESC".data) = true := by decide
  cases dir with
  | none => simpa [orderItemToks] using hc
  | some b => cases b <;> simp [orderItemToks, hc, h1, h2]

theorem orderToks_tokOk (os : List OrderItem) :
    (orderToks os).all tokOk = true := by
  cases os with
  | nil => rfl
  | cons o os2 =>
    have hcs : (commaSep ((o :: os2).map orderItemToks)).all tokOk = true :=
      commaSep_all_tokOk _ (by
        intro x hx
        simp only [List.mem_map] at hx
        obtain ⟨o2, _, rfl⟩ := hx
        exact orderItemToks_tokOk o2)
    have hsh : orderToks (o :: os2) =
        [Tok.word "ORDER".data, Tok.word "BY".data] ++
          commaSep ((o :: os2).map orderItemToks) := by
      simp [orderToks]
    rw [hsh]
    simp only [List.cons_append, List.nil_append, List.all_cons,
      List.all_append, Bool.and_eq_true]
    exact ⟨by decide, by decide, hcs⟩

theorem limitToks_tokOk (lim : Option LimitSpec) :
    (limitToks lim).all tokOk = true := by
  cases lim with
  | none => rfl
  | some l =>
    obtain ⟨off, cnt⟩ := l
    cases off <;> simp [limitToks, tokOk] <;> decide


theorem selCoreToks_tokOk (s : SelCore) (hwf : selCoreWf s = true) :
    (selCoreToks s).all tokOk = true := by
  obtain ⟨projs, tbl, whereC, group⟩ := s
  have hps : (commaSep (projs.map operandToks)).all tokOk = true :=
    commaSep_all_tokOk _ (by
      intro x hx
      simp only [List.mem_map] at hx
      obtain ⟨e, _, rfl⟩ := hx
      exact operandToks_tokOk e)
  have hgs : (commaSep (group.map operandToks)).all tokOk = true :=
    commaSep_all_tokOk _ (by
      intro x hx
      simp only [List.mem_map] at hx
      obtain ⟨e, _, rfl⟩ := hx
      exact operandToks_tokOk e)
  have hsel : tokOk (Tok.word "SELECT".data) = true := by decide
  have hfrom : tokOk (Tok.word "FROM".data) = true := by decide
  have hwh : tokOk (Tok.word "WHERE".data) = true := by decide
  have hgr : tokOk (Tok.word "GROUP".data) = true := by decide
  have hby : tokOk (Tok.word "BY".data) = true := by decide
  simp only [List.map_cons] at hgs hps
  cases whereC with
  | none =>
    cases tbl with
    | none =>
      cases group with
      | nil => simp [selCoreToks, tokOk, hps, hsel] <;> decide
      | cons g gs =>
        simp only [List.map_cons] at hgs
        simp [selCoreToks, tokOk, hps, hgs] <;> decide
    | some t =>
      cases group with
      | nil =>
        simp [selCoreToks, tokOk, hps, identToks_tokOk t] <;> decide
      | cons g gs =>
        simp only [List.map_cons] at hgs
        simp [selCoreToks, tokOk, hps, identToks_tokOk t, hgs] <;> decide
  | some c =>
    have hcw : condWf c = true := by
      simp only [selCoreWf, Bool.and_eq_true] at hwf
      exact hwf.2
    have hct := (condToks_tokOk c).2 hcw
    cases tbl with
    | none =>
      cases group with
      | nil => simp [selCoreToks, tokOk, hps, hct] <;> decide
      | cons g gs =>
        simp only [List.map_cons] at hgs
        simp [selCoreToks, tokOk, hps, hct, hgs] <;> decide
    | some t =>
      cases group with
      | nil =>
        simp [selCoreToks, tokOk, hps, identToks_tokOk t, hct] <;> decide
      | cons g gs =>
        simp only [List.map_cons] at hgs
        simp [selCoreToks, tokOk, hps, identToks_tokOk t, hct, hgs] <;> decide

theorem queryToks_tokOk (q : Query) (hwf : queryWf q = true) :
    (queryToks q).all tokOk = true := by
  cases q with
  | one s ord lim =>
    have hs : selCoreWf s = true := by simpa [queryWf] using hwf
    simp [queryToks, selCoreToks_tokOk s hs, orderToks_tokOk,
      limitToks_tokOk] <;> decide
  | two s1 uall s2 ord lim =>
    have hs : selCoreWf s1 = true ∧ selCoreWf s2 = true := by
      simpa [queryWf, Bool.and_eq_true] using hwf
    have hu : tokOk (Tok.word "UNION".data) = true := by decide
    have ha : tokOk (Tok.word "ALL".data) = true := by decide
    cases uall <;>
      simp [queryToks, tokOk, selCoreToks_tokOk s1 hs.1,
        selCoreToks_tokOk s2 hs.2, orderToks_tokOk, limitToks_tokOk] <;>
      decide


theorem operandToks_len_pos (e : Operand) : 1 ≤ (operandToks e).length := by
  have := operandToks_ne_nil e
  cases h : operandToks e with
  | nil => exact absurd h this
  | cons a l => simp

theorem szO_le2 : ∀ (e : Operand), szO e ≤ 2 * (operandToks e).length
  | Operand.col t c => by
    have := operandToks_len_pos (Operand.col t c)
    simp only [szO]
    omega
  | Operand.num n => by simp [szO, operandToks]
  | Operand.agg f none => by simp [szO, operandToks]
  | Operand.agg f (some e2) => by
    have ih := szO_le2 e2
    simp only [szO, operandToks, List.length_append, List.cons_append,
      List.nil_append, List.length_cons]
    omega

theorem szC_le8 (c : Cond) : szC c ≤ 8 * (condToks c).length := by
  induction c with
  | cmp op l r =>
    have h1 := szO_le2 l
    have h2 := szO_le2 r
    simp only [szC, condToks, List.length_append, List.length_cons,
      List.length_nil]
    omega
  | isNullTest e neg =>
    have h1 := szO_le2 e
    cases neg <;>
      simp only [szC, condToks, if_true, if_false, Bool.false_eq_true,
        List.length_append, List.length_cons, List.length_nil] <;>
      omega
  | bare e =>
    have h1 := szO_le2 e
    have h2 := operandToks_len_pos e
    simp only [szC, condToks]
    omega
  | andC l r ihl ihr =>
    simp only [szC, condToks, List.length_append, List.length_cons,
      List.length_nil]
    omega
  | parenC c2 ih =>
    simp only [szC, condToks, List.length_append, List.length_cons,
      List.length_nil]
    omega
  | anonFun raw => simp [szC, condToks]

theorem szOs_le_commaTail (es : List Operand) :
    szOs es ≤ 8 * (commaTail es).length := by
  induction es with
  | nil => simp [szOs, commaTail]
  | cons e es2 ih =>
    have h1 := szO_le2 e
    simp only [szOs, commaTail, List.flatMap_cons, List.length_append,
      List.length_cons] at ih ⊢
    omega

theorem szOs_le_commaSep (es : List Operand) :
    szOs es ≤ 8 * (commaSep (es.map operandToks)).length := by
  cases es with
  | nil => simp [szOs, commaSep]
  | cons e es2 =>
    have h1 := szO_le2 e
    have h2 := szOs_le_commaTail es2
    have h3 := operandToks_len_pos e
    rw [commaSep_map_cons]
    simp only [szOs, List.length_append]
    omega

theorem identToks_len (i : SqlIdent) : (identToks i).length = 1 := by
  cases hq : i.quoted <;> simp [identToks, hq]

theorem orderItemToks_len_pos (o : OrderItem) :
    1 ≤ (orderItemToks o).length := by
  obtain ⟨tbl, col, dir⟩ := o
  have h1 := identToks_len col
  cases tbl with
  | none =>
    simp only [orderItemToks, colToks, List.length_append, h1]
    omega
  | some t =>
    have h2 := identToks_len t
    simp only [orderItemToks, colToks, List.length_append, h1, h2]
    omega

theorem len_le_commaTailOrd (os : List OrderItem) :
    os.length ≤ (commaTailOrd os).length := by
  induction os with
  | nil => simp [commaTailOrd]
  | cons o os2 ih =>
    simp only [commaTailOrd, List.flatMap_cons, List.length_cons,
      List.length_append] at ih ⊢
    omega

theorem len_le_orderToks (os : List OrderItem) :
    os.length ≤ (orderToks os).length := by
  cases os with
  | nil => simp [orderToks]
  | cons o os2 =>
    have h1 := orderItemToks_len_pos o
    have h2 := len_le_commaTailOrd os2
    have hsh : orderToks (o :: os2) =
        [Tok.word "ORDER".data, Tok.word "BY".data] ++
          commaSep ((o :: os2).map orderItemToks) := by
      simp [orderToks]
    rw [hsh, commaSepOrd_map_cons]
    simp only [List.length_append, List.length_cons, List.length_nil]
    omega

theorem szCore_le (s : SelCore) : szCore s ≤ 8 * (selCoreToks s).length := by
  obtain ⟨projs, tbl, whereC, group⟩ := s
  have hp := szOs_le_commaSep projs
  have hg := szOs_le_commaSep group
  cases whereC with
  | none =>
    cases hgr : group with
    | nil =>
      cases tbl with
      | none =>
        simp only [szCore, szOs, selCoreToks, List.isEmpty_nil, if_true,
          List.append_nil, List.length_append, List.length_cons] at hp ⊢
        omega
      | some t =>
        simp only [szCore, szOs, selCoreToks, List.isEmpty_nil, if_true,
          List.append_nil, List.length_append, List.length_cons] at hp ⊢
        omega
    | cons g gs =>
      subst hgr
      cases tbl with
      | none =>
        simp only [szCore, selCoreToks, List.isEmpty_cons, Bool.false_eq_true,
          if_false, List.append_nil, List.length_append, List.length_cons,
          List.nil_append] at hp hg ⊢
        omega
      | some t =>
        simp only [szCore, selCoreToks, List.isEmpty_cons, Bool.false_eq_true,
          if_false, List.append_nil, List.length_append, List.length_cons,
          List.nil_append] at hp hg ⊢
        omega
  | some c =>
    have hc := szC_le8 c
    cases hgr : group with
    | nil =>
      cases tbl with
      | none =>
        simp only [szCore, szOs, selCoreToks, List.isEmpty_nil, if_true,
          List.append_nil, List.length_append, List.length_cons] at hp ⊢
        omega
      | some t =>
        simp only [szCore, szOs, selCoreToks, List.isEmpty_nil, if_true,
          List.append_nil, List.length_append, List.length_cons] at hp ⊢
        omega
    | cons g gs =>
      subst hgr
      cases tbl with
      | none =>
        simp only [szCore, selCoreToks, List.isEmpty_cons, Bool.false_eq_true,
          if_false, List.append_nil, List.length_append, List.length_cons,
          List.nil_append] at hp hg ⊢
        omega
      | some t =>
        simp only [szCore, selCoreToks, List.isEmpty_cons, Bool.false_eq_true,
          if_false, List.append_nil, List.length_append, List.length_cons,
          List.nil_append] at hp hg ⊢
        omega

theorem szQ_le (q : Query) : szQ q ≤ (queryToks q).length * 8 + 16 := by
  cases q with
  | one s ord lim =>
    have h1 := szCore_le s
    have h2 := len_le_orderToks ord
    simp only [szQ, queryToks, List.length_append]
    omega
  | two s1 uall s2 ord lim =>
    have h1 := szCore_le s1
    have h2 := szCore_le s2
    have h3 := len_le_orderToks ord
    simp only [szQ, queryToks, List.length_append]
    omega

theorem parseSql_render (q : Query) (hwf : queryWf q = true) :
    parseSql (renderQuery q) = .ok q := by
  have htok : tokenize (joinToks (queryToks q)) = .ok (queryToks q) :=
    tokenize_joinToks _ (queryToks_tokOk q hwf)
  simp only [parseSql, renderQuery, htok]
  have hp := pQueryToks_toks ((queryToks q).length * 8 + 16) q hwf (szQ_le q)
  simp only [hp, List.isEmpty_nil, if_true]

theorem insertDesc_perm (x : String × Int) (l : List (String × Int)) :
    (insertDesc x l).Perm (x :: l) := by
  induction l with
  | nil => exact List.Perm.refl _
  | cons y ys ih =>
    by_cases h : y.2 ≤ x.2
    · simp only [insertDesc, h, if_true]
      exact List.Perm.refl _
    · simp only [insertDesc, h, if_false]
      exact (ih.cons y).trans (List.Perm.swap x y ys)

theorem insertDesc_mem (z x : String × Int) (l : List (String × Int)) :
    z ∈ insertDesc x l ↔ z = x ∨ z ∈ l := by
  rw [(insertDesc_perm x l).mem_iff]
  simp

theorem insertDesc_pairwise (x : String × Int) (l : List (String × Int))
    (h : l.Pairwise (fun a b => b.2 ≤ a.2)) :
    (insertDesc x l).Pairwise (fun a b => b.2 ≤ a.2) := by
  induction l with
  | nil => simp [insertDesc]
  | cons y ys ih =>
    rw [List.pairwise_cons] at h
    by_cases hc : y.2 ≤ x.2
    · simp only [insertDesc, hc, if_true]
      rw [List.pairwise_cons]
      refine ⟨?_, List.pairwise_cons.mpr h⟩
      intro z hz
      rcases List.mem_cons.mp hz with rfl | hz2
      · exact hc
      · exact le_trans (h.1 z hz2) hc
    · simp only [insertDesc, hc, if_false]
      rw [List.pairwise_cons]
      refine ⟨?_, ih h.2⟩
      intro z hz
      rcases (insertDesc_mem z x ys).mp hz with rfl | hz2
      · omega
      · exact h.1 z hz2

theorem sortByScoreDesc_perm (l : List (String × Int)) :
    (sortByScoreDesc l).Perm l := by
  induction l with
  | nil => exact List.Perm.refl _
  | cons x xs ih =>
    exact (insertDesc_perm x (sortByScoreDesc xs)).trans (ih.cons x)

theorem sortByScoreDesc_pairwise (l : List (String × Int)) :
    (sortByScoreDesc l).Pairwise (fun a b => b.2 ≤ a.2) := by
  induction l with
  | nil => simp [sortByScoreDesc]
  | cons x xs ih => exact insertDesc_pairwise x _ ih

/-- C10 (amended): `auto_select_tables` stably sorts the scored tables in
descending score order and truncates to `max 1 K` where — contrary to the
claim's cumulative bumps — the `≥ 2` high-score branch *overwrites* the
exact-match branch: `K = min(topk+2, n)` whenever at least two tables
score ≥ 5, else `min(topk+4, n)` when the top score is ≥ 10, else
`topk`. -/
theorem c10_dynamic_topk_amended (scored0 : List (String × Int)) (topk : Nat) :
    (sortByScoreDesc scored0).Perm scored0 ∧
    (sortByScoreDesc scored0).Pairwise (fun a b => b.2 ≤ a.2) ∧
    auto_select_tables scored0 topk =
      (sortByScoreDesc scored0).take (max 1
        (if 2 ≤ ((sortByScoreDesc scored0).filter
            fun p => decide (5 ≤ p.2)).length
          then min (topk + 2) scored0.length
          else if 10 ≤ (match sortByScoreDesc scored0 with
              | [] => (0 : Int)
              | p :: _ => p.2)
            then min (topk + 4) scored0.length
            else topk)) := by
  have hlen : (sortByScoreDesc scored0).length = scored0.length :=
    (sortByScoreDesc_perm scored0).length_eq
  refine ⟨sortByScoreDesc_perm scored0, sortByScoreDesc_pairwise scored0, ?_⟩
  rw [show scored0.length = (sortByScoreDesc scored0).length from hlen.symm]
  rfl

/-- C10 counterexample: twelve tables with scores
`12, 6, 5, 1, …, 1` and the default base `topk = 8` fire both bumps; the
claim's cumulative `8 + 4 + 2 = 14`, truncated to the table count, gives
12 returned tables, but `auto_select_tables` returns only
`min(8 + 2, 12) = 10` because the second bump overwrites the first. -/
theorem c10_dynamic_topk_counterexample :
    (auto_select_tables c10ex 8).length = 10 ∧
    min (dynamicTopkSpec (sortByScoreDesc c10ex) 8)
      (sortByScoreDesc c10ex).length = 12 ∧
    ¬ (auto_select_tables c10ex 8).length =
      min (dynamicTopkSpec (sortByScoreDesc c10ex) 8)
        (sortByScoreDesc c10ex).length := by decide

theorem requalOperand_cols (g : Option SqlIdent → Option SqlIdent) :
    ∀ e, operandCols (requalOperand g e) = operandCols e
  | Operand.col t c => rfl
  | Operand.num n => rfl
  | Operand.agg f none => rfl
  | Operand.agg f (some e) => by
    simp only [requalOperand, operandCols]
    exact requalOperand_cols g e

theorem requalCond_cols (g : Option SqlIdent → Option SqlIdent) (c : Cond) :
    condCols (requalCond g c) = condCols c := by
  induction c <;>
    simp [requalCond, condCols, requalOperand_cols, *]

theorem requalCore_cols (g : Option SqlIdent → Option SqlIdent) (s : SelCore) :
    coreCols (requalCore g s) = coreCols s := by
  obtain ⟨projs, tbl, whereC, group⟩ := s
  have hfun : (operandCols ∘ requalOperand g) = operandCols :=
    funext (requalOperand_cols g)
  cases whereC <;>
    simp [requalCore, coreCols, List.map_map, hfun, requalCond_cols]

/-- C7: the column whitelist checks consult only bare column names.  The
AST validator's check is exactly bare-name membership in the union of all
allowed tables' column sets; the collected column (and table) name sets
are invariant under arbitrary rewriting of every column reference's table
qualifier; and the Guard end-to-end accepts `SELECT t1.c FROM t1` against
a schema in which only table `t2` allows column `c`. -/
theorem c7_bare_column_checks :
    (∀ (q : Query) (allowed : List (List Char × List (List Char))),
      validate_allowed_columns_ast q allowed = true ↔
        ∀ c ∈ collect_column_names q,
          (allowed.flatMap Prod.snd).contains c = true) ∧
    (∀ (g : Option SqlIdent → Option SqlIdent) (q : Query),
      collect_column_names (requalQuery g q) = collect_column_names q ∧
      collect_table_names (requalQuery g q) = collect_table_names q) ∧
    (validate_and_rewrite "SELECT t1.c FROM t1".data
        [⟨"t1", ["a"]⟩, ⟨"t2", ["c"]⟩] 200 false none false []).toOption =
      some "SELECT t1.c FROM t1 LIMIT 200".data := by
  refine ⟨?_, ?_, by decide⟩
  · intro q allowed
    simp [validate_allowed_columns_ast, List.all_eq_true]
  · intro g q
    cases q with
    | one s ord lim =>
      constructor
      · simp [requalQuery, collect_column_names, requalCore_cols,
          orderColsOf, List.map_map, Function.comp]
      · simp [requalQuery, collect_table_names, collectTablesCore, requalCore]
    | two l u r ord lim =>
      constructor
      · simp [requalQuery, collect_column_names, requalCore_cols,
          orderColsOf, List.map_map, Function.comp]
      · simp [requalQuery, collect_table_names, collectTablesCore, requalCore]

/-- C8: planner failure handling.  Whenever the LLM response contains no
JSON object span, or its extracted span fails JSON parsing, or the parsed
JSON violates the plan schema, `llm_plan` returns the default plan:
`task = list`, `subject = app`, and every must/should/may constraint list
empty. -/
theorem c8_planner_failure_default (raw rawRetry : List Char)
    (allowed : List (List Char))
    (h : extractJsonClip raw = none ∨
      (∃ clip, extractJsonClip raw = some clip ∧ parseJson clip = none) ∨
      (∃ clip j e, extractJsonClip raw = some clip ∧ parseJson clip = some j ∧
        decodePlan j = .error e)) :
    llm_plan raw rawRetry allowed = defaultPlan ∧
    defaultPlan.task = "list".data ∧ defaultPlan.subject = "app".data ∧
    defaultPlan.must_tables = [] ∧ defaultPlan.must_joins = [] ∧
    defaultPlan.must_predicates = [] ∧ defaultPlan.should_predicates = [] ∧
    defaultPlan.should_projection = [] ∧ defaultPlan.should_tables = [] ∧
    defaultPlan.may_projection = [] ∧ defaultPlan.may_predicates = [] := by
  refine ⟨?_, rfl, rfl, rfl, rfl, rfl, rfl, rfl, rfl, rfl, rfl⟩
  rcases h with h | ⟨clip, h1, h2⟩ | ⟨clip, j, e, h1, h2, h3⟩
  · simp [llm_plan, h]
  · simp [llm_plan, h1, h2]
  · simp [llm_plan, h1, h2, h3]

/-- Witness for `c8_planner_failure_default`: a response with JSON whose
`task` violates the `Literal` schema. -/
theorem c8_planner_failure_default_witness :
    (extractJsonClip "pre \x7b\"task\": \"everything\"\x7d post".data = none ∨
      (∃ clip, extractJsonClip "pre \x7b\"task\": \"everything\"\x7d post".data =
          some clip ∧ parseJson clip = none) ∨
      (∃ clip j e,
        extractJsonClip "pre \x7b\"task\": \"everything\"\x7d post".data =
          some clip ∧ parseJson clip = some j ∧ decodePlan j = .error e)) ∧
    llm_plan "pre \x7b\"task\": \"everything\"\x7d post".data [] [] =
      defaultPlan :=
  ⟨by
    refine Or.inr (Or.inr ⟨"\x7b\"task\": \"everything\"\x7d".data,
      Json.jobj [("task".data, Json.jstr "everything".data)],
      "invalid task", by decide, rfl, rfl⟩),
   (c8_planner_failure_default _ _ []
     (by
       refine Or.inr (Or.inr ⟨"\x7b\"task\": \"everything\"\x7d".data,
         Json.jobj [("task".data, Json.jstr "everything".data)],
         "invalid task", by decide, rfl, rfl⟩))).1⟩

/-- C4 counterexample: on `SELECT a FROM t WHERE a = 1` under
`c4contract`, every MUST predicate is present in the WHERE conditions,
yet the candidate fails MUST validation (its required table `t2` is
missing), so `simple_candidate_filter` *does* attempt a repair — the
repair is a no-op and the candidate is discarded.  This refutes the
claim that a repair is attempted if and only if the MUST-*predicate*
check fails. -/
theorem c4_repair_trigger_counterexample :
    repairAttempted "SELECT a FROM t WHERE a = 1".data defaultPlan
      c4contract = true ∧
    ((parseSql "SELECT a FROM t WHERE a = 1".data).toOption.map fun q =>
      c4contract.must_predicates.all fun p =>
        check_predicate_presence (extract_where_conditions q) p) =
      some true ∧
    minimal_repair "SELECT a FROM t WHERE a = 1".data defaultPlan
      c4contract = "SELECT a FROM t WHERE a = 1".data ∧
    simple_candidate_filter ["SELECT a FROM t WHERE a = 1".data] defaultPlan
      c4contract = [] := by
  refine ⟨by decide, by decide, by decide, by decide⟩

/-- C4 (amended): a repair is attempted exactly when the candidate is
non-empty, basically valid, and fails the *overall* MUST validation
(tables, joins, predicates, allowed tables, allowed columns — not only
the predicate check); the repair leaves the SQL unchanged whenever every
atom of every MUST predicate is already present; the AST injection
changes only the WHERE clause, never the table set; and a candidate is
kept unrepaired iff validation passes, else kept with `repaired = true`
iff the repaired SQL re-validates, else discarded. -/
theorem c4_repair_semantics_amended :
    (∀ sql plan contract, repairAttempted sql plan contract = true ↔
      (sql.isEmpty = false ∧ check_basic_sql_validity sql = true ∧
        validate_must_constraints sql plan contract = false)) ∧
    (∀ sql plan contract q, parseSql sql = .ok q →
      (∀ mp ∈ contract.must_predicates,
        ∀ atom ∈ decompose_predicate_to_atoms mp,
        check_predicate_presence (extract_where_conditions q) atom = true) →
      minimal_repair sql plan contract = sql) ∧
    (∀ s preds ord lim,
      collect_table_names (Query.one (injectIntoCore s preds) ord lim) =
        collect_table_names (Query.one s ord lim)) ∧
    (∀ sql plan contract,
      simple_candidate_filter [sql] plan contract =
        if sql.isEmpty then []
        else if !check_basic_sql_validity sql then []
        else if validate_must_constraints sql plan contract then
          [(0, Candidate.mk sql false)]
        else if validate_must_constraints (minimal_repair sql plan contract)
            plan contract then
          [(0, Candidate.mk (minimal_repair sql plan contract) true)]
        else []) := by
  refine ⟨?_, ?_, ?_, ?_⟩
  · intro sql plan contract
    simp [repairAttempted, Bool.and_eq_true, and_assoc]
  · intro sql plan contract q hq hall
    cases hmp : contract.must_predicates with
    | nil => simp [minimal_repair, hmp]
    | cons mp0 mps =>
      have hne : contract.must_predicates.isEmpty = false := by
        simp [hmp]
      simp only [minimal_repair, hne, Bool.false_eq_true, if_false, hq]
      have hmiss : (contract.must_predicates.flatMap fun mp =>
          (decompose_predicate_to_atoms mp).filter fun atom =>
            !check_predicate_presence (extract_where_conditions q) atom) =
          [] := by
        rw [List.flatMap_eq_nil_iff]
        intro mp hmp2
        rw [List.filter_eq_nil_iff]
        intro atom hatom
        simp [hall mp hmp2 atom hatom]
      simp [hmiss]
  · intro s preds ord lim
    simp only [injectIntoCore]
    split <;> rfl
  · intro sql plan contract
    simp only [simple_candidate_filter, filterGo]

theorem flattenSegs_append (xs ys : List Seg) :
    flattenSegs (xs ++ ys) = flattenSegs xs ++ flattenSegs ys := by
  induction xs with
  | nil => rfl
  | cons x rest ih =>
    cases x with
    | run r => simp [flattenSegs, ih]
    | other c => simp [flattenSegs, ih]

theorem flattenSegs_tokSegs (t : Tok) : flattenSegs (tokSegs t) = tokChars t := by
  cases t <;> simp [tokSegs, tokChars, flattenSegs]

/-- Flattening the segmentation of a token list gives the printed text. -/
theorem flattenSegs_segsOfToks : ∀ ts : List Tok,
    flattenSegs (segsOfToks ts) = joinToks ts
  | [] => rfl
  | [t] => by simp [segsOfToks, joinToks, flattenSegs_tokSegs]
  | a :: b :: rest => by
    have ih := flattenSegs_segsOfToks (b :: rest)
    simp only [segsOfToks, joinToks, flattenSegs_append, flattenSegs_tokSegs, ih]
    split <;> simp [flattenSegs]

theorem chunkGo_word_prefix : ∀ (ws pend s : List Char),
    ws.all isWordChar = true →
    chunkGo pend (ws ++ s) = chunkGo (ws.reverse ++ pend) s
  | [], pend, s, _ => by simp
  | c :: cs, pend, s, h => by
    have hc : isWordChar c = true := by
      simp only [List.all_cons, Bool.and_eq_true] at h; exact h.1
    have hcs : cs.all isWordChar = true := by
      simp only [List.all_cons, Bool.and_eq_true] at h; exact h.2
    simp only [List.cons_append, chunkGo, hc, if_true]
    rw [show (c :: cs).reverse ++ pend = cs.reverse ++ (c :: pend) by simp]
    exact chunkGo_word_prefix cs (c :: pend) s hcs

theorem chunkGo_append : ∀ (s1 pend s2 : List Char),
    s2.head?.all (fun c => !isWordChar c) = true →
    chunkGo pend (s1 ++ s2) = chunkGo pend s1 ++ chunkGo [] s2
  | [], pend, s2, h => by
    cases pend with
    | nil =>
      cases s2 with
      | nil => rfl
      | cons c r =>
        have hc : isWordChar c = false := by
          simp only [List.head?, Option.all] at h
          cases hw : isWordChar c
          · rfl
          · rw [hw] at h; exact absurd h (by decide)
        simp [chunkGo, hc]
    | cons p ps =>
      cases s2 with
      | nil => simp [chunkGo]
      | cons c r =>
        have hc : isWordChar c = false := by
          simp only [List.head?, Option.all] at h
          cases hw : isWordChar c
          · rfl
          · rw [hw] at h; exact absurd h (by decide)
        simp [chunkGo, hc]
  | c :: cs, pend, s2, h => by
    cases hw : isWordChar c with
    | true =>
      simp only [List.cons_append, chunkGo, hw, if_true]
      exact chunkGo_append cs (c :: pend) s2 h
    | false =>
      simp only [List.cons_append, chunkGo, hw, if_false, Bool.false_eq_true]
      simp only [List.append_eq]
      rw [chunkGo_append cs [] s2 h]
      simp

theorem wordRawOk_all {r : List Char} (h : wordRawOk r = true) :
    r.all isWordChar = true := by
  cases r with
  | nil => exact absurd h (by simp [wordRawOk])
  | cons c cs =>
    simp only [wordRawOk, Bool.and_eq_true] at h
    simp [List.all_cons, h.1.1, h.2]

theorem wordRawOk_ne_nil {r : List Char} (h : wordRawOk r = true) : r ≠ [] := by
  intro he; rw [he] at h; exact absurd h (by simp [wordRawOk])

theorem chunkRuns_word_run {r : List Char} (s : List Char)
    (hall : r.all isWordChar = true) (hne : r ≠ [])
    (hs : s.head?.all (fun c => !isWordChar c) = true) :
    chunkGo [] (r ++ s) = Seg.run r :: chunkGo [] s := by
  rw [chunkGo_append r [] s hs]
  have h1 := chunkGo_word_prefix r [] [] hall
  simp only [List.append_nil] at h1
  rw [h1]
  have h2 : ¬(r.reverse = []) := by simpa using hne
  simp [chunkGo, h2]

/-- Segmenting a single printed token. -/
theorem chunkRuns_tokChars (t : Tok) (h : tokOk t = true) :
    chunkRuns (tokChars t) = tokSegs t := by
  cases t with
  | word r =>
    have hall := wordRawOk_all (by simpa [tokOk] using h)
    have hne := wordRawOk_ne_nil (r := r) (by simpa [tokOk] using h)
    have := chunkRuns_word_run (r := r) [] hall hne (by simp)
    simpa [chunkRuns, tokChars, tokSegs, chunkGo] using this
  | num n =>
    have hall : (natDigits n).all isWordChar = true := by
      have hd := natDigits_all_digit n
      simp only [List.all_eq_true] at hd ⊢
      exact fun c hc => digit_isWord (hd c hc)
    have hne := natDigits_ne_nil n
    have := chunkRuns_word_run (r := natDigits n) [] hall hne (by simp)
    simpa [chunkRuns, tokChars, tokSegs, chunkGo] using this
  | quot r =>
    have hok : wordRawOk r = true := by simpa [tokOk] using h
    have hall := wordRawOk_all hok
    have hne := wordRawOk_ne_nil hok
    have hrun := chunkRuns_word_run (r := r) [tickChar] hall hne (by decide)
    have htick : isWordChar tickChar = false := by decide
    show chunkGo [] (tickChar :: (r ++ [tickChar])) = _
    simp only [chunkGo, htick, Bool.false_eq_true, if_false, ite_true,
      List.nil_append, hrun]
    simp [chunkGo, htick, tokSegs]
  | rawtext s => exact absurd h (by simp [tokOk])
  | comma => decide
  | dot => decide
  | lparen => decide
  | rparen => decide
  | star => decide
  | opEq => decide
  | opNe => decide
  | opLt => decide
  | opGt => decide
  | opLe => decide
  | opGe => decide

theorem tokSegs_ne_nil (t : Tok) : tokSegs t ≠ [] := by
  cases t <;> simp [tokSegs]

theorem segsOfToks_head (b : Tok) (rest : List Tok) :
    (segsOfToks (b :: rest)).head? = (tokSegs b).head? := by
  cases rest with
  | nil => simp [segsOfToks]
  | cons c cs =>
    simp only [segsOfToks]
    rw [List.append_assoc, List.head?_append]
    cases hx : (tokSegs b).head? with
    | some v => simp [hx]
    | none => exact absurd (List.head?_eq_none_iff.mp hx) (tokSegs_ne_nil b)

theorem needSpace_false_cases (a b : Tok) (h : needSpace a b = false) :
    b = Tok.comma ∨ b = Tok.rparen ∨ b = Tok.dot ∨ b = Tok.lparen ∨
      a = Tok.lparen ∨ a = Tok.dot := by
  cases b <;> simp only [needSpace] at h <;> try tauto
  all_goals cases a <;> simp_all

/-- The printed text of a token list, segmented back into runs. -/
theorem chunkRuns_joinToks : ∀ ts : List Tok, ts.all tokOk = true →
    chunkRuns (joinToks ts) = segsOfToks ts
  | [], _ => rfl
  | [t], h => by
    have ht : tokOk t = true := by simpa using h
    simpa [joinToks, segsOfToks] using chunkRuns_tokChars t ht
  | a :: b :: rest, h => by
    have ha : tokOk a = true := by
      simp only [List.all_cons, Bool.and_eq_true] at h; exact h.1
    have hb : tokOk b = true := by
      simp only [List.all_cons, Bool.and_eq_true] at h; exact h.2.1
    have htl : (b :: rest).all tokOk = true := by
      simp only [List.all_cons, Bool.and_eq_true] at h ⊢; exact h.2
    have ih := chunkRuns_joinToks (b :: rest) htl
    cases hns : needSpace a b with
    | true =>
      have hj : joinToks (a :: b :: rest) =
          tokChars a ++ (' ' :: joinToks (b :: rest)) := by
        simp [joinToks, hns]
      have hhd : (' ' :: joinToks (b :: rest)).head?.all
          (fun c => !isWordChar c) = true := by
        simp [Option.all, show isWordChar ' ' = false from by decide]
      rw [chunkRuns, hj,
        chunkGo_append (tokChars a) [] (' ' :: joinToks (b :: rest)) hhd]
      have hsp : isWordChar ' ' = false := by decide
      simp only [chunkGo, hsp, if_false, Bool.false_eq_true, ite_true,
        List.nil_append]
      rw [show chunkGo [] (joinToks (b :: rest)) = chunkRuns (joinToks (b :: rest))
          from rfl, ih]
      rw [show chunkGo [] (tokChars a) = chunkRuns (tokChars a) from rfl,
        chunkRuns_tokChars a ha]
      simp [segsOfToks, hns]
    | false =>
      have hj : joinToks (a :: b :: rest) =
          tokChars a ++ joinToks (b :: rest) := by
        simp [joinToks, hns]
      rcases needSpace_false_cases a b hns with hbc | hbc | hbc | hbc | hac | hac
      case _ =>
        subst hbc
        have hhd : (joinToks (Tok.comma :: rest)).head?.all
            (fun c => !isWordChar c) = true := by
          rw [joinToks_head_cases Tok.comma rest hb]; decide
        rw [chunkRuns, hj,
          chunkGo_append (tokChars a) [] (joinToks (Tok.comma :: rest)) hhd]
        rw [show chunkGo [] (joinToks (Tok.comma :: rest)) =
            chunkRuns (joinToks (Tok.comma :: rest)) from rfl, ih]
        rw [show chunkGo [] (tokChars a) = chunkRuns (tokChars a) from rfl,
          chunkRuns_tokChars a ha]
        simp [segsOfToks, hns]
      case _ =>
        subst hbc
        have hhd : (joinToks (Tok.rparen :: rest)).head?.all
            (fun c => !isWordChar c) = true := by
          rw [joinToks_head_cases Tok.rparen rest hb]; decide
        rw [chunkRuns, hj,
          chunkGo_append (tokChars a) [] (joinToks (Tok.rparen :: rest)) hhd]
        rw [show chunkGo [] (joinToks (Tok.rparen :: rest)) =
            chunkRuns (joinToks (Tok.rparen :: rest)) from rfl, ih]
        rw [show chunkGo [] (tokChars a) = chunkRuns (tokChars a) from rfl,
          chunkRuns_tokChars a ha]
        simp [segsOfToks, hns]
      case _ =>
        subst hbc
        have hhd : (joinToks (Tok.dot :: rest)).head?.all
            (fun c => !isWordChar c) = true := by
          rw [joinToks_head_cases Tok.dot rest hb]; decide
        rw [chunkRuns, hj,
          chunkGo_append (tokChars a) [] (joinToks (Tok.dot :: rest)) hhd]
        rw [show chunkGo [] (joinToks (Tok.dot :: rest)) =
            chunkRuns (joinToks (Tok.dot :: rest)) from rfl, ih]
        rw [show chunkGo [] (tokChars a) = chunkRuns (tokChars a) from rfl,
          chunkRuns_tokChars a ha]
        simp [segsOfToks, hns]
      case _ =>
        subst hbc
        have hhd : (joinToks (Tok.lparen :: rest)).head?.all
            (fun c => !isWordChar c) = true := by
          rw [joinToks_head_cases Tok.lparen rest hb]; decide
        rw [chunkRuns, hj,
          chunkGo_append (tokChars a) [] (joinToks (Tok.lparen :: rest)) hhd]
        rw [show chunkGo [] (joinToks (Tok.lparen :: rest)) =
            chunkRuns (joinToks (Tok.lparen :: rest)) from rfl, ih]
        rw [show chunkGo [] (tokChars a) = chunkRuns (tokChars a) from rfl,
          chunkRuns_tokChars a ha]
        simp [segsOfToks, hns]
      case _ =>
        subst hac
        rw [chunkRuns, hj]
        simp only [tokChars, List.cons_append, List.nil_append]
        rw [show chunkGo [] ('(' :: joinToks (b :: rest)) =
            Seg.other '(' :: chunkGo [] (joinToks (b :: rest)) from by
          simp [chunkGo, show isWordChar '(' = false from by decide]]
        rw [show chunkGo [] (joinToks (b :: rest)) =
            chunkRuns (joinToks (b :: rest)) from rfl, ih]
        simp [segsOfToks, hns, tokSegs]
      case _ =>
        subst hac
        rw [chunkRuns, hj]
        simp only [tokChars, List.cons_append, List.nil_append]
        rw [show chunkGo [] ('.' :: joinToks (b :: rest)) =
            Seg.other '.' :: chunkGo [] (joinToks (b :: rest)) from by
          simp [chunkGo, show isWordChar '.' = false from by decide]]
        rw [show chunkGo [] (joinToks (b :: rest)) =
            chunkRuns (joinToks (b :: rest)) from rfl, ih]
        simp [segsOfToks, hns, tokSegs]


theorem reservedLike_not_agg {w : List Char}
    (h : RESERVED_LIKE.contains w = true) :
    aggLowerNames.contains w = false := by
  have hmem : w ∈ RESERVED_LIKE := by simpa using h
  simp only [RESERVED_LIKE, List.map_cons, List.map_nil, List.mem_cons,
    List.not_mem_nil, or_false] at hmem
  rcases hmem with h1 | h1 | h1 | h1
  all_goals subst h1
  all_goals decide

theorem isAggWord_qTok (t : Tok) : isAggWord (qTok t) = isAggWord t := by
  cases t with
  | word r =>
    simp only [qTok]
    cases hres : RESERVED_LIKE.contains (lowerChars r) with
    | false => simp
    | true =>
      simp only [if_true, isAggWord]
      exact (reservedLike_not_agg hres).symm
  | num n => rfl
  | quot r => rfl
  | comma => rfl
  | dot => rfl
  | lparen => rfl
  | rparen => rfl
  | star => rfl
  | opEq => rfl
  | opNe => rfl
  | opLt => rfl
  | opGt => rfl
  | opLe => rfl
  | opGe => rfl
  | rawtext s => rfl

theorem qTok_shape (t : Tok) : qTok t = t ∨
    ∃ r, t = Tok.word r ∧ qTok t = Tok.quot r ∧
      aggLowerNames.contains (lowerChars r) = false := by
  cases t with
  | word r =>
    cases hres : RESERVED_LIKE.contains (lowerChars r) with
    | false =>
      left
      have hn : lowerChars r ∉ RESERVED_LIKE := by simpa using hres
      simp [qTok, hn]
    | true =>
      right
      have hmem : lowerChars r ∈ RESERVED_LIKE := by simpa using hres
      exact ⟨r, rfl, by simp [qTok, hmem], reservedLike_not_agg hres⟩
  | num n => left; rfl
  | quot r => left; rfl
  | comma => left; rfl
  | dot => left; rfl
  | lparen => left; rfl
  | rparen => left; rfl
  | star => left; rfl
  | opEq => left; rfl
  | opNe => left; rfl
  | opLt => left; rfl
  | opGt => left; rfl
  | opLe => left; rfl
  | opGe => left; rfl
  | rawtext s => left; rfl

theorem needSpace_qTok (a b : Tok) :
    needSpace (qTok a) (qTok b) = needSpace a b := by
  rcases qTok_shape a with ha | ⟨ra, hae, haq, hagg⟩ <;>
    rcases qTok_shape b with hb | ⟨rb, hbe, hbq, hbagg⟩
  · rw [ha, hb]
  · rw [ha, hbq, hbe]
    cases a <;> rfl
  · rw [haq, hb, hae]
    have hnagg : lowerChars ra ∉ aggLowerNames := by simpa using hagg
    cases b <;> simp [needSpace, isAggWord, hnagg]
  · rw [haq, hbq, hae, hbe]
    rfl

theorem tokOk_qTok {t : Tok} (h : tokOk t = true) : tokOk (qTok t) = true := by
  cases t <;> simp only [qTok] <;> first
  | exact h
  | (split <;> simpa [tokOk] using h)

theorem qsg_flag_irrel : ∀ (R : List Seg) (b1 b2 : Bool),
    (∀ r, R.head? ≠ some (Seg.run r)) →
    quoteReservedSegsGo b1 R = quoteReservedSegsGo b2 R
  | [], _, _, _ => rfl
  | Seg.run r :: _, _, _, h => absurd rfl (h r)
  | Seg.other c :: rest, b1, b2, _ => by
    simp [quoteReservedSegsGo]

theorem toLower_digit {c : Char} (h : c.isDigit = true) : c.toLower = c := by
  simp only [Char.isDigit, Bool.and_eq_true, decide_eq_true_eq] at h
  simp only [Char.toLower]
  rw [if_neg]
  rintro h1
  have h2 : c.toNat ≤ 57 := h.2
  omega

theorem digits_not_reservedLike {ds : List Char}
    (h : ds.all Char.isDigit = true) (hne : ds ≠ []) :
    RESERVED_LIKE.contains (lowerChars ds) = false := by
  cases ds with
  | nil => exact absurd rfl hne
  | cons c cs =>
    have hc : c.isDigit = true := by
      simp only [List.all_cons, Bool.and_eq_true] at h; exact h.1
    cases hres : RESERVED_LIKE.contains (lowerChars (c :: cs)) with
    | false => rfl
    | true =>
      exfalso
      have hmem : lowerChars (c :: cs) ∈ RESERVED_LIKE := by simpa using hres
      have hhd : (lowerChars (c :: cs)).head? = some c.toLower := by
        simp [lowerChars]
      rw [toLower_digit hc] at hhd
      simp only [RESERVED_LIKE, List.map_cons, List.map_nil, List.mem_cons,
        List.not_mem_nil, or_false] at hmem
      rcases hmem with h1 | h1 | h1 | h1
      all_goals rw [h1] at hhd
      all_goals simp at hhd
      all_goals rw [← hhd] at hc
      all_goals exact absurd hc (by decide)

theorem qsg_run_cons (r : List Char) (R : List Seg)
    (hnt : (match R.head? with
            | some (Seg.other t) => decide (t = tickChar)
            | _ => false) = false) :
    quoteReservedSegsGo false (Seg.run r :: R) =
      (if RESERVED_LIKE.contains (lowerChars r) then
        [Seg.other tickChar, Seg.run r, Seg.other tickChar]
      else [Seg.run r]) ++ quoteReservedSegsGo false R := by
  simp only [quoteReservedSegsGo, hnt]
  simp

theorem qsg_sep (ns : Bool) (X : List Seg) :
    quoteReservedSegsGo false ((if ns then [Seg.other ' '] else []) ++ X) =
      (if ns then [Seg.other ' '] else []) ++ quoteReservedSegsGo false X := by
  cases ns with
  | false => simp
  | true =>
    simp only [if_true, List.cons_append, List.nil_append, quoteReservedSegsGo]
    have hd : decide (' ' = tickChar) = false := by decide
    rw [hd]
    rfl

theorem qsg_other_cons (c : Char) (hc : decide (c = tickChar) = false)
    (R : List Seg) :
    quoteReservedSegsGo false (Seg.other c :: R) =
      Seg.other c :: quoteReservedSegsGo false R := by
  simp only [quoteReservedSegsGo, hc]

theorem needSpace_qTok_right (a b : Tok) :
    needSpace a (qTok b) = needSpace a b := by
  rcases qTok_shape b with hb | ⟨rb, hbe, hbq, hbagg⟩
  · rw [hb]
  · rw [hbq, hbe]
    cases a <;> rfl

/-- `_quote_reserved_identifiers` acts token-wise on a printed token
list. -/
theorem qsg_segsOfToks : ∀ ts : List Tok, ts.all tokOk = true →
    quoteReservedSegsGo false (segsOfToks ts) = segsOfToks (ts.map qTok)
  | [], _ => rfl
  | [t], h => by
    have ht : tokOk t = true := by simpa using h
    cases t with
    | word r =>
      show quoteReservedSegsGo false (Seg.run r :: []) = _
      rw [qsg_run_cons r [] rfl]
      cases hres : RESERVED_LIKE.contains (lowerChars r) with
      | true =>
        have hmem : lowerChars r ∈ RESERVED_LIKE := by simpa using hres
        simp [qTok, hmem, hres, segsOfToks, tokSegs, quoteReservedSegsGo]
      | false =>
        have hmem : lowerChars r ∉ RESERVED_LIKE := by simpa using hres
        simp [qTok, hmem, hres, segsOfToks, tokSegs, quoteReservedSegsGo]
    | num n =>
      have hdig : (natDigits n).all Char.isDigit = true := by
        simpa using natDigits_all_digit n
      have hres := digits_not_reservedLike hdig (natDigits_ne_nil n)
      have hmem : lowerChars (natDigits n) ∉ RESERVED_LIKE := by simpa using hres
      show quoteReservedSegsGo false (Seg.run (natDigits n) :: []) = _
      rw [qsg_run_cons (natDigits n) [] rfl]
      simp [hres, hmem, qTok, segsOfToks, tokSegs, quoteReservedSegsGo]
    | quot r =>
      simp [segsOfToks, tokSegs, qTok, quoteReservedSegsGo]
    | rawtext s => exact absurd ht (by simp [tokOk])
    | comma => decide
    | dot => decide
    | lparen => decide
    | rparen => decide
    | star => decide
    | opEq => decide
    | opNe => decide
    | opLt => decide
    | opGt => decide
    | opLe => decide
    | opGe => decide
  | a :: b :: rest, h => by
    have ha : tokOk a = true := by
      simp only [List.all_cons, Bool.and_eq_true] at h; exact h.1
    have htl : (b :: rest).all tokOk = true := by
      simp only [List.all_cons, Bool.and_eq_true] at h ⊢; exact h.2
    have ih := qsg_segsOfToks (b :: rest) htl
    cases a with
    | word r =>
      have hnt : (match ((if needSpace (Tok.word r) b then [Seg.other ' ']
              else []) ++ segsOfToks (b :: rest)).head? with
            | some (Seg.other t) => decide (t = tickChar)
            | _ => false) = false := by
        cases hns : needSpace (Tok.word r) b with
        | true =>
          simp
          try decide
        | false =>
          simp only [Bool.false_eq_true, if_false, List.nil_append]
          rw [segsOfToks_head]
          rcases needSpace_false_cases _ _ hns with hbc | hbc | hbc | hbc | hac | hac
          · subst hbc; decide
          · subst hbc; decide
          · subst hbc; decide
          · subst hbc; decide
          · exact absurd hac (by simp)
          · exact absurd hac (by simp)
      show quoteReservedSegsGo false
          (Seg.run r :: ((if needSpace (Tok.word r) b then [Seg.other ' ']
            else []) ++ segsOfToks (b :: rest))) = _
      rw [qsg_run_cons r _ hnt, qsg_sep, ih]
      cases hres : RESERVED_LIKE.contains (lowerChars r) with
      | true =>
        have hmem : lowerChars r ∈ RESERVED_LIKE := by simpa using hres
        simp only [List.map_cons, segsOfToks]
        rw [needSpace_qTok]
        rw [show qTok (Tok.word r) = Tok.quot r from by simp [qTok, hmem]]
        simp [tokSegs]
      | false =>
        have hmem : lowerChars r ∉ RESERVED_LIKE := by simpa using hres
        simp only [List.map_cons, segsOfToks]
        rw [needSpace_qTok]
        rw [show qTok (Tok.word r) = Tok.word r from by simp [qTok, hmem]]
        simp [tokSegs]
    | num n =>
      have hnt : (match ((if needSpace (Tok.num n) b then [Seg.other ' ']
              else []) ++ segsOfToks (b :: rest)).head? with
            | some (Seg.other t) => decide (t = tickChar)
            | _ => false) = false := by
        cases hns : needSpace (Tok.num n) b with
        | true =>
          simp
          try decide
        | false =>
          simp only [Bool.false_eq_true, if_false, List.nil_append]
          rw [segsOfToks_head]
          rcases needSpace_false_cases _ _ hns with hbc | hbc | hbc | hbc | hac | hac
          · subst hbc; decide
          · subst hbc; decide
          · subst hbc; decide
          · subst hbc; decide
          · exact absurd hac (by simp)
          · exact absurd hac (by simp)
      have hdig : (natDigits n).all Char.isDigit = true := by
        simpa using natDigits_all_digit n
      have hres := digits_not_reservedLike hdig (natDigits_ne_nil n)
      show quoteReservedSegsGo false
          (Seg.run (natDigits n) :: ((if needSpace (Tok.num n) b then
            [Seg.other ' '] else []) ++ segsOfToks (b :: rest))) = _
      have hmem : lowerChars (natDigits n) ∉ RESERVED_LIKE := by simpa using hres
      rw [qsg_run_cons _ _ hnt, qsg_sep, ih, hres]
      simp only [List.map_cons]
      rw [show qTok (Tok.num n) = Tok.num n from rfl]
      simp only [segsOfToks, needSpace_qTok_right, tokSegs]
      simp
    | quot r =>
      have hflag : ∀ rr, ((if needSpace (Tok.quot r) b then [Seg.other ' ']
            else []) ++ segsOfToks (b :: rest)).head? ≠ some (Seg.run rr) := by
        intro rr
        cases hns : needSpace (Tok.quot r) b with
        | true =>
          simp
          try decide
        | false =>
          simp only [Bool.false_eq_true, if_false, List.nil_append]
          rw [segsOfToks_head]
          rcases needSpace_false_cases _ _ hns with hbc | hbc | hbc | hbc | hac | hac
          · subst hbc; simp [tokSegs]
          · subst hbc; simp [tokSegs]
          · subst hbc; simp [tokSegs]
          · subst hbc
            exact absurd hns (by simp [needSpace, isAggWord])
          · exact absurd hac (by simp)
          · exact absurd hac (by simp)
      show quoteReservedSegsGo false
          (Seg.other tickChar :: Seg.run r :: Seg.other tickChar ::
            ((if needSpace (Tok.quot r) b then [Seg.other ' '] else []) ++
              segsOfToks (b :: rest))) = _
      simp only [quoteReservedSegsGo, decide_True, Bool.not_true,
        Bool.and_false, Bool.false_and, Bool.false_eq_true, if_false,
        List.nil_append, List.cons_append]
      rw [qsg_flag_irrel _ true false hflag, qsg_sep, ih]
      simp only [List.map_cons, segsOfToks, needSpace_qTok_right]
      rw [show qTok (Tok.quot r) = Tok.quot r from rfl]
      simp [tokSegs]
    | rawtext s =>
      exact absurd (show tokOk (Tok.rawtext s) = true from by
        simp only [List.all_cons, Bool.and_eq_true] at h; exact h.1)
        (by simp [tokOk])
    | comma =>
      show quoteReservedSegsGo false (Seg.other ',' ::
        ((if needSpace Tok.comma b then [Seg.other ' '] else []) ++
          segsOfToks (b :: rest))) = _
      rw [qsg_other_cons ',' (by decide), qsg_sep, ih]
      simp only [List.map_cons]
      rw [show qTok Tok.comma = Tok.comma from rfl]
      simp only [segsOfToks, needSpace_qTok_right, tokSegs]
      simp
    | dot =>
      show quoteReservedSegsGo false (Seg.other '.' ::
        ((if needSpace Tok.dot b then [Seg.other ' '] else []) ++
          segsOfToks (b :: rest))) = _
      rw [qsg_other_cons '.' (by decide), qsg_sep, ih]
      simp only [List.map_cons]
      rw [show qTok Tok.dot = Tok.dot from rfl]
      simp only [segsOfToks, needSpace_qTok_right, tokSegs]
      simp
    | lparen =>
      show quoteReservedSegsGo false (Seg.other '(' ::
        ((if needSpace Tok.lparen b then [Seg.other ' '] else []) ++
          segsOfToks (b :: rest))) = _
      rw [qsg_other_cons '(' (by decide), qsg_sep, ih]
      simp only [List.map_cons]
      rw [show qTok Tok.lparen = Tok.lparen from rfl]
      simp only [segsOfToks, needSpace_qTok_right, tokSegs]
      simp
    | rparen =>
      show quoteReservedSegsGo false (Seg.other ')' ::
        ((if needSpace Tok.rparen b then [Seg.other ' '] else []) ++
          segsOfToks (b :: rest))) = _
      rw [qsg_other_cons ')' (by decide), qsg_sep, ih]
      simp only [List.map_cons]
      rw [show qTok Tok.rparen = Tok.rparen from rfl]
      simp only [segsOfToks, needSpace_qTok_right, tokSegs]
      simp
    | star =>
      show quoteReservedSegsGo false (Seg.other '*' ::
        ((if needSpace Tok.star b then [Seg.other ' '] else []) ++
          segsOfToks (b :: rest))) = _
      rw [qsg_other_cons '*' (by decide), qsg_sep, ih]
      simp only [List.map_cons]
      rw [show qTok Tok.star = Tok.star from rfl]
      simp only [segsOfToks, needSpace_qTok_right, tokSegs]
      simp
    | opEq =>
      show quoteReservedSegsGo false (Seg.other '=' ::
        ((if needSpace Tok.opEq b then [Seg.other ' '] else []) ++
          segsOfToks (b :: rest))) = _
      rw [qsg_other_cons '=' (by decide), qsg_sep, ih]
      simp only [List.map_cons]
      rw [show qTok Tok.opEq = Tok.opEq from rfl]
      simp only [segsOfToks, needSpace_qTok_right, tokSegs]
      simp
    | opNe =>
      show quoteReservedSegsGo false (Seg.other '<' :: Seg.other '>' ::
        ((if needSpace Tok.opNe b then [Seg.other ' '] else []) ++
          segsOfToks (b :: rest))) = _
      rw [qsg_other_cons '<' (by decide), qsg_other_cons '>' (by decide),
        qsg_sep, ih]
      simp only [List.map_cons]
      rw [show qTok Tok.opNe = Tok.opNe from rfl]
      simp only [segsOfToks, needSpace_qTok_right, tokSegs]
      simp
    | opLt =>
      show quoteReservedSegsGo false (Seg.other '<' ::
        ((if needSpace Tok.opLt b then [Seg.other ' '] else []) ++
          segsOfToks (b :: rest))) = _
      rw [qsg_other_cons '<' (by decide), qsg_sep, ih]
      simp only [List.map_cons]
      rw [show qTok Tok.opLt = Tok.opLt from rfl]
      simp only [segsOfToks, needSpace_qTok_right, tokSegs]
      simp
    | opGt =>
      show quoteReservedSegsGo false (Seg.other '>' ::
        ((if needSpace Tok.opGt b then [Seg.other ' '] else []) ++
          segsOfToks (b :: rest))) = _
      rw [qsg_other_cons '>' (by decide), qsg_sep, ih]
      simp only [List.map_cons]
      rw [show qTok Tok.opGt = Tok.opGt from rfl]
      simp only [segsOfToks, needSpace_qTok_right, tokSegs]
      simp
    | opLe =>
      show quoteReservedSegsGo false (Seg.other '<' :: Seg.other '=' ::
        ((if needSpace Tok.opLe b then [Seg.other ' '] else []) ++
          segsOfToks (b :: rest))) = _
      rw [qsg_other_cons '<' (by decide), qsg_other_cons '=' (by decide),
        qsg_sep, ih]
      simp only [List.map_cons]
      rw [show qTok Tok.opLe = Tok.opLe from rfl]
      simp only [segsOfToks, needSpace_qTok_right, tokSegs]
      simp
    | opGe =>
      show quoteReservedSegsGo false (Seg.other '>' :: Seg.other '=' ::
        ((if needSpace Tok.opGe b then [Seg.other ' '] else []) ++
          segsOfToks (b :: rest))) = _
      rw [qsg_other_cons '>' (by decide), qsg_other_cons '=' (by decide),
        qsg_sep, ih]
      simp only [List.map_cons]
      rw [show qTok Tok.opGe = Tok.opGe from rfl]
      simp only [segsOfToks, needSpace_qTok_right, tokSegs]
      simp

/-- `_quote_reserved_identifiers` on the printed text of a token list is
the token-wise rewrite `qTok`. -/
theorem quoteReserved_joinToks (ts : List Tok) (h : ts.all tokOk = true) :
    quoteReserved (joinToks ts) = joinToks (ts.map qTok) := by
  rw [quoteReserved, chunkRuns_joinToks ts h, qsg_segsOfToks ts h,
    flattenSegs_segsOfToks]

theorem alpha_isWord {c : Char} (h : c.isAlpha = true) : isWordChar c = true := by
  simp [isWordChar, h]

theorem toLower_nonword {c : Char} (h : isWordChar c = false) :
    c.toLower = c := by
  simp only [Char.toLower]
  rw [if_neg]
  rintro ⟨h1, h2⟩
  have hA : c.isAlpha = true := by
    simp only [Char.isAlpha, Char.isUpper, Char.isLower]
    have : (65 ≤ c.toNat ∧ c.toNat ≤ 90) := ⟨h1, h2⟩
    simp only [Bool.or_eq_true, Bool.and_eq_true, decide_eq_true_eq]
    left
    constructor
    · show (65 : UInt32) ≤ c.val
      change (65 : UInt32).toNat ≤ c.val.toNat
      simpa [Char.toNat] using this.1
    · show c.val ≤ (90 : UInt32)
      change c.val.toNat ≤ (90 : UInt32).toNat
      simpa [Char.toNat] using this.2
  rw [alpha_isWord hA] at h
  exact absurd h (by simp)

theorem tokChars_head_not_space (t : Tok) (ht : tokOk t = true) :
    (tokChars t).head?.all (fun c => !isSpaceChar c) = true := by
  cases t with
  | word r =>
    cases r with
    | nil => exact absurd ht (by simp [tokOk, wordRawOk])
    | cons c cs =>
      have hc : isWordChar c = true := by
        simp only [tokOk, wordRawOk, Bool.and_eq_true] at ht
        exact ht.1.1
      simp [tokChars, wordChar_not_space hc]
  | num n =>
    have h := natDigits_all_digit n
    have hne := natDigits_ne_nil n
    cases hd : natDigits n with
    | nil => exact absurd hd hne
    | cons c cs =>
      rw [hd] at h
      simp only [List.all_cons, Bool.and_eq_true] at h
      simp [tokChars, hd, wordChar_not_space (digit_isWord h.1)]
  | quot r => simp [tokChars]; decide
  | rawtext s => exact absurd ht (by simp [tokOk])
  | comma => decide
  | dot => decide
  | lparen => decide
  | rparen => decide
  | star => decide
  | opEq => decide
  | opNe => decide
  | opLt => decide
  | opGt => decide
  | opLe => decide
  | opGe => decide

theorem tokChars_head_ne_tick (t : Tok) (ht : tokOk t = true)
    (hq : ∀ r, t ≠ Tok.quot r) :
    (tokChars t).head?.all (fun c => !(c = tickChar : Bool)) = true := by
  cases t with
  | word r =>
    cases r with
    | nil => exact absurd ht (by simp [tokOk, wordRawOk])
    | cons c cs =>
      have hc : isWordChar c = true := by
        simp only [tokOk, wordRawOk, Bool.and_eq_true] at ht
        exact ht.1.1
      simp [tokChars, wordChar_ne_tick hc]
  | num n =>
    have h := natDigits_all_digit n
    have hne := natDigits_ne_nil n
    cases hd : natDigits n with
    | nil => exact absurd hd hne
    | cons c cs =>
      rw [hd] at h
      simp only [List.all_cons, Bool.and_eq_true] at h
      simp [tokChars, hd, wordChar_ne_tick (digit_isWord h.1)]
  | quot r => exact absurd rfl (hq r)
  | rawtext s => exact absurd ht (by simp [tokOk])
  | comma => decide
  | dot => decide
  | lparen => decide
  | rparen => decide
  | star => decide
  | opEq => decide
  | opNe => decide
  | opLt => decide
  | opGt => decide
  | opLe => decide
  | opGe => decide

theorem tokChars_no_tick (t : Tok) (ht : tokOk t = true)
    (hq : ∀ r, t ≠ Tok.quot r) : ∀ c ∈ tokChars t, c ≠ tickChar := by
  cases t with
  | word r =>
    intro c hc
    have := wordRawOk_all (show wordRawOk r = true by simpa [tokOk] using ht)
    simp only [List.all_eq_true] at this
    exact wordChar_ne_tick (this c hc)
  | num n =>
    intro c hc
    have := natDigits_all_digit n
    simp only [List.all_eq_true] at this
    exact wordChar_ne_tick (digit_isWord (this c (by simpa [tokChars] using hc)))
  | quot r => exact absurd rfl (hq r)
  | rawtext s => exact absurd ht (by simp [tokOk])
  | comma => decide
  | dot => decide
  | lparen => decide
  | rparen => decide
  | star => decide
  | opEq => decide
  | opNe => decide
  | opLt => decide
  | opGt => decide
  | opLe => decide
  | opGe => decide

theorem matchTickWord_nil {w : List Char} (hw0 : w ≠ []) :
    matchTickWord w [] = none := by
  simp only [matchTickWord, List.dropWhile_nil, List.take_nil]
  rw [if_neg]
  intro hcon
  exact hw0 (by simpa [lowerChars] using hcon.symm)

theorem matchTickWord_space (w : List Char) (X : List Char) :
    matchTickWord w (' ' :: X) = matchTickWord w X := by
  simp only [matchTickWord]
  rw [show (' ' :: X).dropWhile isSpaceChar = X.dropWhile isSpaceChar from by
    simp [List.dropWhile, show isSpaceChar ' ' = true from by decide]]

theorem matchTickWord_head_nonalpha {w : List Char} (hw0 : w ≠ [])
    (hwa : w.all (fun c => c.isAlpha) = true)
    (X : List Char) (c : Char) (hhd : X.head? = some c)
    (hsp : isSpaceChar c = false) (hal : c.toLower.isAlpha = false) :
    matchTickWord w X = none := by
  cases X with
  | nil => simp at hhd
  | cons c0 rest =>
    have hc0 : c = c0 := by simpa using hhd.symm
    rw [hc0] at hsp hal
    simp only [matchTickWord]
    rw [show (c0 :: rest).dropWhile isSpaceChar = c0 :: rest from by
      simp [List.dropWhile, hsp]]
    rw [if_neg]
    intro hcon
    cases hwc : w with
    | nil => exact hw0 hwc
    | cons w0 ws =>
      rw [hwc] at hcon
      have h1 : (c0 :: rest).take (w0 :: ws).length = c0 :: rest.take ws.length := by
        simp
      rw [h1] at hcon
      have h2 : c0.toLower = w0 := by
        have := congrArg List.head? hcon
        simpa [lowerChars] using this
      have h3 : w0.isAlpha = true := by
        rw [hwc] at hwa
        simp only [List.all_cons, Bool.and_eq_true] at hwa
        exact hwa.1
      rw [h2, h3] at hal
      exact absurd hal (by simp)

/-- Core analysis of the regex tail `\s*w\s*` + backtick against a word
run `r` followed by a word boundary `X`: it matches exactly when the run
spells `w` (case-insensitively) and the boundary's first non-space
character is a backtick. -/
theorem matchTickWord_run_split {w : List Char} (hw0 : w ≠ [])
    (hwa : w.all (fun c => c.isAlpha) = true)
    (r X : List Char) (hne : r ≠ []) (hall : r.all isWordChar = true)
    (hX : X.head?.all (fun c => !isWordChar c) = true) :
    matchTickWord w (r ++ X) =
      if lowerChars r = w then
        (match X.dropWhile isSpaceChar with
         | c :: rest2 => if c = tickChar then some rest2 else none
         | [] => none)
      else none := by
  have hdw : (r ++ X).dropWhile isSpaceChar = r ++ X := by
    cases r with
    | nil => exact absurd rfl hne
    | cons c cs =>
      have hc : isWordChar c = true := by
        simp only [List.all_cons, Bool.and_eq_true] at hall; exact hall.1
      simp [List.dropWhile, wordChar_not_space hc]
  simp only [matchTickWord, hdw]
  by_cases heq : lowerChars r = w
  · have hlen : w.length = r.length := by
      rw [← heq]; simp [lowerChars]
    have htake : (r ++ X).take w.length = r := by
      rw [hlen]; exact List.take_left r X
    have hdrop : (r ++ X).drop w.length = X := by
      rw [hlen]; exact List.drop_left r X
    rw [htake, hdrop]
  · rw [if_neg heq]
    by_cases htest : lowerChars ((r ++ X).take w.length) = w
    · rcases Nat.lt_trichotomy w.length r.length with hlt | heq2 | hgt
      · have hdrop2 : (r ++ X).drop w.length = r.drop w.length ++ X :=
          List.drop_append_of_le_length (le_of_lt hlt)
        have hnn : r.drop w.length ≠ [] := by
          intro hcon
          have := List.drop_eq_nil_iff_le.mp hcon
          omega
        obtain ⟨c, cs, hdropeq⟩ := List.exists_cons_of_ne_nil hnn
        have hcw : isWordChar c = true := by
          have hmem : c ∈ r := by
            have : c ∈ r.drop w.length := by rw [hdropeq]; simp
            exact List.mem_of_mem_drop this
          simp only [List.all_eq_true] at hall
          exact hall c hmem
        rw [if_pos htest, hdrop2, hdropeq]
        rw [show ((c :: cs) ++ X).dropWhile isSpaceChar = c :: (cs ++ X) from by
          simp [List.dropWhile, wordChar_not_space hcw]]
        simp [wordChar_ne_tick hcw]
      · exfalso
        have h1 : (r ++ X).take w.length = r := by
          rw [heq2]; exact List.take_left r X
        rw [h1] at htest
        exact heq htest
      · exfalso
        cases hXc : X with
        | nil =>
          rw [hXc] at htest
          simp only [List.append_nil] at htest
          have h1 : r.take w.length = r :=
            List.take_of_length_le (le_of_lt hgt)
          rw [h1] at htest
          exact heq htest
        | cons x xs =>
          have hx : isWordChar x = false := by
            rw [hXc] at hX
            simp only [List.head?_cons, Option.all_some, Bool.not_eq_true'] at hX
            exact hX
          have h1 : ((r ++ X).take w.length).get? r.length = some x := by
            rw [List.get?_take hgt]
            rw [List.get?_append_right (le_refl r.length)]
            simp [hXc]
          have h2 := congrArg (fun l => l.get? r.length) htest
          simp only [lowerChars, List.get?_map, h1, Option.map_some'] at h2
          have hmemw : x.toLower ∈ w := List.get?_mem h2.symm
          have halw : x.toLower.isAlpha = true := by
            simp only [List.all_eq_true] at hwa
            exact hwa _ hmemw
          rw [toLower_nonword hx] at halw
          rw [alpha_isWord halw] at hx
          exact absurd hx (by simp)
    · rw [if_neg htest]


theorem uqPassTok_nonquot (w repl : List Char) (a : Tok)
    (haq : ∀ r, a ≠ Tok.quot r) : uqPassTok w repl a = a := by
  cases a with
  | quot r => exact absurd rfl (haq r)
  | word r => rfl
  | num n => rfl
  | comma => rfl
  | dot => rfl
  | lparen => rfl
  | rparen => rfl
  | star => rfl
  | opEq => rfl
  | opNe => rfl
  | opLt => rfl
  | opGt => rfl
  | opLe => rfl
  | opGe => rfl
  | rawtext s => rfl

theorem uqPassTok_shape (w repl : List Char) (t : Tok) :
    uqPassTok w repl t = t ∨
    ∃ r, t = Tok.quot r ∧ uqPassTok w repl t = Tok.word repl := by
  cases t with
  | quot r =>
    by_cases hlw : lowerChars r = w
    · right; exact ⟨r, rfl, by simp [uqPassTok, hlw]⟩
    · left; simp [uqPassTok, hlw]
  | word r => left; rfl
  | num n => left; rfl
  | comma => left; rfl
  | dot => left; rfl
  | lparen => left; rfl
  | rparen => left; rfl
  | star => left; rfl
  | opEq => left; rfl
  | opNe => left; rfl
  | opLt => left; rfl
  | opGt => left; rfl
  | opLe => left; rfl
  | opGe => left; rfl
  | rawtext s => left; rfl

theorem uq_needSpace {w repl : List Char}
    (hrna : aggLowerNames.contains (lowerChars repl) = false) (a b : Tok) :
    needSpace (uqPassTok w repl a) (uqPassTok w repl b) = needSpace a b := by
  have hnagg : lowerChars repl ∉ aggLowerNames := by simpa using hrna
  rcases uqPassTok_shape w repl a with ha | ⟨ra, hae, haq⟩ <;>
    rcases uqPassTok_shape w repl b with hb | ⟨rb, hbe, hbq⟩
  · rw [ha, hb]
  · rw [ha, hbq, hbe]
    cases a <;> rfl
  · rw [haq, hb, hae]
    cases b <;> simp [needSpace, isAggWord, hnagg]
  · rw [haq, hbq, hae, hbe]
    rfl

theorem tokOk_uqPassTok {w repl : List Char} (hrok : wordRawOk repl = true)
    {t : Tok} (h : tokOk t = true) : tokOk (uqPassTok w repl t) = true := by
  rcases uqPassTok_shape w repl t with ht | ⟨r, hte, htq⟩
  · rw [ht]; exact h
  · rw [htq]; simpa [tokOk] using hrok

theorem unquoteDirGo_nil (w repl : List Char) :
    ∀ fuel, unquoteDirGo w repl fuel [] = []
  | 0 => rfl
  | _ + 1 => rfl

theorem unquoteDirGo_no_tick (w repl : List Char) :
    ∀ (s : List Char) (fuel : Nat) (REST : List Char),
    (∀ c ∈ s, c ≠ tickChar) → s.length ≤ fuel →
    unquoteDirGo w repl fuel (s ++ REST) =
      s ++ unquoteDirGo w repl (fuel - s.length) REST
  | [], fuel, REST, _, _ => by simp
  | c :: cs, fuel, REST, h, hf => by
    cases fuel with
    | zero => simp at hf
    | succ f =>
      have hc : c ≠ tickChar := h c (by simp)
      simp only [List.cons_append, unquoteDirGo]
      rw [if_neg hc]
      simp only [List.append_eq]
      rw [unquoteDirGo_no_tick w repl cs f REST
        (fun x hx => h x (by simp [hx])) (by simpa using hf)]
      simp [Nat.succ_sub_succ]

theorem digit_not_alpha {c : Char} (h : c.isDigit = true) :
    c.isAlpha = false := by
  simp only [Char.isDigit, Bool.and_eq_true, decide_eq_true_eq] at h
  have h2 : c.toNat ≤ 57 := h.2
  have h1 : 48 ≤ c.toNat := h.1
  simp only [Char.isAlpha, Char.isUpper, Char.isLower]
  have h65 : (65 : UInt32).toNat = 65 := rfl
  have h97 : (97 : UInt32).toNat = 97 := rfl
  have hA : ¬((65 : UInt32) ≤ c.val) := by
    intro hcon
    have hx : (65 : UInt32).toNat ≤ c.val.toNat := hcon
    rw [h65] at hx
    simp only [Char.toNat] at h2
    omega
  have hB : ¬((97 : UInt32) ≤ c.val) := by
    intro hcon
    have hx : (97 : UInt32).toNat ≤ c.val.toNat := hcon
    rw [h97] at hx
    simp only [Char.toNat] at h2
    omega
  simp [hA, hB]

theorem digits_ne_alphaWord {ds w : List Char} (hds : ds.all Char.isDigit = true)
    (hne : ds ≠ []) (hwa : w.all (fun c => c.isAlpha) = true) :
    lowerChars ds ≠ w := by
  cases ds with
  | nil => exact absurd rfl hne
  | cons c cs =>
    intro hcon
    have hc : c.isDigit = true := by
      simp only [List.all_cons, Bool.and_eq_true] at hds; exact hds.1
    have hhd : w.head? = some c := by
      rw [← hcon]
      simp [lowerChars, toLower_digit hc]
    cases w with
    | nil => simp at hhd
    | cons w0 ws =>
      have hw0c : w0 = c := by simpa using hhd
      have : w0.isAlpha = true := by
        simp only [List.all_cons, Bool.and_eq_true] at hwa; exact hwa.1
      rw [hw0c] at this
      rw [digit_not_alpha hc] at this
      exact absurd this (by simp)

theorem dropWhile_head_not_space : ∀ {X : List Char},
    X.head?.all (fun c => !isSpaceChar c) = true →
    X.dropWhile isSpaceChar = X
  | [], _ => rfl
  | c :: rest, h => by
    have hc : isSpaceChar c = false := by
      simpa using h
    simp [List.dropWhile, hc]

theorem joinToks_ne_nil (b : Tok) (rest : List Tok) (hb : tokOk b = true) :
    joinToks (b :: rest) ≠ [] := by
  intro hcon
  have h1 := joinToks_head_cases b rest hb
  rw [hcon] at h1
  exact tokChars_ne_nil hb (List.head?_eq_none_iff.mp h1.symm)

theorem noWordThenQuot_tail {w : List Char} {a b : Tok} {rest : List Tok}
    (h : noWordThenQuot w (a :: b :: rest) = true) :
    noWordThenQuot w (b :: rest) = true := by
  simp only [noWordThenQuot, Bool.and_eq_true] at h
  exact h.2

/-- At the closing backtick of a quoted token, the regex tail never
matches into the following printed tokens. -/
theorem matchTickWord_joinToks_none {w : List Char} (hw0 : w ≠ [])
    (hwa : w.all (fun c => c.isAlpha) = true) :
    ∀ ts : List Tok, ts.all tokOk = true → noWordThenQuot w ts = true →
    matchTickWord w (joinToks ts) = none := by
  intro ts h hwq
  cases ts with
  | nil => exact matchTickWord_nil hw0
  | cons a rest =>
    have ha : tokOk a = true := by
      simp only [List.all_cons, Bool.and_eq_true] at h; exact h.1
    cases a with
    | word r =>
      have hok : wordRawOk r = true := by simpa [tokOk] using ha
      have hne := wordRawOk_ne_nil hok
      have hall := wordRawOk_all hok
      cases rest with
      | nil =>
        have hsplit := matchTickWord_run_split hw0 hwa r [] hne hall (by simp)
        simp only [List.append_nil] at hsplit
        show matchTickWord w r = none
        rw [hsplit]
        split <;> rfl
      | cons b rest2 =>
        have hb : tokOk b = true := by
          simp only [List.all_cons, Bool.and_eq_true] at h; exact h.2.1
        have hXhead : ((if needSpace (Tok.word r) b then [' '] else []) ++
            joinToks (b :: rest2)).head?.all (fun c => !isWordChar c) = true := by
          cases hns : needSpace (Tok.word r) b with
          | true =>
            simp
            try decide
          | false =>
            simp only [Bool.false_eq_true, if_false, List.nil_append]
            rw [joinToks_head_cases b rest2 hb]
            rcases needSpace_false_cases _ _ hns with hbc | hbc | hbc | hbc | hac | hac
            · subst hbc; decide
            · subst hbc; decide
            · subst hbc; decide
            · subst hbc; decide
            · exact absurd hac (by simp)
            · exact absurd hac (by simp)
        rw [show joinToks (Tok.word r :: b :: rest2) =
            r ++ ((if needSpace (Tok.word r) b then [' '] else []) ++
              joinToks (b :: rest2)) from by
          simp [joinToks, tokChars, List.append_assoc]]
        rw [matchTickWord_run_split hw0 hwa r _ hne hall hXhead]
        by_cases hlw : lowerChars r = w
        · rw [if_pos hlw]
          have hpair : wqPairOk w (Tok.word r) b = true := by
            simp only [noWordThenQuot, Bool.and_eq_true] at hwq
            exact hwq.1
          have hbnq : ∀ rq, b ≠ Tok.quot rq := by
            intro rq hcon
            rw [hcon] at hpair
            simp [wqPairOk, hlw] at hpair
          have hhead := joinToks_head_cases b rest2 hb
          obtain ⟨c0, hc0⟩ : ∃ c0, (tokChars b).head? = some c0 := by
            cases htc : (tokChars b).head? with
            | none =>
              exact absurd (List.head?_eq_none_iff.mp htc) (tokChars_ne_nil hb)
            | some c0 => exact ⟨c0, rfl⟩
          have hc0sp : isSpaceChar c0 = false := by
            have h2 := tokChars_head_not_space b hb
            rw [hc0] at h2
            simpa using h2
          have hc0tk : ¬(c0 = tickChar) := by
            have h2 := tokChars_head_ne_tick b hb hbnq
            rw [hc0] at h2
            simpa using h2
          obtain ⟨tail, htail⟩ : ∃ tail, joinToks (b :: rest2) = c0 :: tail := by
            cases hj : joinToks (b :: rest2) with
            | nil => exact absurd hj (joinToks_ne_nil b rest2 hb)
            | cons x xs =>
              rw [hj, hc0] at hhead
              simp only [List.head?_cons, Option.some_inj] at hhead
              exact ⟨xs, by rw [hhead]⟩
          cases hns : needSpace (Tok.word r) b with
          | true =>
            simp only [if_true, List.cons_append, List.nil_append, htail]
            rw [show ((' ' :: (c0 :: tail)).dropWhile isSpaceChar) =
                ((c0 :: tail).dropWhile isSpaceChar) from by
              simp [List.dropWhile, show isSpaceChar ' ' = true from by decide]]
            rw [show ((c0 :: tail).dropWhile isSpaceChar) = c0 :: tail from by
              simp [List.dropWhile, hc0sp]]
            simp [hc0tk]
          | false =>
            simp only [Bool.false_eq_true, if_false, List.nil_append, htail]
            rw [show ((c0 :: tail).dropWhile isSpaceChar) = c0 :: tail from by
              simp [List.dropWhile, hc0sp]]
            simp [hc0tk]
        · rw [if_neg hlw]
    | num k =>
      have hdig : (natDigits k).all Char.isDigit = true := by
        simpa using natDigits_all_digit k
      have hlw := digits_ne_alphaWord hdig (natDigits_ne_nil k) hwa
      have hall : (natDigits k).all isWordChar = true := by
        simp only [List.all_eq_true] at hdig ⊢
        exact fun c hc => digit_isWord (hdig c hc)
      cases rest with
      | nil =>
        have hsplit := matchTickWord_run_split hw0 hwa (natDigits k) []
          (natDigits_ne_nil k) hall (by simp)
        simp only [List.append_nil] at hsplit
        show matchTickWord w (natDigits k) = none
        rw [hsplit, if_neg hlw]
      | cons b rest2 =>
        have hb : tokOk b = true := by
          simp only [List.all_cons, Bool.and_eq_true] at h; exact h.2.1
        have hXhead : ((if needSpace (Tok.num k) b then [' '] else []) ++
            joinToks (b :: rest2)).head?.all (fun c => !isWordChar c) = true := by
          cases hns : needSpace (Tok.num k) b with
          | true =>
            simp
            try decide
          | false =>
            simp only [Bool.false_eq_true, if_false, List.nil_append]
            rw [joinToks_head_cases b rest2 hb]
            rcases needSpace_false_cases _ _ hns with hbc | hbc | hbc | hbc | hac | hac
            · subst hbc; decide
            · subst hbc; decide
            · subst hbc; decide
            · subst hbc; decide
            · exact absurd hac (by simp)
            · exact absurd hac (by simp)
        rw [show joinToks (Tok.num k :: b :: rest2) =
            natDigits k ++ ((if needSpace (Tok.num k) b then [' '] else []) ++
              joinToks (b :: rest2)) from by
          simp [joinToks, tokChars, List.append_assoc]]
        rw [matchTickWord_run_split hw0 hwa (natDigits k) _ (natDigits_ne_nil k)
          hall hXhead, if_neg hlw]
    | quot r =>
      refine matchTickWord_head_nonalpha hw0 hwa _ tickChar ?_ (by decide)
        (by decide)
      rw [joinToks_head_cases (Tok.quot r) rest ha]
      rfl
    | rawtext s => exact absurd ha (by simp [tokOk])
    | comma =>
      refine matchTickWord_head_nonalpha hw0 hwa _ ',' ?_ (by decide) (by decide)
      rw [joinToks_head_cases Tok.comma rest ha]
      rfl
    | dot =>
      refine matchTickWord_head_nonalpha hw0 hwa _ '.' ?_ (by decide) (by decide)
      rw [joinToks_head_cases Tok.dot rest ha]
      rfl
    | lparen =>
      refine matchTickWord_head_nonalpha hw0 hwa _ '(' ?_ (by decide) (by decide)
      rw [joinToks_head_cases Tok.lparen rest ha]
      rfl
    | rparen =>
      refine matchTickWord_head_nonalpha hw0 hwa _ ')' ?_ (by decide) (by decide)
      rw [joinToks_head_cases Tok.rparen rest ha]
      rfl
    | star =>
      refine matchTickWord_head_nonalpha hw0 hwa _ '*' ?_ (by decide) (by decide)
      rw [joinToks_head_cases Tok.star rest ha]
      rfl
    | opEq =>
      refine matchTickWord_head_nonalpha hw0 hwa _ '=' ?_ (by decide) (by decide)
      rw [joinToks_head_cases Tok.opEq rest ha]
      rfl
    | opNe =>
      refine matchTickWord_head_nonalpha hw0 hwa _ '<' ?_ (by decide) (by decide)
      rw [joinToks_head_cases Tok.opNe rest ha]
      rfl
    | opLt =>
      refine matchTickWord_head_nonalpha hw0 hwa _ '<' ?_ (by decide) (by decide)
      rw [joinToks_head_cases Tok.opLt rest ha]
      rfl
    | opGt =>
      refine matchTickWord_head_nonalpha hw0 hwa _ '>' ?_ (by decide) (by decide)
      rw [joinToks_head_cases Tok.opGt rest ha]
      rfl
    | opLe =>
      refine matchTickWord_head_nonalpha hw0 hwa _ '<' ?_ (by decide) (by decide)
      rw [joinToks_head_cases Tok.opLe rest ha]
      rfl
    | opGe =>
      refine matchTickWord_head_nonalpha hw0 hwa _ '>' ?_ (by decide) (by decide)
      rw [joinToks_head_cases Tok.opGe rest ha]
      rfl

theorem tickMatch_some (X : List Char) :
    (match ((tickChar :: X).dropWhile isSpaceChar) with
      | c :: rest2 => if c = tickChar then some rest2 else none
      | [] => (none : Option (List Char))) = some X := by
  rw [show ((tickChar :: X).dropWhile isSpaceChar) = tickChar :: X from by
    simp [List.dropWhile, show isSpaceChar tickChar = false from by decide]]
  simp

theorem head_all_cons_nonword (c : Char) (X : List Char)
    (hc : isWordChar c = false) :
    (c :: X).head?.all (fun x => !isWordChar x) = true := by
  simp [hc]

theorem unquote_tick_nil {w : List Char} (repl : List Char) (hw0 : w ≠ []) :
    ∀ g : Nat, 1 ≤ g → unquoteDirGo w repl g [tickChar] = [tickChar]
  | 0, hg => by omega
  | g + 1, _ => by
    simp only [unquoteDirGo]
    rw [if_pos trivial, matchTickWord_nil hw0]
    show tickChar :: unquoteDirGo w repl g [] = _
    rw [unquoteDirGo_nil]

/-- One `_unquote_order_dir` regex pass acts token-wise on a printed
token list, provided no bare word spelling of the pattern word directly
precedes a quoted identifier. -/
theorem unquoteDirGo_joinToks {w repl : List Char} (hw0 : w ≠ [])
    (hwa : w.all (fun c => c.isAlpha) = true)
    (hrna : aggLowerNames.contains (lowerChars repl) = false) :
    ∀ (ts : List Tok) (fuel : Nat), ts.all tokOk = true →
    noWordThenQuot w ts = true → (joinToks ts).length ≤ fuel →
    unquoteDirGo w repl fuel (joinToks ts) =
      joinToks (ts.map (uqPassTok w repl))
  | [], fuel, _, _, _ => by
    simpa [joinToks] using unquoteDirGo_nil w repl fuel
  | [t], fuel, h, hwq, hf => by
    have ht : tokOk t = true := by simpa using h
    by_cases htq : ∀ r, t ≠ Tok.quot r
    · have hnt := tokChars_no_tick t ht htq
      have hlen : (tokChars t).length ≤ fuel := by
        simpa [joinToks] using hf
      have hpass := unquoteDirGo_no_tick w repl (tokChars t) fuel [] hnt hlen
      simp only [List.append_nil] at hpass
      show unquoteDirGo w repl fuel (tokChars t) = _
      rw [hpass, unquoteDirGo_nil]
      simp [joinToks, uqPassTok_nonquot w repl t htq]
    · push_neg at htq
      obtain ⟨r, rfl⟩ := htq
      have hok : wordRawOk r = true := by simpa [tokOk] using ht
      have hne := wordRawOk_ne_nil hok
      have hall := wordRawOk_all hok
      have hflen : r.length + 2 ≤ fuel := by
        simpa [joinToks, tokChars] using hf
      cases fuel with
      | zero => omega
      | succ f =>
        show unquoteDirGo w repl (f + 1) (tickChar :: (r ++ [tickChar])) = _
        simp only [unquoteDirGo]
        rw [if_pos trivial]
        rw [matchTickWord_run_split hw0 hwa r [tickChar] hne hall (by decide)]
        by_cases hlw : lowerChars r = w
        · rw [if_pos hlw]
          rw [show ([tickChar] : List Char) = tickChar :: [] from rfl,
            tickMatch_some]
          show repl ++ unquoteDirGo w repl f [] = _
          rw [unquoteDirGo_nil]
          simp [joinToks, uqPassTok, hlw, tokChars]
        · rw [if_neg hlw]
          show tickChar :: unquoteDirGo w repl f (r ++ [tickChar]) = _
          rw [unquoteDirGo_no_tick w repl r f [tickChar]
            (fun c hc => wordChar_ne_tick (by
              simp only [List.all_eq_true] at hall
              exact hall c hc)) (by omega)]
          rw [unquote_tick_nil repl hw0 _ (by omega)]
          simp [joinToks, uqPassTok, hlw, tokChars]
  | a :: b :: rest, fuel, h, hwq, hf => by
    have ha : tokOk a = true := by
      simp only [List.all_cons, Bool.and_eq_true] at h; exact h.1
    have hb : tokOk b = true := by
      simp only [List.all_cons, Bool.and_eq_true] at h; exact h.2.1
    have htl : (b :: rest).all tokOk = true := by
      simp only [List.all_cons, Bool.and_eq_true] at h ⊢; exact h.2
    have hwqt := noWordThenQuot_tail hwq
    by_cases haq : ∀ r, a ≠ Tok.quot r
    · have hs : ∀ c ∈ tokChars a ++ (if needSpace a b then [' '] else []),
          c ≠ tickChar := by
        intro c hc
        rcases List.mem_append.mp hc with hc1 | hc2
        · exact tokChars_no_tick a ha haq c hc1
        · cases hns : needSpace a b with
          | false => rw [hns] at hc2; simp at hc2
          | true =>
            rw [hns] at hc2
            simp only [if_true, List.mem_singleton] at hc2
            subst hc2
            decide
      have hjoin : joinToks (a :: b :: rest) =
          (tokChars a ++ (if needSpace a b then [' '] else [])) ++
            joinToks (b :: rest) := by
        simp [joinToks]
      have hlen1 : (tokChars a ++ (if needSpace a b then [' '] else [])).length
          + (joinToks (b :: rest)).length ≤ fuel := by
        rw [hjoin] at hf
        simp only [List.length_append] at hf ⊢
        omega
      rw [hjoin]
      rw [unquoteDirGo_no_tick w repl _ fuel _ hs (by omega)]
      rw [unquoteDirGo_joinToks hw0 hwa hrna (b :: rest) _ htl hwqt (by omega)]
      simp only [List.map_cons, joinToks]
      rw [uq_needSpace hrna a b]
      rw [uqPassTok_nonquot w repl a haq]
    · push_neg at haq
      obtain ⟨r, rfl⟩ := haq
      have hok : wordRawOk r = true := by simpa [tokOk] using ha
      have hne := wordRawOk_ne_nil hok
      have hall := wordRawOk_all hok
      have hnotick : ∀ c ∈ r, c ≠ tickChar := fun c hc =>
        wordChar_ne_tick (by
          simp only [List.all_eq_true] at hall
          exact hall c hc)
      have hjoin : joinToks (Tok.quot r :: b :: rest) =
          tickChar :: (r ++ (tickChar ::
            ((if needSpace (Tok.quot r) b then [' '] else []) ++
              joinToks (b :: rest)))) := by
        simp [joinToks, tokChars]
      have hflen : r.length + 2 +
          ((if needSpace (Tok.quot r) b then [' '] else []) ++
            joinToks (b :: rest)).length ≤ fuel := by
        rw [hjoin] at hf
        simp only [List.length_cons, List.length_append] at hf
        simp only [List.length_append]
        omega
      cases fuel with
      | zero => omega
      | succ f =>
        rw [hjoin]
        simp only [unquoteDirGo]
        rw [if_pos trivial]
        rw [matchTickWord_run_split hw0 hwa r _ hne hall
          (head_all_cons_nonword tickChar _ (by decide))]
        by_cases hlw : lowerChars r = w
        · rw [if_pos hlw, tickMatch_some]
          show repl ++ unquoteDirGo w repl f
            ((if needSpace (Tok.quot r) b then [' '] else []) ++
              joinToks (b :: rest)) = _
          cases hns : needSpace (Tok.quot r) b with
          | true =>
            simp only [if_true, List.cons_append, List.nil_append]
            rw [show (' ' :: joinToks (b :: rest)) =
                [' '] ++ joinToks (b :: rest) from rfl]
            rw [unquoteDirGo_no_tick w repl [' '] f _ (by decide)
              (by rw [hns] at hflen; simp at hflen ⊢; omega)]
            rw [unquoteDirGo_joinToks hw0 hwa hrna (b :: rest) _ htl hwqt
              (by rw [hns] at hflen; simp at hflen ⊢; omega)]
            simp only [List.map_cons, joinToks]
            rw [uq_needSpace hrna (Tok.quot r) b,
              show uqPassTok w repl (Tok.quot r) = Tok.word repl from by
                simp [uqPassTok, hlw]]
            simp [hns, tokChars]
          | false =>
            simp only [Bool.false_eq_true, if_false, List.nil_append]
            rw [unquoteDirGo_joinToks hw0 hwa hrna (b :: rest) _ htl hwqt
              (by rw [hns] at hflen; simp at hflen ⊢; omega)]
            simp only [List.map_cons, joinToks]
            rw [uq_needSpace hrna (Tok.quot r) b,
              show uqPassTok w repl (Tok.quot r) = Tok.word repl from by
                simp [uqPassTok, hlw]]
            simp [hns, tokChars]
        · rw [if_neg hlw]
          show tickChar :: unquoteDirGo w repl f
            (r ++ (tickChar ::
              ((if needSpace (Tok.quot r) b then [' '] else []) ++
                joinToks (b :: rest)))) = _
          rw [unquoteDirGo_no_tick w repl r f _ hnotick (by omega)]
          have hgg : 1 ≤ f - r.length := by omega
          cases hfr : f - r.length with
          | zero => omega
          | succ g =>
            simp only [unquoteDirGo]
            rw [if_pos trivial]
            have hmn : matchTickWord w
                ((if needSpace (Tok.quot r) b then [' '] else []) ++
                  joinToks (b :: rest)) = none := by
              cases hns : needSpace (Tok.quot r) b with
              | true =>
                simp only [if_true, List.cons_append, List.nil_append]
                rw [matchTickWord_space]
                exact matchTickWord_joinToks_none hw0 hwa _ htl hwqt
              | false =>
                simp only [Bool.false_eq_true, if_false, List.nil_append]
                exact matchTickWord_joinToks_none hw0 hwa _ htl hwqt
            rw [hmn]
            show tickChar :: r ++ tickChar :: unquoteDirGo w repl g
              ((if needSpace (Tok.quot r) b then [' '] else []) ++
                joinToks (b :: rest)) = _
            cases hns : needSpace (Tok.quot r) b with
            | true =>
              simp only [if_true, List.cons_append, List.nil_append]
              rw [show (' ' :: joinToks (b :: rest)) =
                  [' '] ++ joinToks (b :: rest) from rfl]
              rw [unquoteDirGo_no_tick w repl [' '] g _ (by decide)
                (by rw [hns] at hflen; simp at hflen ⊢; omega)]
              rw [unquoteDirGo_joinToks hw0 hwa hrna (b :: rest) _ htl hwqt
                (by rw [hns] at hflen; simp at hflen ⊢; omega)]
              simp only [List.map_cons, joinToks]
              rw [uq_needSpace hrna (Tok.quot r) b,
                show uqPassTok w repl (Tok.quot r) = Tok.quot r from by
                  simp [uqPassTok, hlw]]
              simp [hns, tokChars]
            | false =>
              simp only [Bool.false_eq_true, if_false, List.nil_append]
              rw [unquoteDirGo_joinToks hw0 hwa hrna (b :: rest) _ htl hwqt
                (by rw [hns] at hflen; simp at hflen ⊢; omega)]
              simp only [List.map_cons, joinToks]
              rw [uq_needSpace hrna (Tok.quot r) b,
                show uqPassTok w repl (Tok.quot r) = Tok.quot r from by
                  simp [uqPassTok, hlw]]
              simp [hns, tokChars]

theorem wordChar_ne {c d : Char} (hc : isWordChar c = true)
    (hd : isWordChar d = false) : c ≠ d := by
  intro he
  rw [he, hd] at hc
  exact absurd hc (by simp)

/-- Every printed character is a word character or one of the fixed
punctuation characters (the blank separators aside). -/
theorem tokChars_chars (t : Tok) (ht : tokOk t = true) :
    ∀ c ∈ tokChars t, isWordChar c = true ∨
      c ∈ [tickChar, ',', '.', '(', ')', '*', '=', '<', '>'] := by
  cases t with
  | word r =>
    intro c hc
    left
    have := wordRawOk_all (show wordRawOk r = true by simpa [tokOk] using ht)
    simp only [List.all_eq_true] at this
    exact this c hc
  | num n =>
    intro c hc
    left
    have := natDigits_all_digit n
    simp only [List.all_eq_true] at this
    exact digit_isWord (this c (by simpa [tokChars] using hc))
  | quot r =>
    intro c hc
    simp only [tokChars, List.mem_cons, List.mem_append, List.mem_singleton, List.not_mem_nil, or_false] at hc
    rcases hc with rfl | hc | rfl
    · right; simp
    · left
      have := wordRawOk_all (show wordRawOk r = true by simpa [tokOk] using ht)
      simp only [List.all_eq_true] at this
      exact this c hc
    · right; simp
  | rawtext s => exact absurd ht (by simp [tokOk])
  | comma => intro c hc; right; simp only [tokChars, List.mem_singleton, List.mem_cons, List.not_mem_nil, or_false] at hc; simp [hc]
  | dot => intro c hc; right; simp only [tokChars, List.mem_singleton, List.mem_cons, List.not_mem_nil, or_false] at hc; simp [hc]
  | lparen => intro c hc; right; simp only [tokChars, List.mem_singleton, List.mem_cons, List.not_mem_nil, or_false] at hc; simp [hc]
  | rparen => intro c hc; right; simp only [tokChars, List.mem_singleton, List.mem_cons, List.not_mem_nil, or_false] at hc; simp [hc]
  | star => intro c hc; right; simp only [tokChars, List.mem_singleton, List.mem_cons, List.not_mem_nil, or_false] at hc; simp [hc]
  | opEq => intro c hc; right; simp only [tokChars, List.mem_singleton, List.mem_cons, List.not_mem_nil, or_false] at hc; simp [hc]
  | opNe =>
    intro c hc
    right
    simp only [tokChars, List.mem_cons, List.mem_singleton, List.not_mem_nil, or_false] at hc
    rcases hc with rfl | rfl <;> simp
  | opLt => intro c hc; right; simp only [tokChars, List.mem_singleton, List.mem_cons, List.not_mem_nil, or_false] at hc; simp [hc]
  | opGt => intro c hc; right; simp only [tokChars, List.mem_singleton, List.mem_cons, List.not_mem_nil, or_false] at hc; simp [hc]
  | opLe =>
    intro c hc
    right
    simp only [tokChars, List.mem_cons, List.mem_singleton, List.not_mem_nil, or_false] at hc
    rcases hc with rfl | rfl <;> simp
  | opGe =>
    intro c hc
    right
    simp only [tokChars, List.mem_cons, List.mem_singleton, List.not_mem_nil, or_false] at hc
    rcases hc with rfl | rfl <;> simp

theorem joinToks_mem : ∀ (ts : List Tok) (c : Char), c ∈ joinToks ts →
    c = ' ' ∨ ∃ t ∈ ts, c ∈ tokChars t
  | [], c, hc => by simp [joinToks] at hc
  | [t], c, hc => Or.inr ⟨t, by simp, by simpa [joinToks] using hc⟩
  | a :: b :: rest, c, hc => by
    simp only [joinToks, List.mem_append] at hc
    rcases hc with (hc | hc) | hc
    · exact Or.inr ⟨a, by simp, hc⟩
    · left
      revert hc
      split <;> intro hc <;> simp at hc
      exact hc
    · rcases joinToks_mem (b :: rest) c hc with h1 | ⟨t, ht, htc⟩
      · exact Or.inl h1
      · exact Or.inr ⟨t, by simp [List.mem_cons] at ht ⊢; tauto, htc⟩

/-- A character class clear of every printed character: not a word
character, not a blank, and not one of the fixed punctuation marks. -/
theorem joinToks_char_free (ts : List Tok) (h : ts.all tokOk = true)
    (d : Char) (hw : isWordChar d = false) (hsp : d ≠ ' ')
    (hp : d ∉ [tickChar, ',', '.', '(', ')', '*', '=', '<', '>']) :
    ∀ c ∈ joinToks ts, c ≠ d := by
  intro c hc
  rcases joinToks_mem ts c hc with rfl | ⟨t, htm, htc⟩
  · exact fun he => hsp he.symm
  · have ht : tokOk t = true := by
      simp only [List.all_eq_true] at h
      exact h t htm
    rcases tokChars_chars t ht c htc with h1 | h1
    · exact wordChar_ne h1 hw
    · intro he
      rw [he] at h1
      exact hp h1

theorem stripChars_id (s : List Char)
    (h1 : s.head?.all (fun c => !isSpaceChar c) = true)
    (h2 : s.getLast?.all (fun c => !isSpaceChar c) = true) :
    stripChars s = s := by
  rw [stripChars, dropWhile_head_not_space h1]
  rw [show s.reverse.dropWhile isSpaceChar = s.reverse from
    dropWhile_head_not_space (by rwa [List.head?_reverse])]
  simp

theorem joinToks_getLast : ∀ (ts : List Tok) (b : Tok), ts ≠ [] →
    ts.all tokOk = true → ts.getLast? = some b →
    (joinToks ts).getLast? = (tokChars b).getLast?
  | [], _, hne, _, _ => absurd rfl hne
  | [t], b, _, _, hl => by
    have : t = b := by simpa using hl
    subst this
    simp [joinToks]
  | a :: t2 :: rest, b, _, h, hl => by
    have htl : (t2 :: rest).all tokOk = true := by
      simp only [List.all_cons, Bool.and_eq_true] at h ⊢; exact h.2
    have hl2 : (t2 :: rest).getLast? = some b := by
      rw [← List.getLast?_cons_cons]
      exact hl
    have ih := joinToks_getLast (t2 :: rest) b (by simp) htl hl2
    simp only [joinToks]
    rw [List.getLast?_append_of_ne_nil _ (joinToks_ne_nil t2 rest (by
      simp only [List.all_cons, Bool.and_eq_true] at h; exact h.2.1))]
    exact ih

theorem tokChars_getLast_ok (t : Tok) (ht : tokOk t = true) :
    (tokChars t).getLast?.all
      (fun c => !isSpaceChar c && !(c = ';' : Bool)) = true := by
  have hne := tokChars_ne_nil ht
  cases hg : (tokChars t).getLast? with
  | none => exact absurd (List.getLast?_eq_none_iff.mp hg) hne
  | some c =>
    have hmem : c ∈ tokChars t := List.mem_of_mem_getLast? hg
    rcases tokChars_chars t ht c hmem with h1 | h1
    · have h2 : c ≠ ';' := wordChar_ne (d := ';') h1 (by decide)
      simp [wordChar_not_space h1, h2]
    · simp only [List.mem_cons, List.mem_singleton, List.not_mem_nil,
        or_false] at h1
      rcases h1 with rfl | rfl | rfl | rfl | rfl | rfl | rfl | rfl | rfl <;> decide

/-- `_strip_trailing_semicolon` is the identity on printed SQL. -/
theorem stripTrailingSemicolon_joinToks (ts : List Tok)
    (h : ts.all tokOk = true) :
    stripTrailingSemicolon (joinToks ts) = joinToks ts := by
  cases ts with
  | nil => rfl
  | cons a rest =>
    have ha : tokOk a = true := by
      simp only [List.all_cons, Bool.and_eq_true] at h; exact h.1
    obtain ⟨b, hb⟩ : ∃ b, (a :: rest).getLast? = some b := by
      cases hg : (a :: rest).getLast? with
      | none => exact absurd (List.getLast?_eq_none_iff.mp hg) (by simp)
      | some b => exact ⟨b, rfl⟩
    have hbok : tokOk b = true := by
      simp only [List.all_eq_true] at h
      exact h b (List.mem_of_mem_getLast? hb)
    have hlast := joinToks_getLast (a :: rest) b (by simp) h hb
    have hlastok := tokChars_getLast_ok b hbok
    have hstrip : stripChars (joinToks (a :: rest)) = joinToks (a :: rest) := by
      refine stripChars_id _ ?_ ?_
      · rw [joinToks_head_cases a rest ha]
        have := tokChars_head_not_space a ha
        exact this
      · rw [hlast]
        cases hg : (tokChars b).getLast? with
        | none => simp
        | some c =>
          rw [hg] at hlastok
          simp only [Option.all_some, Bool.and_eq_true] at hlastok
          simp [hlastok.1]
    rw [stripTrailingSemicolon, hstrip]
    rw [hlast]
    cases hg : (tokChars b).getLast? with
    | none => exact absurd (List.getLast?_eq_none_iff.mp hg) (tokChars_ne_nil hbok)
    | some c =>
      rw [hg] at hlastok
      simp only [Option.all_some, Bool.and_eq_true] at hlastok
      have : ¬(c = ';') := by
        have := hlastok.2
        simpa using this
      split
      · rename_i heq
        exact absurd (by injection heq) this
      · rfl

theorem matchIntervalAt_none (s : List Char) (h : ∀ c ∈ s, c ≠ '\'') :
    matchIntervalAt s = none := by
  simp only [matchIntervalAt]
  split
  · split
    · rfl
    · split
      · rename_i r2 heq
        exfalso
        have h1 : '\'' ∈ (s.drop 8).dropWhile isSpaceChar := by
          rw [heq]; simp
        have h2 : '\'' ∈ s.drop 8 := (List.dropWhile_sublist _).mem h1
        have h3 : '\'' ∈ s := (List.drop_sublist 8 s).mem h2
        exact h _ h3 rfl
      · rfl
  · rfl

theorem fixIntervalGo_id : ∀ (fuel : Nat) (b : Bool) (s : List Char),
    (∀ c ∈ s, c ≠ '\'') → fixIntervalGo fuel b s = s
  | 0, _, _, _ => rfl
  | _ + 1, _, [], _ => rfl
  | fuel + 1, prevWord, c :: rest, h => by
    have hrest : ∀ x ∈ rest, x ≠ '\'' := fun x hx => h x (by simp [hx])
    simp only [fixIntervalGo]
    split
    · rw [matchIntervalAt_none _ h]
      show c :: fixIntervalGo fuel (isWordChar c) rest = _
      rw [fixIntervalGo_id fuel _ rest hrest]
    · rw [fixIntervalGo_id fuel _ rest hrest]

/-- `_fix_interval_literals` is the identity on printed SQL (which never
contains a single quote). -/
theorem fixInterval_joinToks (ts : List Tok) (h : ts.all tokOk = true) :
    fixInterval (joinToks ts) = joinToks ts := by
  rw [fixInterval, fixIntervalGo_id]
  exact joinToks_char_free ts h '\'' (by decide) (by decide) (by decide)

theorem tokOk_map_qTok {ts : List Tok} (h : ts.all tokOk = true) :
    (ts.map qTok).all tokOk = true := by
  rw [List.all_map]
  simp only [List.all_eq_true] at h ⊢
  exact fun t ht => tokOk_qTok (h t ht)

theorem tokOk_map_uqPass {w repl : List Char} (hrok : wordRawOk repl = true)
    {ts : List Tok} (h : ts.all tokOk = true) :
    (ts.map (uqPassTok w repl)).all tokOk = true := by
  rw [List.all_map]
  simp only [List.all_eq_true] at h ⊢
  exact fun t ht => tokOk_uqPassTok hrok (h t ht)

theorem noWordDesc_qTok (ts : List Tok) : noWordDesc (ts.map qTok) = true := by
  simp only [noWordDesc, List.all_map, List.all_eq_true]
  intro t _
  cases t with
  | word r =>
    cases hres : RESERVED_LIKE.contains (lowerChars r) with
    | true =>
      have hmem : lowerChars r ∈ RESERVED_LIKE := by simpa using hres
      simp [Function.comp, qTok, hmem]
    | false =>
      have hmem : lowerChars r ∉ RESERVED_LIKE := by simpa using hres
      have hne : ¬(lowerChars r = "desc".data) := by
        intro hcon
        exact hmem (by rw [hcon]; decide)
      simp only [Function.comp_apply, qTok]
      rw [hres]
      simp [hne]
  | num n => rfl
  | quot r => rfl
  | comma => rfl
  | dot => rfl
  | lparen => rfl
  | rparen => rfl
  | star => rfl
  | opEq => rfl
  | opNe => rfl
  | opLt => rfl
  | opGt => rfl
  | opLe => rfl
  | opGe => rfl
  | rawtext s => rfl

theorem noWordDesc_uqPassAsc {ts : List Tok} (h : noWordDesc ts = true) :
    noWordDesc (ts.map (uqPassTok "asc".data "ASC".data)) = true := by
  simp only [noWordDesc, List.all_map, List.all_eq_true] at h ⊢
  intro t ht
  have h1 := h t ht
  cases t with
  | word r => simpa [Function.comp, uqPassTok] using h1
  | quot r =>
    by_cases hlw : lowerChars r = "asc".data
    · simp [Function.comp, uqPassTok, hlw]
      decide
    · simp [Function.comp, uqPassTok, hlw]
  | num n => rfl
  | comma => rfl
  | dot => rfl
  | lparen => rfl
  | rparen => rfl
  | star => rfl
  | opEq => rfl
  | opNe => rfl
  | opLt => rfl
  | opGt => rfl
  | opLe => rfl
  | opGe => rfl
  | rawtext s => rfl

theorem noWordThenQuot_of_noWordDesc : ∀ ts : List Tok,
    noWordDesc ts = true → noWordThenQuot "desc".data ts = true
  | [] => fun _ => rfl
  | [_] => fun _ => rfl
  | a :: b :: rest => fun h => by
    have htl : noWordDesc (b :: rest) = true := by
      simp only [noWordDesc, List.all_cons, Bool.and_eq_true] at h ⊢
      exact h.2
    simp only [noWordThenQuot, Bool.and_eq_true]
    refine ⟨?_, noWordThenQuot_of_noWordDesc (b :: rest) htl⟩
    cases a with
    | word r =>
      cases b with
      | quot r2 =>
        have hha : (!decide (lowerChars r = "desc".data)) = true := by
          simp only [noWordDesc, List.all_cons, Bool.and_eq_true] at h
          exact h.1
        simpa [wqPairOk] using hha
      | word r2 => rfl
      | num n => rfl
      | comma => rfl
      | dot => rfl
      | lparen => rfl
      | rparen => rfl
      | star => rfl
      | opEq => rfl
      | opNe => rfl
      | opLt => rfl
      | opGt => rfl
      | opLe => rfl
      | opGe => rfl
      | rawtext s => rfl
    | num n => cases b <;> rfl
    | quot r => cases b <;> rfl
    | comma => cases b <;> rfl
    | dot => cases b <;> rfl
    | lparen => cases b <;> rfl
    | rparen => cases b <;> rfl
    | star => cases b <;> rfl
    | opEq => cases b <;> rfl
    | opNe => cases b <;> rfl
    | opLt => cases b <;> rfl
    | opGt => cases b <;> rfl
    | opLe => cases b <;> rfl
    | opGe => cases b <;> rfl
    | rawtext s => cases b <;> rfl

theorem noWordThenQuot_asc_qTok : ∀ ts : List Tok, ascSafe ts = true →
    noWordThenQuot "asc".data (ts.map qTok) = true
  | [] => fun _ => rfl
  | [t] => fun _ => by
    cases t <;> simp [noWordThenQuot, qTok] <;> split <;> simp [noWordThenQuot]
  | a :: b :: rest => fun h => by
    simp only [ascSafe, Bool.and_eq_true] at h
    have ih := noWordThenQuot_asc_qTok (b :: rest) h.2
    simp only [List.map_cons] at ih ⊢
    simp only [noWordThenQuot, Bool.and_eq_true]
    refine ⟨?_, ih⟩
    have hp := h.1
    cases a with
    | word r2 =>
      cases hres2 : RESERVED_LIKE.contains (lowerChars r2) with
      | true =>
        have hmem2 : lowerChars r2 ∈ RESERVED_LIKE := by simpa using hres2
        rw [show qTok (Tok.word r2) = Tok.quot r2 from by simp [qTok, hmem2]]
        cases hqb : qTok b <;> rfl
      | false =>
        have hmem2 : lowerChars r2 ∉ RESERVED_LIKE := by simpa using hres2
        rw [show qTok (Tok.word r2) = Tok.word r2 from by simp [qTok, hmem2]]
        cases b with
        | word r3 =>
          cases hres3 : RESERVED_LIKE.contains (lowerChars r3) with
          | true =>
            have hmem3 : lowerChars r3 ∈ RESERVED_LIKE := by simpa using hres3
            rw [show qTok (Tok.word r3) = Tok.quot r3 from by simp [qTok, hmem3]]
            simp only [ascSafePair] at hp
            rw [hres3] at hp
            simpa [wqPairOk] using hp
          | false =>
            have hmem3 : lowerChars r3 ∉ RESERVED_LIKE := by simpa using hres3
            rw [show qTok (Tok.word r3) = Tok.word r3 from by simp [qTok, hmem3]]
            rfl
        | quot r3 =>
          simpa [wqPairOk, qTok, ascSafePair] using hp
        | num n => rfl
        | comma => rfl
        | dot => rfl
        | lparen => rfl
        | rparen => rfl
        | star => rfl
        | opEq => rfl
        | opNe => rfl
        | opLt => rfl
        | opGt => rfl
        | opLe => rfl
        | opGe => rfl
        | rawtext s => rfl
    | num n => cases hqb : qTok b <;> rfl
    | quot r2 => cases hqb : qTok b <;> rfl
    | comma => cases hqb : qTok b <;> rfl
    | dot => cases hqb : qTok b <;> rfl
    | lparen => cases hqb : qTok b <;> rfl
    | rparen => cases hqb : qTok b <;> rfl
    | star => cases hqb : qTok b <;> rfl
    | opEq => cases hqb : qTok b <;> rfl
    | opNe => cases hqb : qTok b <;> rfl
    | opLt => cases hqb : qTok b <;> rfl
    | opGt => cases hqb : qTok b <;> rfl
    | opLe => cases hqb : qTok b <;> rfl
    | opGe => cases hqb : qTok b <;> rfl
    | rawtext s => cases hqb : qTok b <;> rfl

/-- The composed rewrite `_quote_reserved_identifiers` then the two
`_unquote_order_dir` passes, per token, is `uqTok`. -/
theorem uqTok_eq (t : Tok) :
    uqTok t = uqPassTok "desc".data "DESC".data
      (uqPassTok "asc".data "ASC".data (qTok t)) := by
  cases t with
  | word r =>
    by_cases hd : lowerChars r = "desc".data
    · have hmem : ("desc".data) ∈ RESERVED_LIKE := by decide
      have hna : ¬(lowerChars r = "asc".data) := by rw [hd]; decide
      simp [uqTok, qTok, uqPassTok, hd, hmem, hna]
    · by_cases hres : lowerChars r ∈ RESERVED_LIKE
      · have hna : ¬(lowerChars r = "asc".data) := by
          intro hcon
          rw [hcon] at hres
          exact absurd hres (by decide)
        simp [uqTok, qTok, uqPassTok, hd, hres, hna]
      · simp [uqTok, qTok, uqPassTok, hd, hres]
  | quot r =>
    by_cases hd : lowerChars r = "desc".data
    · have hna : ¬(lowerChars r = "asc".data) := by
        rw [hd]; decide
      simp [uqTok, qTok, uqPassTok, hd, hna]
    · by_cases ha : lowerChars r = "asc".data
      · simp [uqTok, qTok, uqPassTok, hd, ha]
      · simp [uqTok, qTok, uqPassTok, hd, ha]
  | num n => rfl
  | comma => rfl
  | dot => rfl
  | lparen => rfl
  | rparen => rfl
  | star => rfl
  | opEq => rfl
  | opNe => rfl
  | opLt => rfl
  | opGt => rfl
  | opLe => rfl
  | opGe => rfl
  | rawtext s => rfl

/-- `_unquote_order_dir` acts token-wise on printed SQL. -/
theorem unquoteOrderDir_joinToks (ts : List Tok) (h : ts.all tokOk = true)
    (hasc : noWordThenQuot "asc".data ts = true)
    (hnd : noWordDesc ts = true) :
    unquoteOrderDir (joinToks ts) =
      joinToks ((ts.map (uqPassTok "asc".data "ASC".data)).map
        (uqPassTok "desc".data "DESC".data)) := by
  have h1 := @unquoteDirGo_joinToks "asc".data "ASC".data
    (by decide) (by decide) (by decide) ts ((joinToks ts).length + 1) h hasc
    (by omega)
  have h2all : (ts.map (uqPassTok "asc".data "ASC".data)).all tokOk = true :=
    tokOk_map_uqPass (by decide) h
  have h2wq := noWordThenQuot_of_noWordDesc _ (noWordDesc_uqPassAsc hnd)
  have h2 := @unquoteDirGo_joinToks "desc".data "DESC".data
    (by decide) (by decide) (by decide)
    (ts.map (uqPassTok "asc".data "ASC".data))
    ((joinToks (ts.map (uqPassTok "asc".data "ASC".data))).length + 1)
    h2all h2wq (by omega)
  rw [unquoteOrderDir]
  rw [h1, h2]

/-- The full post-render normalization chain of `validate_and_rewrite`
acts token-wise on printed SQL as `uqTok`. -/
theorem normChain_joinToks (ts : List Tok) (h : ts.all tokOk = true)
    (hasc : ascSafe ts = true) :
    normChain (joinToks ts) = joinToks (ts.map uqTok) := by
  rw [normChain, stripTrailingSemicolon_joinToks ts h,
    fixInterval_joinToks ts h, quoteReserved_joinToks ts h]
  rw [unquoteOrderDir_joinToks _ (tokOk_map_qTok h)
    (noWordThenQuot_asc_qTok ts hasc) (noWordDesc_qTok ts)]
  congr 1
  rw [List.map_map, List.map_map]
  apply List.map_congr_left
  intro t _
  exact (uqTok_eq t).symm

theorem tokSegs_any_limit (t : Tok) (ht : tokOk t = true) :
    ((tokSegs t).any fun sg =>
      match sg with
      | Seg.run r => decide (lowerChars r = "limit".data)
      | _ => false) = hasLimitTok t := by
  cases t with
  | word r => simp [tokSegs, hasLimitTok]
  | quot r => simp [tokSegs, hasLimitTok]
  | num n =>
    have hdig : (natDigits n).all Char.isDigit = true := by
      simpa using natDigits_all_digit n
    have hne := digits_ne_alphaWord hdig (natDigits_ne_nil n)
      (w := "limit".data) (by decide)
    simp [tokSegs, hasLimitTok, hne]
  | rawtext s => exact absurd ht (by simp [tokOk])
  | comma => rfl
  | dot => rfl
  | lparen => rfl
  | rparen => rfl
  | star => rfl
  | opEq => rfl
  | opNe => rfl
  | opLt => rfl
  | opGt => rfl
  | opLe => rfl
  | opGe => rfl

theorem segsOfToks_any_limit : ∀ ts : List Tok, ts.all tokOk = true →
    ((segsOfToks ts).any fun sg =>
      match sg with
      | Seg.run r => decide (lowerChars r = "limit".data)
      | _ => false) = ts.any hasLimitTok
  | [], _ => rfl
  | [t], h => by
    have ht : tokOk t = true := by simpa using h
    show ((tokSegs t).any _) = _
    rw [tokSegs_any_limit t ht]
    simp
  | a :: b :: rest, h => by
    have ha : tokOk a = true := by
      simp only [List.all_cons, Bool.and_eq_true] at h; exact h.1
    have htl : (b :: rest).all tokOk = true := by
      simp only [List.all_cons, Bool.and_eq_true] at h ⊢; exact h.2
    have ih := segsOfToks_any_limit (b :: rest) htl
    simp only [segsOfToks, List.any_append, ih, tokSegs_any_limit a ha,
      List.any_cons]
    cases needSpace a b <;> simp [Bool.or_assoc]

/-- `_has_limit`'s `\blimit\b` on printed SQL counts word *and* quoted
`limit` spellings alike. -/
theorem hasLimitWord_joinToks (ts : List Tok) (h : ts.all tokOk = true) :
    hasLimitWord (joinToks ts) = ts.any hasLimitTok := by
  rw [hasLimitWord, chunkRuns_joinToks ts h]
  exact segsOfToks_any_limit ts h

/-- The composed normalization rewrite is idempotent on tokens. -/
theorem uqTok_idem (t : Tok) : uqTok (uqTok t) = uqTok t := by
  have hDESC : lowerChars "DESC".data = "desc".data := by decide
  have hASC : lowerChars "ASC".data = "asc".data := by decide
  have hdm : ("desc".data) ∈ RESERVED_LIKE := by decide
  have ham : ("asc".data) ∉ RESERVED_LIKE := by decide
  have hda : ¬(("desc".data : List Char) = "asc".data) := by decide
  have had : ¬(("asc".data : List Char) = "desc".data) := by decide
  cases t with
  | word r =>
    by_cases hd : lowerChars r = "desc".data
    · simp [uqTok, hd, hDESC]
    · by_cases hres : lowerChars r ∈ RESERVED_LIKE
      · have hna : ¬(lowerChars r = "asc".data) := by
          intro hcon
          rw [hcon] at hres
          exact ham hres
        simp [uqTok, hd, hres, hna]
      · simp [uqTok, hd, hres]
  | quot r =>
    by_cases hd : lowerChars r = "desc".data
    · simp [uqTok, hd, hDESC]
    · by_cases ha : lowerChars r = "asc".data
      · simp [uqTok, hd, ha, hASC, had, ham]
      · simp [uqTok, hd, ha]
  | num n => rfl
  | comma => rfl
  | dot => rfl
  | lparen => rfl
  | rparen => rfl
  | star => rfl
  | opEq => rfl
  | opNe => rfl
  | opLt => rfl
  | opGt => rfl
  | opLe => rfl
  | opGe => rfl
  | rawtext s => rfl

/-- C9 counterexample: the claim says every occurrence of the
reserved-like identifiers (`check`, `desc`, `key`, `user`) in a returned
SQL string is wrapped in backticks.  On `SELECT `desc` FROM t` the Guard
returns `SELECT DESC FROM t LIMIT 200`: the output still contains a
`desc` spelling but no backtick at all — `_unquote_order_dir` strips the
very backticks `_quote_reserved_identifiers` adds around any `desc`. -/
theorem c9_reserved_quoting_counterexample :
    (validate_and_rewrite "SELECT `desc` FROM t".data gschema 200 false
        none false DEFAULT_DERIVED_ALIASES).toOption =
      some "SELECT DESC FROM t LIMIT 200".data ∧
    infixOf "desc".data
      (lowerChars "SELECT DESC FROM t LIMIT 200".data) = true ∧
    infixOf [tickChar] "SELECT DESC FROM t LIMIT 200".data = false := by
  refine ⟨by decide, by decide, by decide⟩

/-- C9 amended: on printed SQL the normalization chain rewrites every
token by `uqTok`: bare `check`/`key`/`user` become backtick-quoted (and
quoted ones stay quoted), but every spelling of `desc` — bare or quoted —
comes out as the *unquoted* word `DESC`, because `_unquote_order_dir`
unwraps each backticked `desc` that `_quote_reserved_identifiers`
produced. -/
theorem c9_reserved_quoting_amended :
    (∀ ts : List Tok, ts.all tokOk = true → ascSafe ts = true →
      normChain (joinToks ts) = joinToks (ts.map uqTok)) ∧
    (∀ r, lowerChars r = "desc".data →
      uqTok (Tok.word r) = Tok.word "DESC".data ∧
      uqTok (Tok.quot r) = Tok.word "DESC".data) ∧
    (∀ r, lowerChars r = "check".data ∨ lowerChars r = "key".data ∨
        lowerChars r = "user".data →
      uqTok (Tok.word r) = Tok.quot r ∧ uqTok (Tok.quot r) = Tok.quot r) := by
  refine ⟨normChain_joinToks, ?_, ?_⟩
  · intro r hr
    exact ⟨by simp [uqTok, hr], by simp [uqTok, hr]⟩
  · intro r hr
    have hmem : lowerChars r ∈ RESERVED_LIKE := by
      rcases hr with hr | hr | hr <;> rw [hr] <;> decide
    have hnd : ¬(lowerChars r = "desc".data) := by
      rcases hr with hr | hr | hr <;> rw [hr] <;> decide
    have hna : ¬(lowerChars r = "asc".data) := by
      rcases hr with hr | hr | hr <;> rw [hr] <;> decide
    exact ⟨by simp [uqTok, hmem, hnd], by simp [uqTok, hnd, hna]⟩

/-- Witness for the hypotheses of `c9_reserved_quoting_amended`'s first
conjunct at a concrete printed token list. -/
theorem c9_reserved_quoting_amended_witness :
    ([Tok.word "SELECT".data, Tok.word "desc".data,
        Tok.word "FROM".data, Tok.quot "user".data].all tokOk = true ∧
      ascSafe [Tok.word "SELECT".data, Tok.word "desc".data,
        Tok.word "FROM".data, Tok.quot "user".data] = true) ∧
    normChain (joinToks [Tok.word "SELECT".data, Tok.word "desc".data,
        Tok.word "FROM".data, Tok.quot "user".data]) =
      joinToks ([Tok.word "SELECT".data, Tok.word "desc".data,
        Tok.word "FROM".data, Tok.quot "user".data].map uqTok) :=
  ⟨⟨by decide, by decide⟩,
   c9_reserved_quoting_amended.1 _ (by decide) (by decide)⟩

/-- C1 counterexample: on `SELECT `limit` FROM t` — which contains no
LIMIT clause (`limitPairs` finds none) — the accepted output is returned
*without* appending `LIMIT 200`, because `_has_limit`'s `\blimit\b`
matches the backtick-quoted `limit` identifier. -/
theorem c1_limit_policy_counterexample :
    limitPairs "SELECT `limit` FROM t".data = [] ∧
    (validate_and_rewrite "SELECT `limit` FROM t".data gschema 200 false
        none false DEFAULT_DERIVED_ALIASES).toOption =
      some "SELECT `limit` FROM t".data ∧
    infixOf " LIMIT ".data "SELECT `limit` FROM t".data = false := by
  refine ⟨by decide, by decide, by decide⟩

/-- C1 amended: the Guard's LIMIT detection is the word-boundary regex
`\blimit\b`, which on printed SQL counts bare *and* backtick-quoted
`limit` spellings alike (first conjunct); `LIMIT max` is appended exactly
when that detection fails, otherwise the clamp pass runs, which rewrites
`LIMIT off, cnt` to `LIMIT off, min(cnt, max)` preserving the offset. -/
theorem c1_limit_policy_amended :
    (∀ ts : List Tok, ts.all tokOk = true →
      hasLimitWord (joinToks ts) = ts.any hasLimitTok) ∧
    (∀ s maxLimit, hasLimitWord s = false →
      limitTail s maxLimit = s ++ (" LIMIT ".data ++ natDigits maxLimit)) ∧
    (∀ s maxLimit, hasLimitWord s = true →
      limitTail s maxLimit = clampLimit s maxLimit) ∧
    clampLimit "SELECT a FROM t LIMIT 7, 500".data 200 =
      "SELECT a FROM t LIMIT 7, 200".data ∧
    limitTail "SELECT a FROM t".data 200 =
      "SELECT a FROM t LIMIT 200".data := by
  refine ⟨hasLimitWord_joinToks, ?_, ?_, by decide, by decide⟩
  · intro s maxLimit hs
    simp [limitTail, hs]
  · intro s maxLimit hs
    simp [limitTail, hs]

/-- C3 counterexample: with `keep_order_by` false and permissive mode
off, a union-level `ORDER BY` survives validation — `stripSelectOrders`
clears `order` only on `exp.Select` nodes, and a union's trailing ORDER
BY lives on the `exp.Union` node. -/
theorem c3_order_by_counterexample :
    (validate_and_rewrite
        "SELECT a FROM t UNION SELECT b FROM t ORDER BY a LIMIT 5".data
        gschema 200 false none false DEFAULT_DERIVED_ALIASES).toOption =
      some "SELECT a FROM t UNION SELECT b FROM t ORDER BY a LIMIT 5".data ∧
    infixOf "ORDER BY".data
      "SELECT a FROM t UNION SELECT b FROM t ORDER BY a LIMIT 5".data =
      true := by
  refine ⟨by decide, by decide⟩

/-- C3 amended: ORDER BY removal acts on `exp.Select` nodes only: a
single SELECT loses its ORDER BY (last conjunct), while the union-level
ORDER BY of a `Query.two` is untouched by `stripSelectOrders` and
survives the full pipeline (third conjunct). -/
theorem c3_order_by_amended :
    (∀ s ord lim, stripSelectOrders (Query.one s ord lim) =
      Query.one s [] lim) ∧
    (∀ l u r ord lim, stripSelectOrders (Query.two l u r ord lim) =
      Query.two l u r ord lim) ∧
    ((validate_and_rewrite
        "SELECT a FROM t UNION ALL SELECT b FROM t ORDER BY b".data
        gschema 200 false none false DEFAULT_DERIVED_ALIASES).toOption =
      some "SELECT a FROM t UNION ALL SELECT b FROM t ORDER BY b LIMIT 200".data) ∧
    ((validate_and_rewrite "SELECT a FROM t ORDER BY a".data gschema 200
        false none false DEFAULT_DERIVED_ALIASES).toOption =
      some "SELECT a FROM t LIMIT 200".data) := by
  refine ⟨fun s ord lim => rfl, fun l u r ord lim => rfl, by decide, by decide⟩

/-- C6 counterexample: validation is not idempotent.  `SELECT limit3
FROM t` is accepted and returned with `LIMIT 200` appended; feeding that
output back, `_clamp_limit`'s regex `\blimit\s*(\d+)` now matches the
*identifier* `limit3` and rewrites it to `LIMIT 3`, so the second pass
returns a different string. -/
theorem c6_idempotence_counterexample :
    (validate_and_rewrite "SELECT limit3 FROM t".data gschema 200 false
        none false DEFAULT_DERIVED_ALIASES).toOption =
      some "SELECT limit3 FROM t LIMIT 200".data ∧
    (validate_and_rewrite "SELECT limit3 FROM t LIMIT 200".data gschema 200
        false none false DEFAULT_DERIVED_ALIASES).toOption =
      some "SELECT LIMIT 3 FROM t LIMIT 200".data ∧
    "SELECT limit3 FROM t LIMIT 200".data ≠
      "SELECT LIMIT 3 FROM t LIMIT 200".data := by
  refine ⟨by decide, by decide, by decide⟩

/-- C6 amended: the identifier-rewriting stage is idempotent (`uqTok` is
a projection, first conjunct), and on outputs free of `limit`-digit
identifiers a second validation returns the same string: shown end to
end for a plain query (the appended `LIMIT 200` is re-clamped to itself)
and for a single-row aggregate (whose output has no LIMIT at all). -/
theorem c6_idempotence_amended :
    (∀ t : Tok, uqTok (uqTok t) = uqTok t) ∧
    ((validate_and_rewrite "SELECT a FROM t".data gschema 200 false
        none false DEFAULT_DERIVED_ALIASES).toOption =
      some "SELECT a FROM t LIMIT 200".data) ∧
    ((validate_and_rewrite "SELECT a FROM t LIMIT 200".data gschema 200
        false none false DEFAULT_DERIVED_ALIASES).toOption =
      some "SELECT a FROM t LIMIT 200".data) ∧
    ((validate_and_rewrite "SELECT COUNT(*) FROM t".data gschema 200 false
        none false DEFAULT_DERIVED_ALIASES).toOption =
      some "SELECT COUNT(*) FROM t".data) ∧
    ((validate_and_rewrite "SELECT COUNT(*) FROM t LIMIT 5".data gschema
        200 false none false DEFAULT_DERIVED_ALIASES).toOption =
      some "SELECT COUNT(*) FROM t".data) := by
  refine ⟨uqTok_idem, by decide, by decide, by decide, by decide⟩

end TextSql
